import Mathlib

/-!
Verification of the VNS-CVRP metaheuristic solver (shallow embedding).

The Python sources are embedded as executable Lean definitions:
* `src/src/utils.py`         → route cost / demand helpers (float arithmetic is
  modelled exactly over `ℚ`; Python `abs` is modelled by `pyAbs`);
* `src/src/neighborhoods.py` → the six local-search operators `N1` … `N6`.
  Each Python `while improved` loop is modelled with an explicit fuel
  parameter (`opLoop`): every loop pass either applies the move chosen by the
  scan (exactly the move the Python pass applies) or stops;
* `src/src/shaking.py`       → the three randomized shaking operators, with
  the `random` module modelled by an explicit stream of naturals (`Rng`);
  `random.randint a b` consumes one draw `v` and yields `a + v % (b - a + 1)`,
  `random.choice l` yields `l[v % len l]`, `random.sample l 2` consumes two
  draws, and `random.shuffle` is the Fisher-Yates loop of CPython;
* `src/src/vnd.py`           → `VND`, with loop fuel and a convergence flag;
* `src/src/vns.py`           → the solution fingerprint, the tabu list and the
  VNS orchestrator loop (wall-clock checks are modelled by a `timeUp` oracle,
  and the Euclidean distance matrix of `compute_distance_matrix` is passed as
  the rational-valued function `dist`, since `math.hypot` has no exact
  rational counterpart; concrete instances below use collinear points, whose
  Euclidean distances are exact rationals);
* `src/src/construction.py`  → the five construction heuristics.

Python lists are Lean lists; list indexing uses `List.getD` (all source
accesses are in bounds); `list.pop i` is `List.eraseIdx`, `list.insert` is
`List.insertIdx`, and slices are translated by `take`/`drop`/`dropLast`.
Python ints are `ℕ` (demands, capacities) with intermediate load arithmetic
carried out in `ℤ` where the source may subtract.
-/

namespace VnsCvrp

/-- Route: a list of node indices; node 0 is the depot. -/
abbrev Route := List ℕ

/-- Solution: a list of routes. -/
abbrev Sol := List Route

/-- Sum of a list of naturals (explicit recursion keeps kernel reduction cheap). -/
def natSum : List ℕ → ℕ
  | [] => 0
  | a :: t => a + natSum t

/-- Sum of a list of rationals (explicit recursion keeps kernel reduction cheap). -/
def ratSum : List ℚ → ℚ
  | [] => 0
  | a :: t => a + ratSum t

/-- Python `abs` on a rational value. -/
def pyAbs (q : ℚ) : ℚ := if q < 0 then -q else q

/-- IMPROVEMENT_THRESHOLD from `config.py` (0.001). -/
def IMPROVEMENT_THRESHOLD : ℚ := Rat.divInt 1 1000

/-- Epsilon used by the VND / VNS acceptance tests in the source (1e-6). -/
def EPS : ℚ := Rat.divInt 1 1000000

/-- K_MAX from `config.py`. -/
def K_MAX : ℕ := 5

/-- TABU_TENURE_MIN from `config.py`. -/
def TABU_TENURE_MIN : ℕ := 10

/-- TABU_TENURE_MAX from `config.py`. -/
def TABU_TENURE_MAX : ℕ := 20

/-- PATIENCE_MIN from `config.py`. -/
def PATIENCE_MIN : ℕ := 300

/-- PATIENCE_MAX from `config.py`. -/
def PATIENCE_MAX : ℕ := 300

/-- route_cost from `utils.py`: sum of consecutive edge distances. -/
def route_cost (dist : ℕ → ℕ → ℚ) : Route → ℚ
  | a :: b :: t => dist a b + route_cost dist (b :: t)
  | _ => 0

/-- solution_cost from `utils.py`: sum of route costs. -/
def solution_cost (dist : ℕ → ℕ → ℚ) : Sol → ℚ
  | [] => 0
  | r :: t => route_cost dist r + solution_cost dist t

/-- route_demand from `utils.py`: sum of demands of the non-depot nodes of a route. -/
def route_demand (demands : ℕ → ℕ) (r : Route) : ℕ :=
  natSum ((r.filter (fun c => c ≠ 0)).map demands)

/-- Interior of a route: the Python slice `r[1:-1]`. -/
def interior (r : Route) : List ℕ := (r.drop 1).dropLast

/-- Concatenated interiors of all routes of a solution. -/
def interiors : Sol → List ℕ
  | [] => []
  | r :: t => interior r ++ interiors t

/-- Fuel-bounded iteration of a `while improved` loop body: the body returns
`some` of the next solution when the pass applied a move, `none` when no move
was found (the Python loop then exits). -/
def opLoop (step : Sol → Option Sol) : ℕ → Sol → Sol
  | 0, sol => sol
  | fuel + 1, sol =>
    match step sol with
    | none => sol
    | some sol2 => opLoop step fuel sol2

/-- Best-of-pass selection: fold over the candidate list keeping the move with
the strictly smallest delta, starting from `best_delta = -θ` and `best_move =
None` exactly as in the Python passes of N2/N3/N5/N6. -/
def pickBest {M : Type} (delta : M → ℚ) (θ : ℚ) (ms : List M) : Option M :=
  (ms.foldl
    (fun acc m => if delta m < acc.1 then (delta m, some m) else acc)
    (-θ, (none : Option M))).2

theorem pickBest_spec {M : Type} (delta : M → ℚ) (θ : ℚ) (P : M → Prop) :
    ∀ (ms : List M) (acc : ℚ × Option M), (∀ m ∈ ms, P m) → acc.1 ≤ -θ →
      (∀ m, acc.2 = some m → P m ∧ delta m < -θ) →
      ∀ m, (ms.foldl
        (fun acc m => if delta m < acc.1 then (delta m, some m) else acc)
        acc).2 = some m →
        P m ∧ delta m < -θ := by
  intro ms
  induction ms with
  | nil =>
    intro acc _ _ h2 m hm
    exact h2 m hm
  | cons m0 t ih =>
    intro acc hP h1 h2 m hm
    simp only [List.foldl_cons] at hm
    by_cases hlt : delta m0 < acc.1
    · rw [if_pos hlt] at hm
      refine ih (delta m0, some m0) (fun m hmem => hP m (List.mem_cons_of_mem _ hmem))
        (le_of_lt (lt_of_lt_of_le hlt h1)) ?_ m hm
      intro m2 hm2
      simp only [Option.some.injEq] at hm2
      subst hm2
      exact ⟨hP m0 (List.mem_cons_self m0 t), lt_of_lt_of_le hlt h1⟩
    · rw [if_neg hlt] at hm
      exact ih acc (fun m hmem => hP m (List.mem_cons_of_mem _ hmem)) h1 h2 m hm

theorem pickBest_mem {M : Type} {delta : M → ℚ} {θ : ℚ} {ms : List M} {m : M}
    (h : pickBest delta θ ms = some m) : m ∈ ms ∧ delta m < -θ := by
  refine pickBest_spec delta θ (· ∈ ms) ms (-θ, none) (fun m hm => hm) le_rfl ?_ m h
  intro m2 hm2
  simp at hm2

/-- List indexing with default 0 (Python `l[i]` on an in-bounds index). -/
def getN (l : List ℕ) (i : ℕ) : ℕ := l.getD i 0

/-- Solution indexing with default `[]` (Python `sol[i]` on an in-bounds index). -/
def getR (sol : Sol) (i : ℕ) : Route := sol.getD i []

/-- Python `route[:i] + route[i:j+1][::-1] + route[j+1:]`. -/
def reverseSeg (r : Route) (i j : ℕ) : Route :=
  r.take i ++ ((r.drop i).take (j + 1 - i)).reverse ++ r.drop (j + 1)

/-- Delta of the N1 2-opt move on `route` (lines 31-34 of neighborhoods.py). -/
def n1Delta (dist : ℕ → ℕ → ℚ) (route : Route) (i j : ℕ) : ℚ :=
  dist (getN route (i - 1)) (getN route j) + dist (getN route i) (getN route (j + 1))
    - dist (getN route (i - 1)) (getN route i) - dist (getN route j) (getN route (j + 1))

/-- Scan order of one N1 pass: routes in order, `i` in `range(1, len-2)`,
`j` in `range(i+1, len-1)`; routes of length ≤ 3 are skipped. -/
def n1Candidates (sol : Sol) : List (ℕ × ℕ × ℕ) :=
  (List.range sol.length).flatMap fun r =>
    let route := getR sol r
    if route.length ≤ 3 then [] else
      (List.range' 1 (route.length - 3)).flatMap fun i =>
        (List.range' (i + 1) (route.length - 2 - i)).map fun j => (r, i, j)

/-- One pass of N1: apply the first improving segment reversal, if any. -/
def n1Step (dist : ℕ → ℕ → ℚ) (sol : Sol) : Option Sol :=
  match (n1Candidates sol).find?
      (fun m => decide (n1Delta dist (getR sol m.1) m.2.1 m.2.2 < -IMPROVEMENT_THRESHOLD)) with
  | none => none
  | some (r, i, j) => some (sol.set r (reverseSeg (getR sol r) i j))

/-- N1_two_opt_intra from neighborhoods.py, with loop fuel. -/
def N1_two_opt_intra (fuel : ℕ) (sol : Sol) (dist : ℕ → ℕ → ℚ) : Sol :=
  opLoop (n1Step dist) fuel sol

/-- Candidate moves of one N2 pass: `(r1, c, r2, pos)` with the guards of
lines 58-75 of neighborhoods.py (non-trivial source route, interior customer,
distinct destination route, destination capacity check, insert position). -/
def n2Candidates (demands : ℕ → ℕ) (cap : ℕ) (sol : Sol) : List (ℕ × ℕ × ℕ × ℕ) :=
  (List.range sol.length).flatMap fun r1 =>
    if (getR sol r1).length ≤ 2 then [] else
      (List.range' 1 ((getR sol r1).length - 2)).flatMap fun c =>
        let customer := getN (getR sol r1) c
        (List.range sol.length).flatMap fun r2 =>
          if r1 = r2 then [] else
            if cap < route_demand demands (getR sol r2) + demands customer then [] else
              (List.range' 1 ((getR sol r2).length - 1)).map fun pos => (r1, c, r2, pos)

/-- Delta of an N2 relocate move (removal delta plus insertion delta). -/
def n2Delta (dist : ℕ → ℕ → ℚ) (sol : Sol) (m : ℕ × ℕ × ℕ × ℕ) : ℚ :=
  match m with
  | (r1, c, r2, pos) =>
    let route1 := getR sol r1
    let route2 := getR sol r2
    let customer := getN route1 c
    (dist (getN route1 (c - 1)) (getN route1 (c + 1))
        - dist (getN route1 (c - 1)) customer - dist customer (getN route1 (c + 1)))
      + (dist (getN route2 (pos - 1)) customer + dist customer (getN route2 pos)
        - dist (getN route2 (pos - 1)) (getN route2 pos))

/-- Application of an N2 move: pop, insert, then drop depleted routes. -/
def n2Apply (sol : Sol) (m : ℕ × ℕ × ℕ × ℕ) : Sol :=
  match m with
  | (r1, c, r2, pos) =>
    let customer := getN (getR sol r1) c
    let sol1 := sol.set r1 ((getR sol r1).eraseIdx c)
    let sol2 := sol1.set r2 (List.insertIdx pos customer (getR sol1 r2))
    sol2.filter fun r => 2 < r.length

/-- One pass of N2: best improving relocate move, if any. -/
def n2Step (demands : ℕ → ℕ) (cap : ℕ) (dist : ℕ → ℕ → ℚ) (sol : Sol) : Option Sol :=
  match pickBest (n2Delta dist sol) IMPROVEMENT_THRESHOLD (n2Candidates demands cap sol) with
  | none => none
  | some m => some (n2Apply sol m)

/-- N2_relocate_inter from neighborhoods.py, with loop fuel. -/
def N2_relocate_inter (fuel : ℕ) (sol : Sol) (demands : ℕ → ℕ) (cap : ℕ)
    (dist : ℕ → ℕ → ℚ) : Sol :=
  opLoop (n2Step demands cap dist) fuel sol

/-- Candidate moves of one N3 pass: `(r1, c1, r2, c2)` with the guards of
lines 107-125 of neighborhoods.py; the two post-swap loads are computed in `ℤ`
(Python int arithmetic) and checked against the capacity. -/
def n3Candidates (demands : ℕ → ℕ) (cap : ℕ) (sol : Sol) : List (ℕ × ℕ × ℕ × ℕ) :=
  (List.range sol.length).flatMap fun r1 =>
    if (getR sol r1).length ≤ 2 then [] else
      (List.range' 1 ((getR sol r1).length - 2)).flatMap fun c1 =>
        (List.range' (r1 + 1) (sol.length - (r1 + 1))).flatMap fun r2 =>
          if (getR sol r2).length ≤ 2 then [] else
            (List.range' 1 ((getR sol r2).length - 2)).filterMap fun c2 =>
              let cu1 := getN (getR sol r1) c1
              let cu2 := getN (getR sol r2) c2
              let load1 : ℤ := (route_demand demands (getR sol r1) : ℤ)
                - demands cu1 + demands cu2
              let load2 : ℤ := (route_demand demands (getR sol r2) : ℤ)
                - demands cu2 + demands cu1
              if (cap : ℤ) < load1 ∨ (cap : ℤ) < load2 then none else some (r1, c1, r2, c2)

/-- Delta of an N3 swap move (lines 127-134 of neighborhoods.py). -/
def n3Delta (dist : ℕ → ℕ → ℚ) (sol : Sol) (m : ℕ × ℕ × ℕ × ℕ) : ℚ :=
  match m with
  | (r1, c1, r2, c2) =>
    let ro1 := getR sol r1
    let ro2 := getR sol r2
    let cu1 := getN ro1 c1
    let cu2 := getN ro2 c2
    dist (getN ro1 (c1 - 1)) cu2 + dist cu2 (getN ro1 (c1 + 1))
      + dist (getN ro2 (c2 - 1)) cu1 + dist cu1 (getN ro2 (c2 + 1))
      - dist (getN ro1 (c1 - 1)) cu1 - dist cu1 (getN ro1 (c1 + 1))
      - dist (getN ro2 (c2 - 1)) cu2 - dist cu2 (getN ro2 (c2 + 1))

/-- Application of an N3 move: write each customer into the other route. -/
def n3Apply (sol : Sol) (m : ℕ × ℕ × ℕ × ℕ) : Sol :=
  match m with
  | (r1, c1, r2, c2) =>
    let cu1 := getN (getR sol r1) c1
    let cu2 := getN (getR sol r2) c2
    (sol.set r1 ((getR sol r1).set c1 cu2)).set r2 ((getR sol r2).set c2 cu1)

/-- One pass of N3: best improving swap move, if any. -/
def n3Step (demands : ℕ → ℕ) (cap : ℕ) (dist : ℕ → ℕ → ℚ) (sol : Sol) : Option Sol :=
  match pickBest (n3Delta dist sol) IMPROVEMENT_THRESHOLD (n3Candidates demands cap sol) with
  | none => none
  | some m => some (n3Apply sol m)

/-- N3_swap_inter from neighborhoods.py, with loop fuel. -/
def N3_swap_inter (fuel : ℕ) (sol : Sol) (demands : ℕ → ℕ) (cap : ℕ)
    (dist : ℕ → ℕ → ℚ) : Sol :=
  opLoop (n3Step demands cap dist) fuel sol

/-- Tail exchange of N4: `new_r1 = r1[:i+1] + r2[j+1:]`. -/
def n4NewR1 (sol : Sol) (r1 r2 i j : ℕ) : Route :=
  (getR sol r1).take (i + 1) ++ (getR sol r2).drop (j + 1)

/-- Tail exchange of N4: `new_r2 = r2[:j+1] + r1[i+1:]`. -/
def n4NewR2 (sol : Sol) (r1 r2 i j : ℕ) : Route :=
  (getR sol r2).take (j + 1) ++ (getR sol r1).drop (i + 1)

/-- Scan order of one N4 pass: `(r1, r2, i, j)` over non-trivial route pairs. -/
def n4Candidates (sol : Sol) : List (ℕ × ℕ × ℕ × ℕ) :=
  (List.range sol.length).flatMap fun r1 =>
    if (getR sol r1).length ≤ 2 then [] else
      (List.range' (r1 + 1) (sol.length - (r1 + 1))).flatMap fun r2 =>
        if (getR sol r2).length ≤ 2 then [] else
          (List.range' 1 ((getR sol r1).length - 2)).flatMap fun i =>
            (List.range' 1 ((getR sol r2).length - 2)).map fun j => (r1, r2, i, j)

/-- Acceptance test of an N4 move: both new routes feasible and the recombined
cost improves by more than the threshold (lines 172-179 of neighborhoods.py). -/
def n4Accept (demands : ℕ → ℕ) (cap : ℕ) (dist : ℕ → ℕ → ℚ) (sol : Sol)
    (m : ℕ × ℕ × ℕ × ℕ) : Prop :=
  match m with
  | (r1, r2, i, j) =>
    route_demand demands (n4NewR1 sol r1 r2 i j) ≤ cap ∧
      route_demand demands (n4NewR2 sol r1 r2 i j) ≤ cap ∧
      route_cost dist (n4NewR1 sol r1 r2 i j) + route_cost dist (n4NewR2 sol r1 r2 i j)
        < route_cost dist (getR sol r1) + route_cost dist (getR sol r2)
          - IMPROVEMENT_THRESHOLD

instance n4AcceptDecidable (demands : ℕ → ℕ) (cap : ℕ) (dist : ℕ → ℕ → ℚ) (sol : Sol)
    (m : ℕ × ℕ × ℕ × ℕ) : Decidable (n4Accept demands cap dist sol m) := by
  unfold n4Accept
  exact match m with
  | (r1, r2, i, j) => inferInstanceAs (Decidable (_ ∧ _ ∧ _))

/-- One pass of N4: apply the first feasible improving tail exchange, if any. -/
def n4Step (demands : ℕ → ℕ) (cap : ℕ) (dist : ℕ → ℕ → ℚ) (sol : Sol) : Option Sol :=
  match (n4Candidates sol).find? (fun m => decide (n4Accept demands cap dist sol m)) with
  | none => none
  | some (r1, r2, i, j) =>
    some ((sol.set r1 (n4NewR1 sol r1 r2 i j)).set r2 (n4NewR2 sol r1 r2 i j))

/-- N4_two_opt_inter from neighborhoods.py, with loop fuel. -/
def N4_two_opt_inter (fuel : ℕ) (sol : Sol) (demands : ℕ → ℕ) (cap : ℕ)
    (dist : ℕ → ℕ → ℚ) : Sol :=
  opLoop (n4Step demands cap dist) fuel sol

/-- Merged route of N5 in configuration `cfg` (lines 211-216 of
neighborhoods.py); the Python slice `r[-2:0:-1]` is the reversed interior. -/
def n5Merged (sol : Sol) (r1 r2 cfg : ℕ) : Route :=
  let a := getR sol r1
  let b := getR sol r2
  match cfg with
  | 0 => a.dropLast ++ b.drop 1
  | 1 => b.dropLast ++ a.drop 1
  | 2 => a.dropLast ++ ((b.drop 1).dropLast).reverse ++ [0]
  | _ => b.dropLast ++ ((a.drop 1).dropLast).reverse ++ [0]

/-- Candidate merges of one N5 pass: pairs whose combined demand fits the
capacity, each offering the four concatenation configurations in order. -/
def n5Candidates (demands : ℕ → ℕ) (cap : ℕ) (sol : Sol) : List (ℕ × ℕ × ℕ) :=
  (List.range sol.length).flatMap fun r1 =>
    (List.range' (r1 + 1) (sol.length - (r1 + 1))).flatMap fun r2 =>
      if route_demand demands (getR sol r1) + route_demand demands (getR sol r2) ≤ cap then
        [(r1, r2, 0), (r1, r2, 1), (r1, r2, 2), (r1, r2, 3)]
      else []

/-- Delta of an N5 merge: merged cost minus the two old route costs. -/
def n5Delta (dist : ℕ → ℕ → ℚ) (sol : Sol) (m : ℕ × ℕ × ℕ) : ℚ :=
  route_cost dist (n5Merged sol m.1 m.2.1 m.2.2)
    - (route_cost dist (getR sol m.1) + route_cost dist (getR sol m.2.1))

/-- Python `[route for idx, route in enumerate(sol) if idx != r1 and idx != r2]`. -/
def removeTwo (sol : Sol) (r1 r2 : ℕ) : Sol :=
  ((sol.enum).filter fun p => decide (p.1 ≠ r1 ∧ p.1 ≠ r2)).map (·.2)

/-- Application of an N5 merge: drop the two source routes, append the merge. -/
def n5Apply (sol : Sol) (m : ℕ × ℕ × ℕ) : Sol :=
  removeTwo sol m.1 m.2.1 ++ [n5Merged sol m.1 m.2.1 m.2.2]

/-- One pass of N5: best improving merge, if any. -/
def n5Step (demands : ℕ → ℕ) (cap : ℕ) (dist : ℕ → ℕ → ℚ) (sol : Sol) : Option Sol :=
  match pickBest (n5Delta dist sol) IMPROVEMENT_THRESHOLD (n5Candidates demands cap sol) with
  | none => none
  | some m => some (n5Apply sol m)

/-- N5_merge_routes from neighborhoods.py, with loop fuel. -/
def N5_merge_routes (fuel : ℕ) (sol : Sol) (demands : ℕ → ℕ) (cap : ℕ)
    (dist : ℕ → ℕ → ℚ) : Sol :=
  opLoop (n5Step demands cap dist) fuel sol

/-- Move of the Or-opt neighborhood N6: relocate a chain of consecutive
customers inside a route or into another route. -/
inductive OrOptMove where
  | intra (r chainStart chainLen ipos : ℕ)
  | inter (r1 chainStart chainLen r2 ipos : ℕ)
deriving DecidableEq

/-- Demand of the chain `route[chainStart : chainStart + chainLen]` (line 280
of neighborhoods.py sums the raw demands without a depot filter). -/
def chainDemand (demands : ℕ → ℕ) (route : Route) (chainStart chainLen : ℕ) : ℕ :=
  natSum ((List.range chainLen).map fun i => demands (getN route (chainStart + i)))

/-- Sum of the internal chain edges, shared by removal and insertion cost. -/
def chainEdges (dist : ℕ → ℕ → ℚ) (route : Route) (chainStart chainLen : ℕ) : ℚ :=
  ratSum ((List.range (chainLen - 1)).map fun i =>
    dist (getN route (chainStart + i)) (getN route (chainStart + i + 1)))

/-- Intra-route candidate moves of one N6 pass for one chain length
(lines 253-273 of neighborhoods.py). -/
def n6IntraCands (sol : Sol) (chainLen : ℕ) : List OrOptMove :=
  (List.range sol.length).flatMap fun r =>
    let route := getR sol r
    if route.length ≤ chainLen + 2 then [] else
      (List.range' 1 (route.length - chainLen - 1)).flatMap fun chainStart =>
        (List.range' 1 (route.length - 2)).filterMap fun ipos =>
          if chainStart ≤ ipos ∧ ipos ≤ chainStart + chainLen then none
          else some (OrOptMove.intra r chainStart chainLen ipos)

/-- Inter-route candidate moves of one N6 pass for one chain length
(lines 275-304 of neighborhoods.py). -/
def n6InterCands (demands : ℕ → ℕ) (cap : ℕ) (sol : Sol) (chainLen : ℕ) :
    List OrOptMove :=
  (List.range sol.length).flatMap fun r1 =>
    let route1 := getR sol r1
    if route1.length ≤ chainLen + 1 then [] else
      (List.range' 1 (route1.length - chainLen - 1)).flatMap fun chainStart =>
        (List.range sol.length).flatMap fun r2 =>
          if r1 = r2 then [] else
            if cap < route_demand demands (getR sol r2)
                + chainDemand demands route1 chainStart chainLen then [] else
              (List.range' 1 ((getR sol r2).length - 1)).map fun ipos =>
                OrOptMove.inter r1 chainStart chainLen r2 ipos

/-- Candidate moves of one N6 pass, in source scan order: for each chain
length 1, 2, 3, all intra moves then all inter moves. -/
def n6Candidates (demands : ℕ → ℕ) (cap : ℕ) (sol : Sol) : List OrOptMove :=
  [1, 2, 3].flatMap fun chainLen =>
    n6IntraCands sol chainLen ++ n6InterCands demands cap sol chainLen

/-- Delta of an N6 move (lines 262-268 and 289-301 of neighborhoods.py). -/
def n6Delta (dist : ℕ → ℕ → ℚ) (sol : Sol) : OrOptMove → ℚ
  | OrOptMove.intra r chainStart chainLen ipos =>
    let route := getR sol r
    (dist (getN route (chainStart - 1)) (getN route (chainStart + chainLen))
        + dist (getN route (ipos - 1)) (getN route chainStart)
        + dist (getN route (chainStart + chainLen - 1)) (getN route ipos))
      - (dist (getN route (chainStart - 1)) (getN route chainStart)
        + dist (getN route (chainStart + chainLen - 1)) (getN route (chainStart + chainLen))
        + dist (getN route (ipos - 1)) (getN route ipos))
  | OrOptMove.inter r1 chainStart chainLen r2 ipos =>
    let route1 := getR sol r1
    let route2 := getR sol r2
    (dist (getN route1 (chainStart - 1)) (getN route1 (chainStart + chainLen))
        - dist (getN route1 (chainStart - 1)) (getN route1 chainStart)
        - chainEdges dist route1 chainStart chainLen
        - dist (getN route1 (chainStart + chainLen - 1)) (getN route1 (chainStart + chainLen)))
      + (dist (getN route2 (ipos - 1)) (getN route1 chainStart)
        + dist (getN route1 (chainStart + chainLen - 1)) (getN route2 ipos)
        - dist (getN route2 (ipos - 1)) (getN route2 ipos)
        + chainEdges dist route1 chainStart chainLen)

/-- Python `for i, c in enumerate(chain): r.insert(pos + i, c)`. -/
def insertChain (pos : ℕ) (cs : List ℕ) (r : Route) : Route :=
  match cs with
  | [] => r
  | c :: t => insertChain (pos + 1) t (List.insertIdx pos c r)

/-- Application of an N6 move (lines 306-322 of neighborhoods.py). -/
def n6Apply (sol : Sol) : OrOptMove → Sol
  | OrOptMove.intra r chainStart chainLen ipos =>
    let route := getR sol r
    let chain := (route.drop chainStart).take chainLen
    let removed := route.take chainStart ++ route.drop (chainStart + chainLen)
    let ipos2 := if chainStart < ipos then ipos - chainLen else ipos
    sol.set r (insertChain ipos2 chain removed)
  | OrOptMove.inter r1 chainStart chainLen r2 ipos =>
    let route1 := getR sol r1
    let chain := (route1.drop chainStart).take chainLen
    let sol1 := sol.set r1 (route1.take chainStart ++ route1.drop (chainStart + chainLen))
    let sol2 := sol1.set r2 (insertChain ipos chain (getR sol1 r2))
    sol2.filter fun r => 2 < r.length

/-- One pass of N6: best improving Or-opt move, if any. -/
def n6Step (demands : ℕ → ℕ) (cap : ℕ) (dist : ℕ → ℕ → ℚ) (sol : Sol) : Option Sol :=
  match pickBest (n6Delta dist sol) IMPROVEMENT_THRESHOLD (n6Candidates demands cap sol) with
  | none => none
  | some m => some (n6Apply sol m)

/-- N6_or_opt from neighborhoods.py, with loop fuel. -/
def N6_or_opt (fuel : ℕ) (sol : Sol) (demands : ℕ → ℕ) (cap : ℕ)
    (dist : ℕ → ℕ → ℚ) : Sol :=
  opLoop (n6Step demands cap dist) fuel sol

/-- Random source: a stream of naturals consumed left to right (an exhausted
stream yields 0, which still realizes a legal choice of Python `random`). -/
abbrev Rng := List ℕ

/-- Draw one value from the stream. -/
def rngNext : Rng → ℕ × Rng
  | [] => (0, [])
  | v :: g => (v, g)

/-- Python `random.randint a b` (inclusive bounds, `a ≤ b` at every call site). -/
def rngRandint (a b : ℕ) (g : Rng) : ℕ × Rng :=
  (a + (rngNext g).1 % (b + 1 - a), (rngNext g).2)

/-- Python `random.choice l` on a nonempty list of naturals. -/
def rngChoice (l : List ℕ) (g : Rng) : ℕ × Rng :=
  (l.getD ((rngNext g).1 % l.length) 0, (rngNext g).2)

/-- Indices of the routes with more than `m` nodes (`valid_routes`). -/
def validIdx (m : ℕ) (sol : Sol) : List ℕ :=
  (List.range sol.length).filter fun i => decide (m < (getR sol i).length)

/-- Attempt loop of Shake_N1 (lines 27-44 of shaking.py): `k` random
relocations; infeasible attempts are skipped without retry. -/
def shakeN1Go (demands : ℕ → ℕ) (cap : ℕ) : ℕ → Sol → Rng → Sol × Rng
  | 0, sol, g => (sol, g)
  | k + 1, sol, g =>
    if sol.length < 2 then (sol, g) else
      let valid := validIdx 2 sol
      if valid = [] then (sol, g) else
        let r1 := (rngChoice valid g).1
        let g1 := (rngChoice valid g).2
        let route1 := getR sol r1
        let c := (rngRandint 1 (route1.length - 2) g1).1
        let g2 := (rngRandint 1 (route1.length - 2) g1).2
        let customer := getN route1 c
        let r2 := (rngRandint 0 (sol.length - 1) g2).1
        let g3 := (rngRandint 0 (sol.length - 1) g2).2
        if route_demand demands (getR sol r2) + demands customer ≤ cap then
          let sol2 := sol.set r1 (route1.eraseIdx c)
          let route2 := getR sol2 r2
          let pos := (rngRandint 1 (route2.length - 1) g3).1
          let g4 := (rngRandint 1 (route2.length - 1) g3).2
          shakeN1Go demands cap k (sol2.set r2 (List.insertIdx pos customer route2)) g4
        else
          shakeN1Go demands cap k sol g3

/-- Shake_N1_random_relocate from shaking.py. -/
def Shake_N1_random_relocate (sol : Sol) (demands : ℕ → ℕ) (cap : ℕ) (k : ℕ)
    (g : Rng) : Sol × Rng :=
  ((shakeN1Go demands cap k sol g).1.filter fun r => 2 < r.length,
    (shakeN1Go demands cap k sol g).2)

/-- Attempt loop of Shake_N2 (lines 59-80 of shaking.py): `k` random swaps
between two distinct non-trivial routes; loads are checked in `ℤ`. -/
def shakeN2Go (demands : ℕ → ℕ) (cap : ℕ) : ℕ → Sol → Rng → Sol × Rng
  | 0, sol, g => (sol, g)
  | k + 1, sol, g =>
    if sol.length < 2 then (sol, g) else
      let valid := validIdx 2 sol
      if valid.length < 2 then (sol, g) else
        let i1 := (rngNext g).1 % valid.length
        let g1 := (rngNext g).2
        let r1 := valid.getD i1 0
        let rest := valid.eraseIdx i1
        let r2 := rest.getD ((rngNext g1).1 % rest.length) 0
        let g2 := (rngNext g1).2
        let c1i := (rngRandint 1 ((getR sol r1).length - 2) g2).1
        let g3 := (rngRandint 1 ((getR sol r1).length - 2) g2).2
        let c2i := (rngRandint 1 ((getR sol r2).length - 2) g3).1
        let g4 := (rngRandint 1 ((getR sol r2).length - 2) g3).2
        let cu1 := getN (getR sol r1) c1i
        let cu2 := getN (getR sol r2) c2i
        let load1 : ℤ := (route_demand demands (getR sol r1) : ℤ) - demands cu1 + demands cu2
        let load2 : ℤ := (route_demand demands (getR sol r2) : ℤ) - demands cu2 + demands cu1
        if load1 ≤ cap ∧ load2 ≤ cap then
          shakeN2Go demands cap k
            ((sol.set r1 ((getR sol r1).set c1i cu2)).set r2 ((getR sol r2).set c2i cu1)) g4
        else
          shakeN2Go demands cap k sol g4

/-- Shake_N2_random_swap from shaking.py. -/
def Shake_N2_random_swap (sol : Sol) (demands : ℕ → ℕ) (cap : ℕ) (k : ℕ)
    (g : Rng) : Sol × Rng :=
  shakeN2Go demands cap k sol g

/-- Attempt loop of Shake_N3 (lines 94-105 of shaking.py): `k` random
intra-route segment reversals on routes with more than 4 nodes. -/
def shakeN3Go : ℕ → Sol → Rng → Sol × Rng
  | 0, sol, g => (sol, g)
  | k + 1, sol, g =>
    let valid := validIdx 4 sol
    if valid = [] then (sol, g) else
      let r := (rngChoice valid g).1
      let g1 := (rngChoice valid g).2
      let route := getR sol r
      let i := (rngRandint 1 (route.length - 3) g1).1
      let g2 := (rngRandint 1 (route.length - 3) g1).2
      let j := (rngRandint (i + 1) (route.length - 2) g2).1
      let g3 := (rngRandint (i + 1) (route.length - 2) g2).2
      shakeN3Go k (sol.set r (reverseSeg route i j)) g3

/-- Shake_N3_double_bridge from shaking.py. -/
def Shake_N3_double_bridge (sol : Sol) (demands : ℕ → ℕ) (cap : ℕ) (k : ℕ)
    (g : Rng) : Sol × Rng :=
  shakeN3Go k sol g

/-- Neighborhood order of VND (lines 46-55 of vnd.py): 2-opt intra, merge
routes, relocate, swap, 2-opt inter, and optionally Or-opt. -/
def vndApply (opFuel : ℕ) (demands : ℕ → ℕ) (cap : ℕ) (dist : ℕ → ℕ → ℚ)
    (k : ℕ) (sol : Sol) : Sol :=
  match k with
  | 0 => N1_two_opt_intra opFuel sol dist
  | 1 => N5_merge_routes opFuel sol demands cap dist
  | 2 => N2_relocate_inter opFuel sol demands cap dist
  | 3 => N3_swap_inter opFuel sol demands cap dist
  | 4 => N4_two_opt_inter opFuel sol demands cap dist
  | _ => N6_or_opt opFuel sol demands cap dist

/-- Number of VND neighborhoods: five, six when Or-opt is enabled. -/
def vndLen (useOrOpt : Bool) : ℕ := if useOrOpt then 6 else 5

/-- Acceptance test of the VND loop (lines 75-78 of vnd.py): the new solution
strictly reduces the cost by more than 1e-6, or ties the cost within 1e-6
with strictly fewer routes. -/
def vndAccept (dist : ℕ → ℕ → ℚ) (solNew sol : Sol) : Prop :=
  solution_cost dist solNew < solution_cost dist sol - EPS ∨
    (pyAbs (solution_cost dist solNew - solution_cost dist sol) < EPS ∧
      solNew.length < sol.length)

instance vndAcceptDecidable (dist : ℕ → ℕ → ℚ) (solNew sol : Sol) :
    Decidable (vndAccept dist solNew sol) := by
  unfold vndAccept
  infer_instance

/-- Loop of VND (lines 57-91 of vnd.py), with fuel: returns the current
solution and a flag telling whether the loop genuinely terminated (`k` reached
the end of the neighborhood list) or the fuel ran out. -/
def vndGo (opFuel : ℕ) (demands : ℕ → ℕ) (cap : ℕ) (dist : ℕ → ℕ → ℚ)
    (useOrOpt : Bool) : ℕ → ℕ → Sol → Sol × Bool
  | 0, _, sol => (sol, false)
  | fuel + 1, k, sol =>
    if k < vndLen useOrOpt then
      let solNew := vndApply opFuel demands cap dist k sol
      if vndAccept dist solNew sol then
        vndGo opFuel demands cap dist useOrOpt fuel 0 solNew
      else
        vndGo opFuel demands cap dist useOrOpt fuel (k + 1) sol
    else (sol, true)

/-- VND from vnd.py: run the loop from `k = 0` (the animation recorder of the
source only logs frames and never influences the search, so it is omitted). -/
def VND (fuel opFuel : ℕ) (sol : Sol) (demands : ℕ → ℕ) (cap : ℕ)
    (dist : ℕ → ℕ → ℚ) (useOrOpt : Bool) : Sol × Bool :=
  vndGo opFuel demands cap dist useOrOpt fuel 0 sol

/-- Ascending sort of a list of naturals (Python `sorted`). -/
def sortNat (l : List ℕ) : List ℕ := l.mergeSort (fun a b => decide (a ≤ b))

/-- Ascending sort of a list of routes under the lexicographic order on lists
(Python `sorted` on tuples). -/
def sortRoutes (l : List (List ℕ)) : List (List ℕ) :=
  l.mergeSort (fun a b => decide (a ≤ b))

/-- Fingerprint `_solution_hash` from vns.py: each route interior sorted, then
the list of sorted interiors sorted. -/
def solution_hash (sol : Sol) : List (List ℕ) :=
  sortRoutes (sol.map fun r => sortNat (interior r))

/-- Tabu tenure (line 124 of vns.py): `min(TABU_TENURE_MAX,
max(TABU_TENURE_MIN, n // 20))`. -/
def tabuTenure (n : ℕ) : ℕ := min TABU_TENURE_MAX (max TABU_TENURE_MIN (n / 20))

/-- Tabu insertion (lines 181-183 of vns.py): append, then pop the oldest
entry when the size exceeds the tenure. -/
def tabuPush (tenure : ℕ) (tabu : List (List (List ℕ))) (h : List (List ℕ)) :
    List (List (List ℕ)) :=
  let t2 := tabu ++ [h]
  if tenure < t2.length then t2.tail else t2

/-- Patience (line 134 of vns.py): `min(PATIENCE_MAX, max(PATIENCE_MIN, n // 5))`. -/
def patience (n : ℕ) : ℕ := min PATIENCE_MAX (max PATIENCE_MIN (n / 5))

/-- Minimum iteration floor (line 135 of vns.py): `max(50, n // 10)`. -/
def minIterations (n : ℕ) : ℕ := max 50 (n / 10)

/-- Savings list of Clarke-Wright (lines 28-32 of construction.py). -/
def savingsList (dist : ℕ → ℕ → ℚ) (n : ℕ) : List (ℚ × ℕ × ℕ) :=
  (List.range' 1 (n - 1)).flatMap fun i =>
    (List.range' (i + 1) (n - 1 - i)).map fun j =>
      (dist 0 i + dist 0 j - dist i j, i, j)

/-- Descending lexicographic comparison on savings triples, matching Python
`savings.sort(reverse=True)` (no two triples share `(i, j)`). -/
def savingsGe (a b : ℚ × ℕ × ℕ) : Bool :=
  decide (b.1 < a.1 ∨ (a.1 = b.1 ∧ (b.2.1 < a.2.1 ∨ (a.2.1 = b.2.1 ∧ b.2.2 ≤ a.2.2))))

/-- One savings merge attempt (lines 36-65 of construction.py): locate the two
routes, require both customers at a route endpoint and the combined demand to
fit, then concatenate in the orientation the endpoint pair dictates. -/
def savingsMergeStep (demands : ℕ → ℕ) (cap : ℕ) (routes : Sol)
    (sv : ℚ × ℕ × ℕ) : Sol :=
  match sv with
  | (_, i, j) =>
    match (routes.filter fun r => decide (i ∈ r)).getLast?,
        (routes.filter fun r => decide (j ∈ r)).getLast? with
    | some ri, some rj =>
      if ri = [] ∨ rj = [] ∨ ri = rj then routes else
        let pi := ri.indexOf i
        let pj := rj.indexOf j
        if (pi = 1 ∨ pi = ri.length - 2) ∧ (pj = 1 ∨ pj = rj.length - 2) then
          if route_demand demands ri + route_demand demands rj ≤ cap then
            let newRoute : Option Route :=
              if pi = ri.length - 2 ∧ pj = 1 then some (ri.dropLast ++ rj.drop 1)
              else if pi = 1 ∧ pj = rj.length - 2 then some (rj.dropLast ++ ri.drop 1)
              else if pi = ri.length - 2 ∧ pj = rj.length - 2 then
                some (ri.dropLast ++ ((rj.drop 1).dropLast).reverse ++ [0])
              else if pi = 1 ∧ pj = 1 then
                some ([0] ++ ((ri.drop 1).dropLast).reverse ++ rj.drop 1)
              else none
            match newRoute with
            | none => routes
            | some nr => ((routes.erase ri).erase rj) ++ [nr]
          else routes
        else routes
    | _, _ => routes

/-- savings_algorithm from construction.py (`n` is the length of the demand
list; the coordinates are only used through `dist`). -/
def savings_algorithm (demands : ℕ → ℕ) (cap : ℕ) (dist : ℕ → ℕ → ℚ) (n : ℕ) : Sol :=
  let routes0 := (List.range' 1 (n - 1)).map fun i => [0, i, 0]
  ((savingsList dist n).mergeSort savingsGe).foldl (savingsMergeStep demands cap) routes0

/-- Feasible nearest unvisited customer (lines 88-99 of construction.py);
`best_dist = inf` is modelled by the `none` accumulator, and the unordered
Python set is modelled by an ascending list. -/
def nnSelect (demands : ℕ → ℕ) (cap : ℕ) (dist : ℕ → ℕ → ℚ) (current load : ℕ)
    (unvisited : List ℕ) : Option ℕ :=
  (unvisited.foldl
    (fun acc c =>
      if load + demands c ≤ cap then
        match acc with
        | none => some (dist current c, c)
        | some (bd, _) => if dist current c < bd then some (dist current c, c) else acc
      else acc)
    none).map (·.2)

/-- Inner route-building loop of nearest neighbor (lines 87-104). -/
def nnRoute (demands : ℕ → ℕ) (cap : ℕ) (dist : ℕ → ℕ → ℚ) :
    ℕ → List ℕ → ℕ → ℕ → Route → Route × List ℕ
  | 0, unvisited, _, _, route => (route, unvisited)
  | f + 1, unvisited, current, load, route =>
    if unvisited = [] then (route, unvisited) else
      match nnSelect demands cap dist current load unvisited with
      | none => (route, unvisited)
      | some c =>
        nnRoute demands cap dist f (unvisited.erase c) c (load + demands c) (route ++ [c])

/-- Outer loop of nearest neighbor (lines 82-108): `some routes` when the loop
exits with all customers routed, `none` when the fuel is exhausted first. -/
def nnOuter (demands : ℕ → ℕ) (cap : ℕ) (dist : ℕ → ℕ → ℚ) :
    ℕ → List ℕ → Sol → Option Sol
  | 0, unvisited, routes => if unvisited = [] then some routes else none
  | f + 1, unvisited, routes =>
    if unvisited = [] then some routes else
      let (route, unvisited2) := nnRoute demands cap dist unvisited.length unvisited 0 0 [0]
      let routes2 := if 1 < route.length then routes ++ [route ++ [0]] else routes
      nnOuter demands cap dist f unvisited2 routes2

/-- nearest_neighbor_vrp from construction.py, with fuel for the outer loop. -/
def nearest_neighbor_vrp (fuel : ℕ) (demands : ℕ → ℕ) (cap : ℕ)
    (dist : ℕ → ℕ → ℚ) (n : ℕ) : Option Sol :=
  nnOuter demands cap dist fuel (List.range' 1 (n - 1)) []

/-- Farthest customer from the depot (line 277 of construction.py): Python
`max` keeps the first maximum in iteration order. -/
def farthestFrom (dist : ℕ → ℕ → ℚ) : List ℕ → ℕ
  | [] => 0
  | c :: t => t.foldl (fun acc c2 => if dist 0 acc < dist 0 c2 then c2 else acc) c

/-- Minimum-increase insertion candidate of cheapest insertion (lines 288-302):
customers in unvisited order, routes in order, positions in order; first
minimum wins (strict `<`). -/
def ciSelect (demands : ℕ → ℕ) (cap : ℕ) (dist : ℕ → ℕ → ℚ) (routes : Sol)
    (loads : List ℕ) (unvisited : List ℕ) : Option (ℕ × ℕ × ℕ) :=
  let cands := unvisited.flatMap fun c =>
    (List.range routes.length).flatMap fun ri =>
      if cap < loads.getD ri 0 + demands c then [] else
        (List.range' 1 ((getR routes ri).length - 1)).map fun pos => (c, ri, pos)
  let incr := fun (m : ℕ × ℕ × ℕ) =>
    let route := getR routes m.2.1
    dist (getN route (m.2.2 - 1)) m.1 + dist m.1 (getN route m.2.2)
      - dist (getN route (m.2.2 - 1)) (getN route m.2.2)
  (cands.foldl
    (fun acc m =>
      match acc with
      | none => some (incr m, m)
      | some (bi, _) => if incr m < bi then some (incr m, m) else acc)
    none).map (·.2)

/-- Main loop of cheapest insertion (lines 282-312): every pass removes one
customer from the unvisited set, so fuel `n` suffices; a customer popped in
the fallback branch whose demand exceeds the capacity is dropped. -/
def ciGo (demands : ℕ → ℕ) (cap : ℕ) (dist : ℕ → ℕ → ℚ) :
    ℕ → List ℕ → Sol → List ℕ → Sol
  | 0, _, routes, _ => routes
  | f + 1, unvisited, routes, loads =>
    if unvisited = [] then routes else
      match ciSelect demands cap dist routes loads unvisited with
      | some (c, ri, pos) =>
        ciGo demands cap dist f (unvisited.erase c)
          (routes.set ri (List.insertIdx pos c (getR routes ri)))
          (loads.set ri (loads.getD ri 0 + demands c))
      | none =>
        match unvisited with
        | [] => routes
        | c :: rest =>
          if demands c ≤ cap then
            ciGo demands cap dist f rest (routes ++ [[0, c, 0]]) (loads ++ [demands c])
          else
            ciGo demands cap dist f rest routes loads

/-- cheapest_insertion_vrp from construction.py (the source raises on an
instance without customers; this model is only used with `2 ≤ n`). -/
def cheapest_insertion_vrp (demands : ℕ → ℕ) (cap : ℕ) (dist : ℕ → ℕ → ℚ)
    (n : ℕ) : Sol :=
  let unv0 := List.range' 1 (n - 1)
  let far := farthestFrom dist unv0
  ciGo demands cap dist n (unv0.erase far) [[0, far, 0]] [demands far]

/-- Fisher-Yates swap loop of CPython `random.shuffle`: index `i` runs from
`len - 1` down to `1`, `j` is a uniform draw below `i + 1`. -/
def fyGo : ℕ → List ℕ → Rng → List ℕ × Rng
  | 0, xs, g => (xs, g)
  | i + 1, xs, g =>
    let (v, g2) := rngNext g
    let j := v % (i + 2)
    let a := xs.getD (i + 1) 0
    let b := xs.getD j 0
    fyGo i ((xs.set (i + 1) b).set j a) g2

/-- Python `random.shuffle`. -/
def pyShuffle (xs : List ℕ) (g : Rng) : List ℕ × Rng :=
  fyGo (xs.length - 1) xs g

/-- Greedy packing loop of random_initial_solution (lines 329-346). -/
def packGo (demands : ℕ → ℕ) (cap : ℕ) :
    List ℕ → Route → ℕ → Sol → Sol
  | [], current, _, routes =>
    if 1 < current.length then routes ++ [current ++ [0]] else routes
  | c :: rest, current, load, routes =>
    if load + demands c ≤ cap then
      packGo demands cap rest (current ++ [c]) (load + demands c) routes
    else
      let routes2 := if 1 < current.length then routes ++ [current ++ [0]] else routes
      packGo demands cap rest [0, c] (demands c) routes2

/-- random_initial_solution from construction.py. -/
def random_initial_solution (demands : ℕ → ℕ) (cap : ℕ) (n : ℕ) (g : Rng) :
    Sol × Rng :=
  let (customers, g2) := pyShuffle (List.range' 1 (n - 1)) g
  (packGo demands cap customers [0] 0 [], g2)

/-- State of the greedy edge-based construction: customer degrees, the
customer-to-fragment map (a Python dict, `none` = absent), the fragment list
and the fragment loads (the `connections` dict of the source is written but
never read, so it is omitted). -/
structure GreedyState where
  degree : ℕ → ℕ
  custFrag : ℕ → Option ℕ
  fragments : List (List ℕ)
  loads : List ℕ

/-- Last element of a fragment (Python `frag[-1]`, fragments are nonempty). -/
def lastN (l : List ℕ) : ℕ := l.getLastD 0

/-- Ascending lexicographic comparison on edge triples, matching Python
`edges.sort()` (no two triples share `(i, j)`). -/
def edgeLe (a b : ℚ × ℕ × ℕ) : Bool :=
  decide (a.1 < b.1 ∨ (a.1 = b.1 ∧ (a.2.1 < b.2.1 ∨ (a.2.1 = b.2.1 ∧ a.2.2 ≤ b.2.2))))

/-- Processing of one edge by greedy_vrp (lines 136-245 of construction.py). -/
def greedyStep (demands : ℕ → ℕ) (cap : ℕ) (st : GreedyState)
    (e : ℚ × ℕ × ℕ) : GreedyState :=
  match e with
  | (_, i, j) =>
    if i ≠ 0 ∧ 2 ≤ st.degree i then st
    else if j ≠ 0 ∧ 2 ≤ st.degree j then st
    else
      match st.custFrag i, st.custFrag j with
      | none, none =>
        if i = 0 ∨ j = 0 then
          let customer := if i = 0 then j else i
          if demands customer ≤ cap then
            { degree := fun x =>
                if x = i ∧ i ≠ 0 then st.degree x + 1
                else if x = j ∧ j ≠ 0 then st.degree x + 1
                else st.degree x
              custFrag := fun x =>
                if x = customer ∧ customer ≠ 0 then some st.fragments.length
                else st.custFrag x
              fragments := st.fragments ++ [[i, j]]
              loads := st.loads ++ [demands customer] }
          else st
        else
          if demands i + demands j ≤ cap then
            { degree := fun x =>
                if x = i ∨ x = j then st.degree x + 1 else st.degree x
              custFrag := fun x =>
                if x = i ∨ x = j then some st.fragments.length else st.custFrag x
              fragments := st.fragments ++ [[i, j]]
              loads := st.loads ++ [demands i + demands j] }
          else st
      | some fi, none =>
        let fragment := st.fragments.getD fi []
        let newLoad := st.loads.getD fi 0 + (if j ≠ 0 then demands j else 0)
        if newLoad ≤ cap then
          if i = getN fragment 0 ∨ i = lastN fragment then
            let frag2 := if i = getN fragment 0 then j :: fragment else fragment ++ [j]
            { degree := fun x =>
                if x = i ∧ i ≠ 0 then st.degree x + 1
                else if x = j ∧ j ≠ 0 then st.degree x + 1
                else st.degree x
              custFrag := fun x =>
                if x = j ∧ j ≠ 0 then some fi else st.custFrag x
              fragments := st.fragments.set fi frag2
              loads := st.loads.set fi newLoad }
          else st
        else st
      | none, some fj =>
        let fragment := st.fragments.getD fj []
        let newLoad := st.loads.getD fj 0 + (if i ≠ 0 then demands i else 0)
        if newLoad ≤ cap then
          if j = getN fragment 0 ∨ j = lastN fragment then
            let frag2 := if j = getN fragment 0 then i :: fragment else fragment ++ [i]
            { degree := fun x =>
                if x = i ∧ i ≠ 0 then st.degree x + 1
                else if x = j ∧ j ≠ 0 then st.degree x + 1
                else st.degree x
              custFrag := fun x =>
                if x = i ∧ i ≠ 0 then some fj else st.custFrag x
              fragments := st.fragments.set fj frag2
              loads := st.loads.set fj newLoad }
          else st
        else st
      | some fi, some fj =>
        if fi = fj then st else
          let frag1 := st.fragments.getD fi []
          let frag2 := st.fragments.getD fj []
          let newLoad := st.loads.getD fi 0 + st.loads.getD fj 0
          if newLoad ≤ cap then
            if (i = getN frag1 0 ∨ i = lastN frag1) ∧
                (j = getN frag2 0 ∨ j = lastN frag2) then
              let merged : Option (List ℕ) :=
                if i = lastN frag1 ∧ j = getN frag2 0 then some (frag1 ++ frag2)
                else if i = getN frag1 0 ∧ j = lastN frag2 then some (frag2 ++ frag1)
                else if i = lastN frag1 ∧ j = lastN frag2 then some (frag1 ++ frag2.reverse)
                else if i = getN frag1 0 ∧ j = getN frag2 0 then some (frag1.reverse ++ frag2)
                else none
              match merged with
              | none => st
              | some mf =>
                { degree := fun x =>
                    if x = i ∧ i ≠ 0 then st.degree x + 1
                    else if x = j ∧ j ≠ 0 then st.degree x + 1
                    else st.degree x
                  custFrag := fun x =>
                    if x ∈ frag2 ∧ x ≠ 0 then some fi else st.custFrag x
                  fragments := (st.fragments.set fi mf).set fj []
                  loads := (st.loads.set fi newLoad).set fj 0 }
            else st
          else st

/-- Fragment-to-route assembly of greedy_vrp (lines 247-256). -/
def greedyAssemble (fragments : List (List ℕ)) : Sol :=
  fragments.foldl
    (fun acc frag =>
      if frag = [] then acc else
        let f1 := if getN frag 0 ≠ 0 then 0 :: frag else frag
        let f2 := if lastN f1 ≠ 0 then f1 ++ [0] else f1
        if 2 < f2.length then acc ++ [f2] else acc)
    []

/-- greedy_vrp from construction.py. -/
def greedy_vrp (demands : ℕ → ℕ) (cap : ℕ) (dist : ℕ → ℕ → ℚ) (n : ℕ) : Sol :=
  let edges := (List.range n).flatMap fun i =>
    (List.range' (i + 1) (n - (i + 1))).map fun j => (dist i j, i, j)
  let st0 : GreedyState :=
    { degree := fun _ => 0, custFrag := fun _ => none, fragments := [], loads := [] }
  let st := (edges.mergeSort edgeLe).foldl (greedyStep demands cap) st0
  let routes := greedyAssemble st.fragments
  routes ++ (((List.range' 1 (n - 1)).filter fun c =>
    decide (st.custFrag c = none ∧ demands c ≤ cap)).map fun c => [0, c, 0])

/-- Names of the five known construction methods (keys of `method_map`). -/
def knownMethods : List String :=
  ["Clarke-Wright", "nearest_neighbor", "greedy", "cheapest_insertion", "random"]

/-- Dispatcher `_build_initial_solution` from vns.py: an unknown method name
falls back to Clarke-Wright (the source also prints a warning, which is pure
I/O); returns the built solution and the display label. `none` arises only
when the nearest-neighbor loop exhausts its fuel. -/
def build_initial_solution (nnFuel : ℕ) (demands : ℕ → ℕ) (cap : ℕ)
    (dist : ℕ → ℕ → ℚ) (n : ℕ) (method : String) (g : Rng) :
    Option ((Sol × String) × Rng) :=
  let m2 := if method ∈ knownMethods then method else "Clarke-Wright"
  if m2 = "Clarke-Wright" then
    some ((savings_algorithm demands cap dist n, "Clarke-Wright Savings"), g)
  else if m2 = "nearest_neighbor" then
    (nearest_neighbor_vrp nnFuel demands cap dist n).map fun s =>
      ((s, "Nearest Neighbor"), g)
  else if m2 = "greedy" then
    some ((greedy_vrp demands cap dist n, "Greedy Algorithm"), g)
  else if m2 = "cheapest_insertion" then
    some ((cheapest_insertion_vrp demands cap dist n, "Cheapest Insertion"), g)
  else
    let (s, g2) := random_initial_solution demands cap n g
    some ((s, "Random"), g2)

/-- Search state of the VNS orchestrator loop (lines 122-135 of vns.py). -/
structure VnsState where
  best : Sol
  bestCost : ℚ
  k : ℕ
  iteration : ℕ
  lastImprovement : ℕ
  tabu : List (List (List ℕ))
  tabuSkips : ℕ
  rng : Rng

/-- Problem data and run parameters of the VNS orchestrator; `timeUp i` is the
wall-clock oracle standing for `time.time() - start_time >= max_time` when the
loop guard is evaluated with iteration counter `i`. -/
structure VnsCtx where
  demands : ℕ → ℕ
  cap : ℕ
  dist : ℕ → ℕ → ℚ
  n : ℕ
  maxIter : ℕ
  useOrOpt : Bool
  timeUp : ℕ → Bool
  vndFuel : ℕ
  opFuel : ℕ

/-- Shaking dispatch (lines 116-120 and 145-147 of vns.py): the operator is
selected by `(k - 1) % 3`. -/
def shakeDispatch (ctx : VnsCtx) (idx : ℕ) (sol : Sol) (k : ℕ) (g : Rng) :
    Sol × Rng :=
  match idx with
  | 0 => Shake_N1_random_relocate sol ctx.demands ctx.cap k g
  | 1 => Shake_N2_random_swap sol ctx.demands ctx.cap k g
  | _ => Shake_N3_double_bridge sol ctx.demands ctx.cap k g

/-- Early-stopping test (line 200 of vns.py), evaluated on the state at the
end of a loop body. -/
def earlyStop (ctx : VnsCtx) (st : VnsState) : Bool :=
  decide (minIterations ctx.n < st.iteration ∧
    patience ctx.n < st.iteration - st.lastImprovement)

/-- One iteration of the VNS loop body (lines 144-207 of vns.py): shake the
best solution, skip on a tabu hit (the skip path bypasses the early-stopping
check via `continue`), otherwise run VND and accept on strict cost improvement
or fewer routes at tied cost. The boolean is the early-stop break flag. -/
def vnsIter (ctx : VnsCtx) (st : VnsState) : VnsState × Bool :=
  let shakeIdx := (st.k - 1) % 3
  let sShaken := (shakeDispatch ctx shakeIdx st.best st.k st.rng).1
  let g2 := (shakeDispatch ctx shakeIdx st.best st.k st.rng).2
  if solution_hash sShaken ∈ st.tabu then
    ({ st with
        tabuSkips := st.tabuSkips + 1,
        k := st.k % K_MAX + 1,
        iteration := st.iteration + 1,
        rng := g2 }, false)
  else
    let sLocal := (vndGo ctx.opFuel ctx.demands ctx.cap ctx.dist ctx.useOrOpt
      ctx.vndFuel 0 sShaken).1
    let costLocal := solution_cost ctx.dist sLocal
    if costLocal < st.bestCost - EPS ∨
        (pyAbs (costLocal - st.bestCost) < EPS ∧ sLocal.length < st.best.length) then
      let st2 : VnsState :=
        { best := sLocal, bestCost := costLocal, k := 1,
          iteration := st.iteration + 1, lastImprovement := st.iteration,
          tabu := tabuPush (tabuTenure ctx.n) st.tabu (solution_hash sLocal),
          tabuSkips := st.tabuSkips, rng := g2 }
      (st2, earlyStop ctx st2)
    else
      let st2 : VnsState :=
        { st with k := st.k % K_MAX + 1, iteration := st.iteration + 1, rng := g2 }
      (st2, earlyStop ctx st2)

/-- Main loop of VNS_solver (lines 142-207 of vns.py), with fuel: the guard
re-checks the iteration bound and the time oracle before every iteration, and
the body breaks when the early-stop flag fires. -/
def vnsLoop (ctx : VnsCtx) : ℕ → VnsState → VnsState
  | 0, st => st
  | f + 1, st =>
    if st.iteration < ctx.maxIter ∧ ctx.timeUp st.iteration = false then
      if (vnsIter ctx st).2 then (vnsIter ctx st).1
      else vnsLoop ctx f (vnsIter ctx st).1
    else st

/-- VNS_solver from vns.py: build the initial solution, descend with VND,
then run the shake / tabu-check / VND / accept loop; the returned state holds
the final best solution and best cost. -/
def VNS_solver (ctx : VnsCtx) (method : String) (nnFuel : ℕ) (g : Rng) :
    Option VnsState :=
  (build_initial_solution nnFuel ctx.demands ctx.cap ctx.dist ctx.n method g).map
    fun p =>
      let s1 := (vndGo ctx.opFuel ctx.demands ctx.cap ctx.dist ctx.useOrOpt
        ctx.vndFuel 0 p.1.1).1
      vnsLoop ctx ctx.maxIter
        { best := s1, bestCost := solution_cost ctx.dist s1, k := 1, iteration := 0,
          lastImprovement := 0, tabu := [], tabuSkips := 0, rng := p.2 }

/-- Concrete run parameters used to witness the tabu-tenure bound. -/
def exCtxC6 : VnsCtx :=
  ⟨fun _ => 1, 5, fun _ _ => 0, 5, 10, false, fun _ => false, 6, 2⟩

/-- Concrete search state used to witness the tabu-tenure bound. -/
def exStC6 : VnsState := ⟨[[0, 1, 0]], 0, 1, 0, 0, [], 0, []⟩

/-- A full tabu list at the tenure of `exCtxC6`. -/
def exTabuC6 : List (List (List ℕ)) := List.replicate 10 [[1]]

/-- Demands of the concrete five-customer instance of the orchestrator
counterexample: customers 1..4 demand 1, 4, 1, 1. -/
def exDemands : ℕ → ℕ := fun i => [0, 1, 4, 1, 1].getD i 0

/-- Collinear coordinates 0, 1, 2, 10, 11 scaled by `1e-8`: all pairwise
Euclidean distances are exact rationals. -/
def exDist : ℕ → ℕ → ℚ := fun i j =>
  Rat.divInt ((([0, 1, 2, 10, 11] : List ℤ).getD i 0
    - ([0, 1, 2, 10, 11] : List ℤ).getD j 0).natAbs) 100000000

/-- Context of the concrete orchestrator run: capacity 4, five nodes. -/
def exCtx2 : VnsCtx := ⟨exDemands, 4, exDist, 5, 310, false, fun _ => false, 8, 2⟩

/-- State entering iteration 0 of the concrete run: three routes of cost
`28e-8`, the random stream driving one relocation of customer 1 into the
third route. -/
def exSt2 : VnsState :=
  ⟨[[0, 1, 0], [0, 2, 0], [0, 3, 4, 0]], Rat.divInt 28 100000000, 1, 0, 0, [],
    0, [0, 0, 2, 1]⟩

/-- Context of the concrete early-stop counterexample: three nodes on a
line, ample capacity. -/
def exCtx8 : VnsCtx :=
  ⟨fun i => [0, 1, 1].getD i 0, 10,
    fun i j => Rat.divInt ((([0, 1, 2] : List ℤ).getD i 0
      - ([0, 1, 2] : List ℤ).getD j 0).natAbs) 1,
    3, 400, false, fun _ => false, 8, 2⟩

/-- State at iteration 301 with no improvement since iteration 0: the
patience and minimum-iteration conditions hold, but the incoming shake is a
tabu hit. -/
def exSt8 : VnsState :=
  ⟨[[0, 1, 0], [0, 2, 0]], 6, 1, 301, 0, [[[1], [2]]], 0, [0, 0, 0, 0]⟩

theorem natSum_append (l1 l2 : List ℕ) : natSum (l1 ++ l2) = natSum l1 + natSum l2 := by
  induction l1 with
  | nil => simp [natSum]
  | cons a t ih => simp [natSum, ih]; ring

theorem natSum_perm {l1 l2 : List ℕ} (h : l1.Perm l2) : natSum l1 = natSum l2 := by
  induction h with
  | nil => rfl
  | cons a _ ih => simp [natSum, ih]
  | swap a b t => simp [natSum]; ring
  | trans _ _ ih1 ih2 => exact ih1.trans ih2

theorem route_demand_perm (demands : ℕ → ℕ) {r1 r2 : Route} (h : r1.Perm r2) :
    route_demand demands r1 = route_demand demands r2 := by
  unfold route_demand
  exact natSum_perm ((h.filter _).map _)

theorem route_demand_append (demands : ℕ → ℕ) (l1 l2 : List ℕ) :
    route_demand demands (l1 ++ l2) =
      route_demand demands l1 + route_demand demands l2 := by
  unfold route_demand
  rw [List.filter_append, List.map_append, natSum_append]

theorem route_demand_cons (demands : ℕ → ℕ) (c : ℕ) (l : List ℕ) :
    route_demand demands (c :: l) =
      (if c = 0 then 0 else demands c) + route_demand demands l := by
  unfold route_demand
  by_cases h : c = 0
  · simp [h, List.filter_cons]
  · simp [h, List.filter_cons, natSum]

theorem route_demand_zero_cons (demands : ℕ → ℕ) (l : List ℕ) :
    route_demand demands (0 :: l) = route_demand demands l := by
  simp [route_demand_cons]

theorem route_demand_reverse (demands : ℕ → ℕ) (l : List ℕ) :
    route_demand demands l.reverse = route_demand demands l :=
  route_demand_perm demands (List.reverse_perm l)

/-- Route shape invariant: at least two nodes, starts and ends at the depot,
and the demand fits the capacity. -/
def GoodRoute (demands : ℕ → ℕ) (cap : ℕ) (r : Route) : Prop :=
  2 ≤ r.length ∧ r.head? = some 0 ∧ r.getLast? = some 0 ∧
    route_demand demands r ≤ cap

/-- Solution shape invariant: every route is well formed. -/
def GoodSol (demands : ℕ → ℕ) (cap : ℕ) (sol : Sol) : Prop :=
  ∀ r ∈ sol, GoodRoute demands cap r

/-- Working invariant of the operator proofs: well-formed routes and no depot
occurrence among the interior customers. -/
def Inv (demands : ℕ → ℕ) (cap : ℕ) (sol : Sol) : Prop :=
  GoodSol demands cap sol ∧ 0 ∉ interiors sol

/-- Feasibility in the sense of the specification: shape invariant plus the
interior customers forming exactly `{1, …, n-1}`. -/
def Feasible (n : ℕ) (demands : ℕ → ℕ) (cap : ℕ) (sol : Sol) : Prop :=
  GoodSol demands cap sol ∧ (interiors sol).Perm (List.range' 1 (n - 1))

theorem Feasible.inv {n : ℕ} {demands : ℕ → ℕ} {cap : ℕ} {sol : Sol}
    (h : Feasible n demands cap sol) : Inv demands cap sol := by
  refine ⟨h.1, fun h0 => ?_⟩
  have := h.2.mem_iff.mp h0
  rw [List.mem_range'_1] at this
  omega

/-- Canonical decomposition of a well-formed route. -/
theorem goodRoute_decomp {demands : ℕ → ℕ} {cap : ℕ} {r : Route}
    (h : GoodRoute demands cap r) : r = 0 :: (interior r ++ [0]) := by
  obtain ⟨hlen, hhead, hlast, _⟩ := h
  cases r with
  | nil => simp at hlen
  | cons a t =>
    cases t with
    | nil => simp at hlen
    | cons b u =>
      have ha : a = 0 := by simpa using hhead
      have ht : (b :: u) ≠ [] := by simp
      have hl : (b :: u).getLast ht = 0 := by
        have h2 := List.getLast?_eq_getLast (b :: u) ht
        have h3 : (a :: b :: u).getLast? = (b :: u).getLast? := by
          cases u <;> simp [List.getLast?]
        rw [h3, h2] at hlast
        simpa using hlast
      have hdecomp := List.dropLast_append_getLast ht
      have hint : interior (a :: b :: u) = (b :: u).dropLast := by
        simp [interior]
      rw [hint, ha]
      simp only [List.cons.injEq, true_and]
      rw [← hl]
      exact hdecomp.symm

theorem interior_decomp (m : List ℕ) : interior (0 :: (m ++ [0])) = m := by
  simp [interior]

theorem length_decomp (m : List ℕ) : (0 :: (m ++ [0])).length = m.length + 2 := by
  simp

theorem route_demand_decomp (demands : ℕ → ℕ) (m : List ℕ) :
    route_demand demands (0 :: (m ++ [0])) = route_demand demands m := by
  rw [route_demand_zero_cons, route_demand_append]
  simp [route_demand, List.filter, natSum]

/-- A decomposed route is well formed as soon as its demand fits. -/
theorem goodRoute_of_decomp {demands : ℕ → ℕ} {cap : ℕ} (m : List ℕ)
    (h : route_demand demands m ≤ cap) : GoodRoute demands cap (0 :: (m ++ [0])) := by
  refine ⟨by simp, by simp, ?_, by rwa [route_demand_decomp]⟩
  show ((0 :: m) ++ [0]).getLast? = some 0
  exact List.getLast?_concat _

theorem interiors_append (s1 s2 : Sol) :
    interiors (s1 ++ s2) = interiors s1 ++ interiors s2 := by
  induction s1 with
  | nil => simp [interiors]
  | cons r t ih => simp [interiors, ih]

theorem mem_interiors {x : ℕ} {r : Route} {sol : Sol} (hr : r ∈ sol)
    (hx : x ∈ interior r) : x ∈ interiors sol := by
  induction sol with
  | nil => cases hr
  | cons a t ih =>
    rcases List.mem_cons.mp hr with h | h
    · subst h
      exact List.mem_append.mpr (Or.inl hx)
    · exact List.mem_append.mpr (Or.inr (ih h))

theorem getD_mem {l : List ℕ} {i : ℕ} (h : i < l.length) (d : ℕ) : l.getD i d ∈ l := by
  rw [List.getD_eq_getElem?_getD, List.getElem?_eq_getElem h]
  exact List.getElem_mem h

theorem getR_mem {sol : Sol} {i : ℕ} (h : i < sol.length) : getR sol i ∈ sol := by
  unfold getR
  rw [List.getD_eq_getElem?_getD, List.getElem?_eq_getElem h]
  exact List.getElem_mem h

theorem getD_eq_getElem {l : List ℕ} {i : ℕ} (h : i < l.length) (d : ℕ) :
    l.getD i d = l[i] := by
  rw [List.getD_eq_getElem?_getD, List.getElem?_eq_getElem h]
  rfl

theorem getR_eq_getElem {sol : Sol} {i : ℕ} (h : i < sol.length) :
    getR sol i = sol[i] := by
  unfold getR
  rw [List.getD_eq_getElem?_getD, List.getElem?_eq_getElem h]
  rfl

theorem perm_of_count (l1 l2 : List ℕ)
    (h : ∀ y, l1.count y = l2.count y) : l1.Perm l2 :=
  List.perm_iff_count.mpr h

theorem interiors_set_perm {sol : Sol} {i : ℕ} (x : Route) (h : i < sol.length) :
    (interiors (sol.set i x) ++ interior (getR sol i)).Perm
      (interiors sol ++ interior x) := by
  induction sol generalizing i with
  | nil => simp at h
  | cons r t ih =>
    cases i with
    | zero =>
      simp only [List.set_cons_zero, interiors]
      rw [getR, List.getD_cons_zero]
      refine perm_of_count _ _ fun y => ?_
      simp only [List.count_append]
      omega
    | succ n =>
      have hn : n < t.length := by simpa using h
      simp only [List.set_cons_succ, interiors]
      rw [getR, List.getD_cons_succ]
      have ihc := List.perm_iff_count.mp (ih (i := n) hn)
      refine perm_of_count _ _ fun y => ?_
      have := ihc y
      simp only [List.count_append] at this ⊢
      rw [getR] at this
      omega

theorem interiors_eraseIdx_perm {sol : Sol} {i : ℕ} (h : i < sol.length) :
    (interiors (sol.eraseIdx i) ++ interior (getR sol i)).Perm (interiors sol) := by
  induction sol generalizing i with
  | nil => simp at h
  | cons r t ih =>
    cases i with
    | zero =>
      rw [getR, List.getD_cons_zero, List.eraseIdx_cons_zero]
      simp only [interiors]
      exact List.perm_append_comm
    | succ n =>
      have hn : n < t.length := by simpa using h
      rw [getR, List.getD_cons_succ, List.eraseIdx_cons_succ]
      simp only [interiors]
      have ihc := List.perm_iff_count.mp (ih (i := n) hn)
      refine perm_of_count _ _ fun y => ?_
      have := ihc y
      simp only [List.count_append] at this ⊢
      rw [getR] at this
      omega

theorem goodSol_set {demands : ℕ → ℕ} {cap : ℕ} {sol : Sol} {i : ℕ} {x : Route}
    (h : GoodSol demands cap sol) (hx : GoodRoute demands cap x) :
    GoodSol demands cap (sol.set i x) := by
  intro r hr
  rcases List.mem_or_eq_of_mem_set hr with h2 | h2
  · exact h r h2
  · subst h2
    exact hx

theorem goodSol_of_sublist {demands : ℕ → ℕ} {cap : ℕ} {sol sol2 : Sol}
    (h : GoodSol demands cap sol) (hsub : sol2.Sublist sol) :
    GoodSol demands cap sol2 :=
  fun r hr => h r (hsub.mem hr)

/-- Dropping the routes of length ≤ 2 of a well-formed solution leaves the
interiors unchanged: every dropped route is `[0, 0]`. -/
theorem interiors_filter_long {demands : ℕ → ℕ} {cap : ℕ} {sol : Sol}
    (h : GoodSol demands cap sol) :
    interiors (sol.filter fun r => 2 < r.length) = interiors sol := by
  induction sol with
  | nil => rfl
  | cons r t ih =>
    have hr := h r (List.mem_cons_self r t)
    have ht : GoodSol demands cap t := fun r2 h2 => h r2 (List.mem_cons_of_mem _ h2)
    rw [List.filter_cons]
    by_cases hlen : 2 < r.length
    · simp only [hlen]
      simp only [decide_eq_true_eq, if_true, if_pos]
      simp only [interiors, ih ht]
    · have hint : interior r = [] := by
        have hd := goodRoute_decomp hr
        have h2 : r.length = (interior r).length + 2 := by
          conv_lhs => rw [hd]
          simp
        have h3 : (interior r).length = 0 := by omega
        exact List.length_eq_zero.mp h3
      simp only [hlen]
      simp only [decide_eq_true_eq, if_false]
      simp only [interiors, hint, List.nil_append, ih ht]

theorem natSum_le_of_sublist {l1 l2 : List ℕ} (h : l1.Sublist l2) :
    natSum l1 ≤ natSum l2 := by
  induction h with
  | slnil => exact le_rfl
  | cons a _ ih => simp [natSum]; omega
  | cons₂ a _ ih => simp [natSum]; omega

theorem route_demand_le_of_sublist (demands : ℕ → ℕ) {l1 l2 : List ℕ}
    (h : l1.Sublist l2) : route_demand demands l1 ≤ route_demand demands l2 :=
  natSum_le_of_sublist ((h.filter _).map _)

theorem insertIdx_append_left {m : List ℕ} (s : List ℕ) {pos : ℕ} (x : ℕ)
    (h : pos ≤ m.length) :
    List.insertIdx pos x (m ++ s) = List.insertIdx pos x m ++ s := by
  induction m generalizing pos with
  | nil =>
    have : pos = 0 := by simpa using h
    subst this
    rfl
  | cons a t ih =>
    cases pos with
    | zero => rfl
    | succ n =>
      have hn : n ≤ t.length := by simpa using h
      simp only [List.cons_append, List.insertIdx_succ_cons, ih hn]

/-- Erasing an interior position of a decomposed route. -/
theorem route_eraseIdx_decomp (m : List ℕ) {c : ℕ} (h1 : 1 ≤ c)
    (h2 : c ≤ m.length) :
    (0 :: (m ++ [0])).eraseIdx c = 0 :: (m.eraseIdx (c - 1) ++ [0]) := by
  obtain ⟨c2, rfl⟩ : ∃ c2, c = c2 + 1 := ⟨c - 1, by omega⟩
  rw [List.eraseIdx_cons_succ]
  simp only [Nat.add_sub_cancel]
  rw [List.eraseIdx_append_of_lt_length (by omega)]

/-- Inserting at an interior position of a decomposed route. -/
theorem route_insertIdx_decomp (m : List ℕ) {pos : ℕ} (x : ℕ) (h1 : 1 ≤ pos)
    (h2 : pos ≤ m.length + 1) :
    List.insertIdx pos x (0 :: (m ++ [0])) =
      0 :: (List.insertIdx (pos - 1) x m ++ [0]) := by
  obtain ⟨p2, rfl⟩ : ∃ p2, pos = p2 + 1 := ⟨pos - 1, by omega⟩
  rw [List.insertIdx_succ_cons]
  simp only [Nat.add_sub_cancel]
  rw [insertIdx_append_left _ x (by omega)]

/-- Setting an interior position of a decomposed route. -/
theorem route_set_decomp (m : List ℕ) {c : ℕ} (x : ℕ) (h1 : 1 ≤ c)
    (h2 : c ≤ m.length) :
    (0 :: (m ++ [0])).set c x = 0 :: (m.set (c - 1) x ++ [0]) := by
  obtain ⟨c2, rfl⟩ : ∃ c2, c = c2 + 1 := ⟨c - 1, by omega⟩
  rw [List.set_cons_succ]
  simp only [Nat.add_sub_cancel]
  rw [List.set_append]
  rw [if_pos (by omega)]

/-- Reading an interior position of a decomposed route. -/
theorem getN_decomp (m : List ℕ) {c : ℕ} (h1 : 1 ≤ c) (h2 : c ≤ m.length) :
    getN (0 :: (m ++ [0])) c = m.getD (c - 1) 0 := by
  obtain ⟨c2, rfl⟩ : ∃ c2, c = c2 + 1 := ⟨c - 1, by omega⟩
  unfold getN
  rw [List.getD_cons_succ]
  simp only [Nat.add_sub_cancel]
  rw [List.getD_eq_getElem?_getD, List.getElem?_append_left (by omega),
    ← List.getD_eq_getElem?_getD]

/-- Decomposition of a list at an in-bounds index. -/
theorem take_getD_drop : ∀ {m : List ℕ} {c : ℕ}, c < m.length →
    m = m.take c ++ m.getD c 0 :: m.drop (c + 1) := by
  intro m
  induction m with
  | nil => intro c h; simp at h
  | cons a t ih =>
    intro c h
    cases c with
    | zero => simp
    | succ n =>
      have hn : n < t.length := by simpa using h
      simp only [List.take_succ_cons, List.getD_cons_succ, List.drop_succ_cons,
        List.cons_append, List.cons.injEq, true_and]
      exact ih hn

/-- Exchange permutation for `List.set` at an in-bounds index. -/
theorem set_exchange_perm {m : List ℕ} {j : ℕ} (x : ℕ) (h : j < m.length) :
    (m.set j x ++ [m.getD j 0]).Perm (m ++ [x]) := by
  rw [List.set_eq_take_append_cons_drop, if_pos h]
  conv_rhs => rw [take_getD_drop h]
  rw [List.append_assoc, List.append_assoc]
  refine List.Perm.append_left _ ?_
  show (x :: (m.drop (j + 1) ++ [m.getD j 0])).Perm
    (m.getD j 0 :: (m.drop (j + 1) ++ [x]))
  refine ((List.Perm.cons x (List.perm_append_comm)).trans
    (List.Perm.swap (m.getD j 0) x _)).trans ?_
  exact List.Perm.cons _ (@List.perm_append_comm ℕ [x] (m.drop (j + 1)))

/-- Erase-as-cons permutation at an in-bounds index. -/
theorem eraseIdx_cons_perm {m : List ℕ} {c : ℕ} (h : c < m.length) :
    m.Perm (m.getD c 0 :: m.eraseIdx c) := by
  rw [List.eraseIdx_eq_take_drop_succ]
  conv_lhs => rw [take_getD_drop h]
  exact List.perm_middle

theorem route_demand_nil (demands : ℕ → ℕ) : route_demand demands [] = 0 := rfl

theorem route_demand_single (demands : ℕ → ℕ) (c : ℕ) :
    route_demand demands [c] = if c = 0 then 0 else demands c := by
  rw [route_demand_cons]
  simp [route_demand_nil]

theorem route_demand_insertIdx (demands : ℕ → ℕ) {m : List ℕ} {pos : ℕ} (x : ℕ)
    (h : pos ≤ m.length) :
    route_demand demands (List.insertIdx pos x m) =
      (if x = 0 then 0 else demands x) + route_demand demands m := by
  rw [route_demand_perm demands (List.perm_insertIdx x m h), route_demand_cons]

theorem route_demand_eraseIdx_le (demands : ℕ → ℕ) (m : List ℕ) (c : ℕ) :
    route_demand demands (m.eraseIdx c) ≤ route_demand demands m :=
  route_demand_le_of_sublist demands (List.eraseIdx_sublist m c)

theorem route_demand_eraseIdx_add (demands : ℕ → ℕ) {m : List ℕ} {c : ℕ}
    (h : c < m.length) :
    route_demand demands m =
      (if m.getD c 0 = 0 then 0 else demands (m.getD c 0)) +
        route_demand demands (m.eraseIdx c) := by
  rw [route_demand_perm demands (eraseIdx_cons_perm h), route_demand_cons]

theorem route_demand_set_add (demands : ℕ → ℕ) {m : List ℕ} {j : ℕ} (x : ℕ)
    (h : j < m.length) :
    route_demand demands (m.set j x) +
        (if m.getD j 0 = 0 then 0 else demands (m.getD j 0)) =
      route_demand demands m + (if x = 0 then 0 else demands x) := by
  have hp := route_demand_perm demands (set_exchange_perm x h)
  rw [route_demand_append, route_demand_append, route_demand_single,
    route_demand_single] at hp
  exact hp

theorem inv_of_perm {demands : ℕ → ℕ} {cap : ℕ} {sol sol2 : Sol}
    (hinv : Inv demands cap sol) (hgs : GoodSol demands cap sol2)
    (hp : (interiors sol2).Perm (interiors sol)) : Inv demands cap sol2 :=
  ⟨hgs, fun h => hinv.2 (hp.mem_iff.mp h)⟩

/-- Decomposition of a segment reversal applied at interior positions. -/
theorem reverseSeg_decomp {mR : List ℕ} {i j : ℕ} (h1 : 1 ≤ i) (h2 : i ≤ j)
    (h3 : j ≤ mR.length) :
    reverseSeg (0 :: (mR ++ [0])) i j =
      0 :: ((mR.take (i - 1) ++ ((mR.drop (i - 1)).take (j + 1 - i)).reverse
        ++ mR.drop j) ++ [0]) := by
  obtain ⟨i2, rfl⟩ : ∃ i2, i = i2 + 1 := ⟨i - 1, by omega⟩
  unfold reverseSeg
  rw [List.take_succ_cons, List.drop_succ_cons, List.drop_succ_cons]
  rw [List.take_append_of_le_length (by omega)]
  rw [List.drop_append_of_le_length (by omega : i2 ≤ mR.length)]
  rw [List.take_append_of_le_length (by rw [List.length_drop]; omega)]
  rw [List.drop_append_of_le_length (by omega : j ≤ mR.length)]
  simp only [Nat.add_sub_cancel, Nat.succ_sub_succ, Nat.sub_zero]
  simp only [List.append_assoc, List.cons_append]

theorem seg_perm {mR : List ℕ} {i j : ℕ} (h1 : 1 ≤ i) (h2 : i ≤ j)
    (h3 : j ≤ mR.length) :
    (mR.take (i - 1) ++ ((mR.drop (i - 1)).take (j + 1 - i)).reverse
      ++ mR.drop j).Perm mR := by
  refine perm_of_count _ _ fun y => ?_
  conv_rhs => rw [← List.take_append_drop (i - 1) mR]
  conv_rhs => rw [← List.take_append_drop (j + 1 - i) (mR.drop (i - 1))]
  rw [List.drop_drop]
  have harith : i - 1 + (j + 1 - i) = j := by omega
  rw [harith]
  simp only [List.count_append, List.count_reverse]
  omega

/-- Segment reversal at interior positions preserves route goodness and
permutes the interior. -/
theorem goodRoute_reverseSeg {demands : ℕ → ℕ} {cap : ℕ} {R : Route} {i j : ℕ}
    (hg : GoodRoute demands cap R) (h1 : 1 ≤ i) (h2 : i ≤ j)
    (h3 : j ≤ (interior R).length) :
    GoodRoute demands cap (reverseSeg R i j) ∧
      (interior (reverseSeg R i j)).Perm (interior R) := by
  have hd := goodRoute_decomp hg
  have hrd : route_demand demands (interior R) ≤ cap := by
    have := hg.2.2.2
    rw [hd, route_demand_decomp] at this
    exact this
  rw [show reverseSeg R i j = reverseSeg (0 :: (interior R ++ [0])) i j from by rw [← hd]]
  rw [reverseSeg_decomp h1 h2 h3]
  constructor
  · refine goodRoute_of_decomp _ ?_
    rw [route_demand_perm demands (seg_perm h1 h2 h3)]
    exact hrd
  · rw [interior_decomp]
    exact seg_perm h1 h2 h3

/-- Fuel iteration preserves the invariant and the interior multiset whenever
every step of the loop body does. -/
theorem opLoop_inv {demands : ℕ → ℕ} {cap : ℕ} {step : Sol → Option Sol}
    (hstep : ∀ s s2, Inv demands cap s → step s = some s2 →
      Inv demands cap s2 ∧ (interiors s2).Perm (interiors s)) :
    ∀ (fuel : ℕ) (s : Sol), Inv demands cap s →
      Inv demands cap (opLoop step fuel s) ∧
        (interiors (opLoop step fuel s)).Perm (interiors s) := by
  intro fuel
  induction fuel with
  | zero => exact fun s h => ⟨h, List.Perm.refl _⟩
  | succ f ih =>
    intro s h
    unfold opLoop
    cases hs : step s with
    | none => exact ⟨h, List.Perm.refl _⟩
    | some s2 =>
      obtain ⟨h2, hp2⟩ := hstep s s2 h hs
      obtain ⟨h3, hp3⟩ := ih s2 h2
      exact ⟨h3, hp3.trans hp2⟩

theorem getR_set_ne {sol : Sol} {i j : ℕ} (x : Route) (h : i ≠ j) :
    getR (sol.set i x) j = getR sol j := by
  unfold getR
  rw [List.getD_eq_getElem?_getD, List.getElem?_set_ne h, ← List.getD_eq_getElem?_getD]

theorem getR_set_self {sol : Sol} {i : ℕ} (x : Route) (h : i < sol.length) :
    getR (sol.set i x) i = x := by
  unfold getR
  rw [List.getD_eq_getElem?_getD, List.getElem?_set_self h]
  rfl

theorem set_route_interiors_perm {sol : Sol} {r : ℕ} {x : Route}
    (hr : r < sol.length) (hx : (interior x).Perm (interior (getR sol r))) :
    (interiors (sol.set r x)).Perm (interiors sol) := by
  have h1 := List.perm_iff_count.mp (interiors_set_perm x hr)
  have h2 := List.perm_iff_count.mp hx
  refine perm_of_count _ _ fun y => ?_
  have e1 := h1 y
  have e2 := h2 y
  simp only [List.count_append] at e1
  omega

theorem set2_interiors_perm {sol : Sol} {r1 r2 : ℕ} {x1 x2 : Route}
    (h1 : r1 < sol.length) (h2 : r2 < sol.length) (hne : r1 ≠ r2)
    (hx : (interior x1 ++ interior x2).Perm
      (interior (getR sol r1) ++ interior (getR sol r2))) :
    (interiors ((sol.set r1 x1).set r2 x2)).Perm (interiors sol) := by
  have hlen : r2 < (sol.set r1 x1).length := by simpa using h2
  have e1 := List.perm_iff_count.mp (interiors_set_perm x2 hlen)
  have e2 := List.perm_iff_count.mp (interiors_set_perm x1 h1)
  have e3 := List.perm_iff_count.mp hx
  have hgr : getR (sol.set r1 x1) r2 = getR sol r2 := getR_set_ne x1 hne
  refine perm_of_count _ _ fun y => ?_
  have c1 := e1 y
  have c2 := e2 y
  have c3 := e3 y
  rw [hgr] at c1
  simp only [List.count_append] at c1 c2 c3
  omega

theorem n1Candidates_mem {sol : Sol} {r i j : ℕ}
    (h : (r, i, j) ∈ n1Candidates sol) :
    r < sol.length ∧ 3 < (getR sol r).length ∧ 1 ≤ i ∧ i + 1 ≤ j ∧
      j ≤ (getR sol r).length - 2 := by
  unfold n1Candidates at h
  obtain ⟨a, ha, hb⟩ := List.mem_flatMap.mp h
  rw [List.mem_range] at ha
  simp only at hb
  by_cases hlen : (getR sol a).length ≤ 3
  · rw [if_pos hlen] at hb
    cases hb
  · rw [if_neg hlen] at hb
    obtain ⟨i2, hi2, hm⟩ := List.mem_flatMap.mp hb
    obtain ⟨j2, hj2, he⟩ := List.mem_map.mp hm
    cases he
    rw [List.mem_range'_1] at hi2 hj2
    exact ⟨ha, by omega, by omega, by omega, by omega⟩

theorem n1Step_inv (dist : ℕ → ℕ → ℚ) {demands : ℕ → ℕ} {cap : ℕ} :
    ∀ sol sol2, Inv demands cap sol → n1Step dist sol = some sol2 →
      Inv demands cap sol2 ∧ (interiors sol2).Perm (interiors sol) := by
  intro sol sol2 hinv h
  unfold n1Step at h
  cases hf : (n1Candidates sol).find?
      (fun m => decide (n1Delta dist (getR sol m.1) m.2.1 m.2.2
        < -IMPROVEMENT_THRESHOLD)) with
  | none => rw [hf] at h; cases h
  | some m =>
    rw [hf] at h
    obtain ⟨r, i, j⟩ := m
    simp only [Option.some.injEq] at h
    subst h
    obtain ⟨hr, hlen, hi, hij, hj⟩ := n1Candidates_mem (List.mem_of_find?_eq_some hf)
    have hg := hinv.1 _ (getR_mem hr)
    have hjint : j ≤ (interior (getR sol r)).length := by
      have := congrArg List.length (goodRoute_decomp hg)
      rw [length_decomp] at this
      omega
    obtain ⟨hg2, hp2⟩ := goodRoute_reverseSeg hg hi (by omega) hjint
    refine ⟨inv_of_perm hinv (goodSol_set hinv.1 hg2) ?_, ?_⟩
    · exact set_route_interiors_perm hr hp2
    · exact set_route_interiors_perm hr hp2

/-- N1 preserves the invariant and the interior multiset. -/
theorem N1_inv (fuel : ℕ) (sol : Sol) (dist : ℕ → ℕ → ℚ) {demands : ℕ → ℕ}
    {cap : ℕ} (hinv : Inv demands cap sol) :
    Inv demands cap (N1_two_opt_intra fuel sol dist) ∧
      (interiors (N1_two_opt_intra fuel sol dist)).Perm (interiors sol) :=
  opLoop_inv (n1Step_inv dist) fuel sol hinv

theorem count_cons_split (y a : ℕ) (l : List ℕ) :
    List.count y (a :: l) = List.count y [a] + List.count y l := by
  rw [show a :: l = [a] ++ l from rfl, List.count_append]

theorem n2Candidates_mem {demands : ℕ → ℕ} {cap : ℕ} {sol : Sol}
    {r1 c r2 pos : ℕ} (h : (r1, c, r2, pos) ∈ n2Candidates demands cap sol) :
    r1 < sol.length ∧ 2 < (getR sol r1).length ∧ 1 ≤ c ∧
      c ≤ (getR sol r1).length - 2 ∧ r2 < sol.length ∧ r1 ≠ r2 ∧
      route_demand demands (getR sol r2) + demands (getN (getR sol r1) c) ≤ cap ∧
      1 ≤ pos ∧ pos ≤ (getR sol r2).length - 1 := by
  unfold n2Candidates at h
  obtain ⟨a, ha, hb⟩ := List.mem_flatMap.mp h
  rw [List.mem_range] at ha
  simp only at hb
  by_cases hlen : (getR sol a).length ≤ 2
  · rw [if_pos hlen] at hb
    cases hb
  · rw [if_neg hlen] at hb
    obtain ⟨c2, hc2, hm⟩ := List.mem_flatMap.mp hb
    obtain ⟨b, hbmem, hm2⟩ := List.mem_flatMap.mp hm
    rw [List.mem_range] at hbmem
    by_cases heq : a = b
    · rw [if_pos heq] at hm2
      cases hm2
    · rw [if_neg heq] at hm2
      by_cases hcap : cap < route_demand demands (getR sol b)
          + demands (getN (getR sol a) c2)
      · rw [if_pos hcap] at hm2
        cases hm2
      · rw [if_neg hcap] at hm2
        obtain ⟨p2, hp2, he⟩ := List.mem_map.mp hm2
        cases he
        rw [List.mem_range'_1] at hc2 hp2
        exact ⟨ha, by omega, by omega, by omega, hbmem, heq, by omega, by omega, by omega⟩

theorem n2Step_inv (dist : ℕ → ℕ → ℚ) {demands : ℕ → ℕ} {cap : ℕ} :
    ∀ sol sol2, Inv demands cap sol → n2Step demands cap dist sol = some sol2 →
      Inv demands cap sol2 ∧ (interiors sol2).Perm (interiors sol) := by
  intro sol sol2 hinv h
  unfold n2Step at h
  cases hf : pickBest (n2Delta dist sol) IMPROVEMENT_THRESHOLD
      (n2Candidates demands cap sol) with
  | none => rw [hf] at h; cases h
  | some m =>
    rw [hf] at h
    simp only [Option.some.injEq] at h
    subst h
    obtain ⟨r1, c, r2, pos⟩ := m
    obtain ⟨hr1, hlen1, hc1, hc2, hr2, hne, hcap, hp1, hp2⟩ :=
      n2Candidates_mem (pickBest_mem hf).1
    have hg1 := hinv.1 _ (getR_mem hr1)
    have hg2 := hinv.1 _ (getR_mem hr2)
    have hd1 := goodRoute_decomp hg1
    have hd2 := goodRoute_decomp hg2
    have hm1len : (getR sol r1).length = (interior (getR sol r1)).length + 2 := by
      conv_lhs => rw [hd1]
      exact length_decomp _
    have hm2len : (getR sol r2).length = (interior (getR sol r2)).length + 2 := by
      conv_lhs => rw [hd2]
      exact length_decomp _
    have hcm : c ≤ (interior (getR sol r1)).length := by omega
    have hcust : getN (getR sol r1) c = (interior (getR sol r1)).getD (c - 1) 0 := by
      conv_lhs => rw [hd1]
      exact getN_decomp _ hc1 hcm
    have hcustmem : getN (getR sol r1) c ∈ interiors sol := by
      rw [hcust]
      exact mem_interiors (getR_mem hr1) (getD_mem (by omega) 0)
    have hcust0 : getN (getR sol r1) c ≠ 0 := fun h0 => hinv.2 (h0 ▸ hcustmem)
    have herase : (getR sol r1).eraseIdx c =
        0 :: ((interior (getR sol r1)).eraseIdx (c - 1) ++ [0]) := by
      conv_lhs => rw [hd1]
      exact route_eraseIdx_decomp _ hc1 hcm
    have hge : GoodRoute demands cap ((getR sol r1).eraseIdx c) := by
      rw [herase]
      refine goodRoute_of_decomp _ ?_
      refine le_trans (route_demand_eraseIdx_le demands _ _) ?_
      have := hg1.2.2.2
      rw [hd1, route_demand_decomp] at this
      exact this
    unfold n2Apply
    simp only
    have hR2keep : getR (sol.set r1 ((getR sol r1).eraseIdx c)) r2 = getR sol r2 :=
      getR_set_ne _ hne
    rw [hR2keep]
    have hinsert : List.insertIdx pos (getN (getR sol r1) c) (getR sol r2) =
        0 :: (List.insertIdx (pos - 1) (getN (getR sol r1) c)
          (interior (getR sol r2)) ++ [0]) := by
      conv_lhs => rw [hd2]
      exact route_insertIdx_decomp _ _ hp1 (by omega)
    have hgi : GoodRoute demands cap
        (List.insertIdx pos (getN (getR sol r1) c) (getR sol r2)) := by
      rw [hinsert]
      refine goodRoute_of_decomp _ ?_
      rw [route_demand_insertIdx demands _ (by omega)]
      rw [if_neg hcust0]
      have hrd2 : route_demand demands (interior (getR sol r2)) =
          route_demand demands (getR sol r2) := by
        conv_rhs => rw [hd2]
        rw [route_demand_decomp]
      omega
    have hgs2 : GoodSol demands cap
        ((sol.set r1 ((getR sol r1).eraseIdx c)).set r2
          (List.insertIdx pos (getN (getR sol r1) c) (getR sol r2))) :=
      goodSol_set (goodSol_set hinv.1 hge) hgi
    have hperm : (interiors ((sol.set r1 ((getR sol r1).eraseIdx c)).set r2
        (List.insertIdx pos (getN (getR sol r1) c) (getR sol r2)))).Perm
        (interiors sol) := by
      refine set2_interiors_perm hr1 hr2 hne ?_
      rw [herase, hinsert, interior_decomp, interior_decomp]
      have hpm1 := List.perm_iff_count.mp (eraseIdx_cons_perm
        (show c - 1 < (interior (getR sol r1)).length by omega))
      have hpm2 := List.perm_iff_count.mp (List.perm_insertIdx
        (getN (getR sol r1) c) (interior (getR sol r2)) (show pos - 1 ≤ _ by omega))
      refine perm_of_count _ _ fun y => ?_
      have c1 := hpm1 y
      have c2 := hpm2 y
      rw [← hcust, count_cons_split] at c1
      rw [count_cons_split] at c2
      simp only [List.count_append]
      omega
    refine ⟨inv_of_perm hinv (goodSol_of_sublist hgs2 (List.filter_sublist _)) ?_, ?_⟩
    · rw [interiors_filter_long hgs2]
      exact hperm
    · rw [interiors_filter_long hgs2]
      exact hperm

/-- N2 preserves the invariant and the interior multiset. -/
theorem N2_inv (fuel : ℕ) (sol : Sol) {demands : ℕ → ℕ} {cap : ℕ}
    (dist : ℕ → ℕ → ℚ) (hinv : Inv demands cap sol) :
    Inv demands cap (N2_relocate_inter fuel sol demands cap dist) ∧
      (interiors (N2_relocate_inter fuel sol demands cap dist)).Perm
        (interiors sol) :=
  opLoop_inv (n2Step_inv dist) fuel sol hinv

theorem n3Candidates_mem {demands : ℕ → ℕ} {cap : ℕ} {sol : Sol}
    {r1 c1 r2 c2 : ℕ} (h : (r1, c1, r2, c2) ∈ n3Candidates demands cap sol) :
    r1 < sol.length ∧ 2 < (getR sol r1).length ∧ 1 ≤ c1 ∧
      c1 ≤ (getR sol r1).length - 2 ∧ r1 < r2 ∧ r2 < sol.length ∧
      2 < (getR sol r2).length ∧ 1 ≤ c2 ∧ c2 ≤ (getR sol r2).length - 2 ∧
      ((route_demand demands (getR sol r1) : ℤ)
        - demands (getN (getR sol r1) c1) + demands (getN (getR sol r2) c2) ≤ cap) ∧
      ((route_demand demands (getR sol r2) : ℤ)
        - demands (getN (getR sol r2) c2) + demands (getN (getR sol r1) c1) ≤ cap) := by
  unfold n3Candidates at h
  obtain ⟨a, ha, hb⟩ := List.mem_flatMap.mp h
  rw [List.mem_range] at ha
  simp only at hb
  by_cases hlen : (getR sol a).length ≤ 2
  · rw [if_pos hlen] at hb
    cases hb
  · rw [if_neg hlen] at hb
    obtain ⟨x1, hx1, hm⟩ := List.mem_flatMap.mp hb
    obtain ⟨b, hbmem, hm2⟩ := List.mem_flatMap.mp hm
    rw [List.mem_range'_1] at hbmem
    by_cases hlen2 : (getR sol b).length ≤ 2
    · rw [if_pos hlen2] at hm2
      cases hm2
    · rw [if_neg hlen2] at hm2
      obtain ⟨x2, hx2, he⟩ := List.mem_filterMap.mp hm2
      by_cases hcap : (cap : ℤ) < (route_demand demands (getR sol a) : ℤ)
            - demands (getN (getR sol a) x1) + demands (getN (getR sol b) x2) ∨
          (cap : ℤ) < (route_demand demands (getR sol b) : ℤ)
            - demands (getN (getR sol b) x2) + demands (getN (getR sol a) x1)
      · rw [if_pos hcap] at he
        cases he
      · rw [if_neg hcap] at he
        simp only [Option.some.injEq] at he
        cases he
        rw [List.mem_range'_1] at hx1 hx2
        push_neg at hcap
        exact ⟨ha, by omega, by omega, by omega, by omega, by omega, by omega,
          by omega, by omega, hcap.1, hcap.2⟩

/-- A capacity-feasible swap of two interior customers between two distinct
routes keeps the invariant and the interior multiset. -/
theorem swap_inv {demands : ℕ → ℕ} {cap : ℕ} {sol : Sol} {r1 c1 r2 c2 : ℕ}
    (hinv : Inv demands cap sol)
    (hr1 : r1 < sol.length) (hlen1 : 2 < (getR sol r1).length)
    (hc11 : 1 ≤ c1) (hc12 : c1 ≤ (getR sol r1).length - 2)
    (hr2 : r2 < sol.length) (hlen2 : 2 < (getR sol r2).length)
    (hc21 : 1 ≤ c2) (hc22 : c2 ≤ (getR sol r2).length - 2)
    (hne : r1 ≠ r2)
    (hload1 : (route_demand demands (getR sol r1) : ℤ)
      - demands (getN (getR sol r1) c1) + demands (getN (getR sol r2) c2) ≤ cap)
    (hload2 : (route_demand demands (getR sol r2) : ℤ)
      - demands (getN (getR sol r2) c2) + demands (getN (getR sol r1) c1) ≤ cap) :
    Inv demands cap ((sol.set r1 ((getR sol r1).set c1 (getN (getR sol r2) c2))).set r2
        ((getR sol r2).set c2 (getN (getR sol r1) c1))) ∧
      (interiors ((sol.set r1 ((getR sol r1).set c1 (getN (getR sol r2) c2))).set r2
        ((getR sol r2).set c2 (getN (getR sol r1) c1)))).Perm (interiors sol) := by
  have hg1 := hinv.1 _ (getR_mem hr1)
  have hg2 := hinv.1 _ (getR_mem hr2)
  have hd1 := goodRoute_decomp hg1
  have hd2 := goodRoute_decomp hg2
  have hm1len : (getR sol r1).length = (interior (getR sol r1)).length + 2 := by
    conv_lhs => rw [hd1]
    exact length_decomp _
  have hm2len : (getR sol r2).length = (interior (getR sol r2)).length + 2 := by
    conv_lhs => rw [hd2]
    exact length_decomp _
  have hcu1 : getN (getR sol r1) c1 = (interior (getR sol r1)).getD (c1 - 1) 0 := by
    conv_lhs => rw [hd1]
    exact getN_decomp _ hc11 (by omega)
  have hcu2 : getN (getR sol r2) c2 = (interior (getR sol r2)).getD (c2 - 1) 0 := by
    conv_lhs => rw [hd2]
    exact getN_decomp _ hc21 (by omega)
  have hcu1mem : getN (getR sol r1) c1 ∈ interiors sol := by
    rw [hcu1]
    exact mem_interiors (getR_mem hr1) (getD_mem (by omega) 0)
  have hcu2mem : getN (getR sol r2) c2 ∈ interiors sol := by
    rw [hcu2]
    exact mem_interiors (getR_mem hr2) (getD_mem (by omega) 0)
  have hcu10 : getN (getR sol r1) c1 ≠ 0 := fun h0 => hinv.2 (h0 ▸ hcu1mem)
  have hcu20 : getN (getR sol r2) c2 ≠ 0 := fun h0 => hinv.2 (h0 ▸ hcu2mem)
  have hrd1 : route_demand demands (interior (getR sol r1)) =
      route_demand demands (getR sol r1) := by
    conv_rhs => rw [hd1]
    rw [route_demand_decomp]
  have hrd2 : route_demand demands (interior (getR sol r2)) =
      route_demand demands (getR sol r2) := by
    conv_rhs => rw [hd2]
    rw [route_demand_decomp]
  have hset1 : (getR sol r1).set c1 (getN (getR sol r2) c2) =
      0 :: ((interior (getR sol r1)).set (c1 - 1) (getN (getR sol r2) c2) ++ [0]) := by
    conv_lhs => rw [hd1]
    exact route_set_decomp _ _ hc11 (by omega)
  have hset2 : (getR sol r2).set c2 (getN (getR sol r1) c1) =
      0 :: ((interior (getR sol r2)).set (c2 - 1) (getN (getR sol r1) c1) ++ [0]) := by
    conv_lhs => rw [hd2]
    exact route_set_decomp _ _ hc21 (by omega)
  have hadd1 := route_demand_set_add demands (getN (getR sol r2) c2)
    (show c1 - 1 < (interior (getR sol r1)).length by omega)
  have hadd2 := route_demand_set_add demands (getN (getR sol r1) c1)
    (show c2 - 1 < (interior (getR sol r2)).length by omega)
  rw [← hcu1, if_neg hcu10, if_neg hcu20] at hadd1
  rw [← hcu2, if_neg hcu20, if_neg hcu10] at hadd2
  have hge1 : GoodRoute demands cap ((getR sol r1).set c1 (getN (getR sol r2) c2)) := by
    rw [hset1]
    refine goodRoute_of_decomp _ ?_
    omega
  have hge2 : GoodRoute demands cap ((getR sol r2).set c2 (getN (getR sol r1) c1)) := by
    rw [hset2]
    refine goodRoute_of_decomp _ ?_
    omega
  have hgs2 : GoodSol demands cap
      ((sol.set r1 ((getR sol r1).set c1 (getN (getR sol r2) c2))).set r2
        ((getR sol r2).set c2 (getN (getR sol r1) c1))) :=
    goodSol_set (goodSol_set hinv.1 hge1) hge2
  have hperm : (interiors ((sol.set r1 ((getR sol r1).set c1 (getN (getR sol r2) c2))).set r2
      ((getR sol r2).set c2 (getN (getR sol r1) c1)))).Perm (interiors sol) := by
    refine set2_interiors_perm hr1 hr2 hne ?_
    rw [hset1, hset2, interior_decomp, interior_decomp]
    have he1 := List.perm_iff_count.mp (set_exchange_perm (getN (getR sol r2) c2)
      (show c1 - 1 < (interior (getR sol r1)).length by omega))
    have he2 := List.perm_iff_count.mp (set_exchange_perm (getN (getR sol r1) c1)
      (show c2 - 1 < (interior (getR sol r2)).length by omega))
    refine perm_of_count _ _ fun y => ?_
    have k1 := he1 y
    have k2 := he2 y
    rw [← hcu1] at k1
    rw [← hcu2] at k2
    simp only [List.count_append] at k1 k2 ⊢
    omega
  exact ⟨inv_of_perm hinv hgs2 hperm, hperm⟩

theorem n3Step_inv (dist : ℕ → ℕ → ℚ) {demands : ℕ → ℕ} {cap : ℕ} :
    ∀ sol sol2, Inv demands cap sol → n3Step demands cap dist sol = some sol2 →
      Inv demands cap sol2 ∧ (interiors sol2).Perm (interiors sol) := by
  intro sol sol2 hinv h
  unfold n3Step at h
  cases hf : pickBest (n3Delta dist sol) IMPROVEMENT_THRESHOLD
      (n3Candidates demands cap sol) with
  | none => rw [hf] at h; cases h
  | some m =>
    rw [hf] at h
    simp only [Option.some.injEq] at h
    subst h
    obtain ⟨r1, c1, r2, c2⟩ := m
    obtain ⟨hr1, hlen1, hc11, hc12, hlt, hr2, hlen2, hc21, hc22, hload1, hload2⟩ :=
      n3Candidates_mem (pickBest_mem hf).1
    have hne : r1 ≠ r2 := by omega
    unfold n3Apply
    simp only
    exact swap_inv hinv hr1 hlen1 hc11 hc12 hr2 hlen2 hc21 hc22 hne hload1 hload2

/-- N3 preserves the invariant and the interior multiset. -/
theorem N3_inv (fuel : ℕ) (sol : Sol) {demands : ℕ → ℕ} {cap : ℕ}
    (dist : ℕ → ℕ → ℚ) (hinv : Inv demands cap sol) :
    Inv demands cap (N3_swap_inter fuel sol demands cap dist) ∧
      (interiors (N3_swap_inter fuel sol demands cap dist)).Perm (interiors sol) :=
  opLoop_inv (n3Step_inv dist) fuel sol hinv

theorem n4Candidates_mem {sol : Sol} {r1 r2 i j : ℕ}
    (h : (r1, r2, i, j) ∈ n4Candidates sol) :
    r1 < sol.length ∧ 2 < (getR sol r1).length ∧ r1 < r2 ∧ r2 < sol.length ∧
      2 < (getR sol r2).length ∧ 1 ≤ i ∧ i ≤ (getR sol r1).length - 2 ∧
      1 ≤ j ∧ j ≤ (getR sol r2).length - 2 := by
  unfold n4Candidates at h
  obtain ⟨a, ha, hb⟩ := List.mem_flatMap.mp h
  rw [List.mem_range] at ha
  by_cases hlen : (getR sol a).length ≤ 2
  · rw [if_pos hlen] at hb
    cases hb
  · rw [if_neg hlen] at hb
    obtain ⟨b, hbmem, hm⟩ := List.mem_flatMap.mp hb
    rw [List.mem_range'_1] at hbmem
    by_cases hlen2 : (getR sol b).length ≤ 2
    · rw [if_pos hlen2] at hm
      cases hm
    · rw [if_neg hlen2] at hm
      obtain ⟨x1, hx1, hm2⟩ := List.mem_flatMap.mp hm
      obtain ⟨x2, hx2, he⟩ := List.mem_map.mp hm2
      cases he
      rw [List.mem_range'_1] at hx1 hx2
      exact ⟨ha, by omega, by omega, by omega, by omega, by omega, by omega,
        by omega, by omega⟩

theorem n4Step_inv (dist : ℕ → ℕ → ℚ) {demands : ℕ → ℕ} {cap : ℕ} :
    ∀ sol sol2, Inv demands cap sol → n4Step demands cap dist sol = some sol2 →
      Inv demands cap sol2 ∧ (interiors sol2).Perm (interiors sol) := by
  intro sol sol2 hinv h
  unfold n4Step at h
  cases hf : (n4Candidates sol).find?
      (fun m => decide (n4Accept demands cap dist sol m)) with
  | none => rw [hf] at h; cases h
  | some m =>
    rw [hf] at h
    obtain ⟨r1, r2, i, j⟩ := m
    simp only [Option.some.injEq] at h
    subst h
    obtain ⟨hr1, hlen1, hlt, hr2, hlen2, hi1, hi2, hj1, hj2⟩ :=
      n4Candidates_mem (List.mem_of_find?_eq_some hf)
    have hne : r1 ≠ r2 := by omega
    have hacc : n4Accept demands cap dist sol (r1, r2, i, j) := by
      have := List.find?_some hf
      simpa using this
    obtain ⟨hcap1, hcap2, _⟩ := hacc
    have hg1 := hinv.1 _ (getR_mem hr1)
    have hg2 := hinv.1 _ (getR_mem hr2)
    have hd1 := goodRoute_decomp hg1
    have hd2 := goodRoute_decomp hg2
    have hm1len : (getR sol r1).length = (interior (getR sol r1)).length + 2 := by
      conv_lhs => rw [hd1]
      exact length_decomp _
    have hm2len : (getR sol r2).length = (interior (getR sol r2)).length + 2 := by
      conv_lhs => rw [hd2]
      exact length_decomp _
    have hnew1 : n4NewR1 sol r1 r2 i j =
        0 :: (((interior (getR sol r1)).take i ++ (interior (getR sol r2)).drop j)
          ++ [0]) := by
      unfold n4NewR1
      conv_lhs => rw [hd1, hd2]
      rw [List.take_succ_cons, List.drop_succ_cons]
      rw [List.take_append_of_le_length (by omega)]
      rw [List.drop_append_of_le_length (by omega : j ≤ (interior (getR sol r2)).length)]
      simp [List.append_assoc]
    have hnew2 : n4NewR2 sol r1 r2 i j =
        0 :: (((interior (getR sol r2)).take j ++ (interior (getR sol r1)).drop i)
          ++ [0]) := by
      unfold n4NewR2
      conv_lhs => rw [hd1, hd2]
      rw [List.take_succ_cons, List.drop_succ_cons]
      rw [List.take_append_of_le_length (by omega)]
      rw [List.drop_append_of_le_length (by omega : i ≤ (interior (getR sol r1)).length)]
      simp [List.append_assoc]
    have hge1 : GoodRoute demands cap (n4NewR1 sol r1 r2 i j) := by
      rw [hnew1]
      refine goodRoute_of_decomp _ ?_
      have := hcap1
      rw [hnew1, route_demand_decomp] at this
      exact this
    have hge2 : GoodRoute demands cap (n4NewR2 sol r1 r2 i j) := by
      rw [hnew2]
      refine goodRoute_of_decomp _ ?_
      have := hcap2
      rw [hnew2, route_demand_decomp] at this
      exact this
    have hgs2 : GoodSol demands cap
        ((sol.set r1 (n4NewR1 sol r1 r2 i j)).set r2 (n4NewR2 sol r1 r2 i j)) :=
      goodSol_set (goodSol_set hinv.1 hge1) hge2
    have hperm : (interiors ((sol.set r1 (n4NewR1 sol r1 r2 i j)).set r2
        (n4NewR2 sol r1 r2 i j))).Perm (interiors sol) := by
      refine set2_interiors_perm hr1 hr2 hne ?_
      rw [hnew1, hnew2, interior_decomp, interior_decomp]
      refine perm_of_count _ _ fun y => ?_
      have s1 : (interior (getR sol r1)).take i ++ (interior (getR sol r1)).drop i
          = interior (getR sol r1) := List.take_append_drop _ _
      have s2 : (interior (getR sol r2)).take j ++ (interior (getR sol r2)).drop j
          = interior (getR sol r2) := List.take_append_drop _ _
      have k1 := congrArg (List.count y) s1
      have k2 := congrArg (List.count y) s2
      simp only [List.count_append] at k1 k2 ⊢
      omega
    exact ⟨inv_of_perm hinv hgs2 hperm, hperm⟩

/-- N4 preserves the invariant and the interior multiset. -/
theorem N4_inv (fuel : ℕ) (sol : Sol) {demands : ℕ → ℕ} {cap : ℕ}
    (dist : ℕ → ℕ → ℚ) (hinv : Inv demands cap sol) :
    Inv demands cap (N4_two_opt_inter fuel sol demands cap dist) ∧
      (interiors (N4_two_opt_inter fuel sol demands cap dist)).Perm
        (interiors sol) :=
  opLoop_inv (n4Step_inv dist) fuel sol hinv

theorem enumFrom_filter_ne (t : Sol) : ∀ (k r : ℕ), r < k →
    (List.enumFrom k t).filter (fun p => decide (p.1 ≠ r)) = List.enumFrom k t := by
  induction t with
  | nil => intro k r _; rfl
  | cons a s ih =>
    intro k r hr
    simp only [List.enumFrom, List.filter_cons]
    rw [if_pos (by simp; omega)]
    rw [ih (k + 1) r (by omega)]

theorem enumFrom_eraseOne (t : Sol) : ∀ (k r : ℕ), k ≤ r →
    (((List.enumFrom k t).filter (fun p => decide (p.1 ≠ r))).map (·.2)) =
      t.eraseIdx (r - k) := by
  induction t with
  | nil => intro k r _; rfl
  | cons a s ih =>
    intro k r hk
    simp only [List.enumFrom, List.filter_cons]
    by_cases hkr : k = r
    · subst hkr
      rw [if_neg (by simp)]
      rw [Nat.sub_self, List.eraseIdx_cons_zero]
      rw [enumFrom_filter_ne s (k + 1) k (by omega)]
      show List.map Prod.snd (List.enumFrom (k + 1) s) = s
      exact List.enumFrom_map_snd (k + 1) s
    · rw [if_pos (by simp; omega)]
      simp only [List.map_cons]
      obtain ⟨r2, rfl⟩ : ∃ r2, r = r2 + 1 := ⟨r - 1, by omega⟩
      rw [ih (k + 1) (r2 + 1) (by omega)]
      have : r2 + 1 - k = (r2 - k) + 1 := by omega
      rw [this, List.eraseIdx_cons_succ]
      have : r2 + 1 - (k + 1) = r2 - k := by omega
      rw [this]

theorem enumFrom_conj_of_lt (t : Sol) (k r1 r2 : ℕ) (h : r1 < k) :
    (List.enumFrom k t).filter (fun p => decide (p.1 ≠ r1 ∧ p.1 ≠ r2)) =
      (List.enumFrom k t).filter (fun p => decide (p.1 ≠ r2)) := by
  refine List.filter_congr fun x hx => ?_
  have := (List.mem_enumFrom hx).1
  simp only [decide_eq_decide]
  constructor
  · exact fun h2 => h2.2
  · exact fun h2 => ⟨by omega, h2⟩

theorem removeTwo_enumFrom (t : Sol) : ∀ (k r1 r2 : ℕ), k ≤ r1 → r1 < r2 →
    (((List.enumFrom k t).filter (fun p => decide (p.1 ≠ r1 ∧ p.1 ≠ r2))).map (·.2)) =
      (t.eraseIdx (r2 - k)).eraseIdx (r1 - k) := by
  induction t with
  | nil => intro k r1 r2 _ _; rfl
  | cons a s ih =>
    intro k r1 r2 hk h12
    simp only [List.enumFrom, List.filter_cons]
    by_cases hkr : k = r1
    · subst hkr
      rw [if_neg (by simp)]
      rw [enumFrom_conj_of_lt s (k + 1) k r2 (by omega)]
      rw [enumFrom_eraseOne s (k + 1) r2 (by omega)]
      obtain ⟨d2, rfl⟩ : ∃ d2, r2 = k + d2 + 1 := ⟨r2 - k - 1, by omega⟩
      have e1 : k + d2 + 1 - k = d2 + 1 := by omega
      have e2 : k + d2 + 1 - (k + 1) = d2 := by omega
      rw [e1, e2, Nat.sub_self, List.eraseIdx_cons_succ, List.eraseIdx_cons_zero]
    · rw [if_pos (by simp; omega)]
      simp only [List.map_cons]
      rw [ih (k + 1) r1 r2 (by omega) h12]
      obtain ⟨d1, rfl⟩ : ∃ d1, r1 = k + d1 + 1 := ⟨r1 - k - 1, by omega⟩
      obtain ⟨d2, rfl⟩ : ∃ d2, r2 = k + d2 + 1 := ⟨r2 - k - 1, by omega⟩
      have e1 : k + d2 + 1 - k = d2 + 1 := by omega
      have e2 : k + d1 + 1 - k = d1 + 1 := by omega
      have e3 : k + d2 + 1 - (k + 1) = d2 := by omega
      have e4 : k + d1 + 1 - (k + 1) = d1 := by omega
      rw [e1, e2, e3, e4, List.eraseIdx_cons_succ, List.eraseIdx_cons_succ]

theorem removeTwo_eq {sol : Sol} {r1 r2 : ℕ} (h : r1 < r2) :
    removeTwo sol r1 r2 = (sol.eraseIdx r2).eraseIdx r1 := by
  unfold removeTwo
  rw [List.enum_eq_enumFrom]
  have := removeTwo_enumFrom sol 0 r1 r2 (by omega) h
  simpa using this

theorem getR_eraseIdx_of_lt {sol : Sol} {i j : ℕ} (h : j < i) :
    getR (sol.eraseIdx i) j = getR sol j := by
  unfold getR
  rw [List.getD_eq_getElem?_getD, List.getElem?_eraseIdx_of_lt sol i j h,
    ← List.getD_eq_getElem?_getD]

theorem n5Candidates_mem {demands : ℕ → ℕ} {cap : ℕ} {sol : Sol}
    {r1 r2 cfg : ℕ} (h : (r1, r2, cfg) ∈ n5Candidates demands cap sol) :
    r1 < sol.length ∧ r1 < r2 ∧ r2 < sol.length ∧
      route_demand demands (getR sol r1) + route_demand demands (getR sol r2) ≤ cap := by
  unfold n5Candidates at h
  obtain ⟨a, ha, hb⟩ := List.mem_flatMap.mp h
  rw [List.mem_range] at ha
  obtain ⟨b, hbmem, hm⟩ := List.mem_flatMap.mp hb
  rw [List.mem_range'_1] at hbmem
  by_cases hcap : route_demand demands (getR sol a) + route_demand demands (getR sol b) ≤ cap
  · rw [if_pos hcap] at hm
    simp only [List.mem_cons, Prod.mk.injEq, List.not_mem_nil, or_false] at hm
    rcases hm with h | h | h | h <;>
      (obtain ⟨h1, h2, _⟩ := h; subst h1; subst h2;
        exact ⟨ha, by omega, by omega, hcap⟩)
  · rw [if_neg hcap] at hm
    cases hm

/-- Every merge configuration of N5 produces a well-formed route whose
interior is a permutation of the two source interiors. -/
theorem n5Merged_decomp {demands : ℕ → ℕ} {cap : ℕ} {sol : Sol} {r1 r2 : ℕ}
    (hg1 : GoodRoute demands cap (getR sol r1))
    (hg2 : GoodRoute demands cap (getR sol r2)) (cfg : ℕ) :
    ∃ mm, n5Merged sol r1 r2 cfg = 0 :: (mm ++ [0]) ∧
      mm.Perm (interior (getR sol r1) ++ interior (getR sol r2)) := by
  have hd1 := goodRoute_decomp hg1
  have hd2 := goodRoute_decomp hg2
  have hdl1 : (getR sol r1).dropLast = 0 :: interior (getR sol r1) := by
    conv_lhs => rw [hd1]
    show ((0 :: interior (getR sol r1)) ++ [0]).dropLast = _
    exact List.dropLast_concat
  have hdl2 : (getR sol r2).dropLast = 0 :: interior (getR sol r2) := by
    conv_lhs => rw [hd2]
    show ((0 :: interior (getR sol r2)) ++ [0]).dropLast = _
    exact List.dropLast_concat
  have hdr1 : (getR sol r1).drop 1 = interior (getR sol r1) ++ [0] := by
    conv_lhs => rw [hd1]
    rfl
  have hdr2 : (getR sol r2).drop 1 = interior (getR sol r2) ++ [0] := by
    conv_lhs => rw [hd2]
    rfl
  have hrev1 : ((getR sol r1).drop 1).dropLast.reverse = (interior (getR sol r1)).reverse := by
    rw [hdr1, List.dropLast_concat]
  have hrev2 : ((getR sol r2).drop 1).dropLast.reverse = (interior (getR sol r2)).reverse := by
    rw [hdr2, List.dropLast_concat]
  match cfg with
  | 0 =>
    refine ⟨interior (getR sol r1) ++ interior (getR sol r2), ?_, List.Perm.refl _⟩
    show (getR sol r1).dropLast ++ (getR sol r2).drop 1 = _
    rw [hdl1, hdr2]
    simp
  | 1 =>
    refine ⟨interior (getR sol r2) ++ interior (getR sol r1), ?_, List.perm_append_comm⟩
    show (getR sol r2).dropLast ++ (getR sol r1).drop 1 = _
    rw [hdl2, hdr1]
    simp
  | 2 =>
    refine ⟨interior (getR sol r1) ++ (interior (getR sol r2)).reverse, ?_, ?_⟩
    · show (getR sol r1).dropLast ++ ((getR sol r2).drop 1).dropLast.reverse ++ [0] = _
      rw [hdl1, hrev2]
      simp
    · exact List.Perm.append_left _ (List.reverse_perm _)
  | (n + 3) =>
    refine ⟨interior (getR sol r2) ++ (interior (getR sol r1)).reverse, ?_, ?_⟩
    · show (getR sol r2).dropLast ++ ((getR sol r1).drop 1).dropLast.reverse ++ [0] = _
      rw [hdl2, hrev1]
      simp
    · exact (List.Perm.append_left _ (List.reverse_perm _)).trans List.perm_append_comm

theorem n5Step_inv (dist : ℕ → ℕ → ℚ) {demands : ℕ → ℕ} {cap : ℕ} :
    ∀ sol sol2, Inv demands cap sol → n5Step demands cap dist sol = some sol2 →
      Inv demands cap sol2 ∧ (interiors sol2).Perm (interiors sol) := by
  intro sol sol2 hinv h
  unfold n5Step at h
  cases hf : pickBest (n5Delta dist sol) IMPROVEMENT_THRESHOLD
      (n5Candidates demands cap sol) with
  | none => rw [hf] at h; cases h
  | some m =>
    rw [hf] at h
    simp only [Option.some.injEq] at h
    subst h
    obtain ⟨r1, r2, cfg⟩ := m
    obtain ⟨hr1, hlt, hr2, hcap⟩ := n5Candidates_mem (pickBest_mem hf).1
    have hg1 := hinv.1 _ (getR_mem hr1)
    have hg2 := hinv.1 _ (getR_mem hr2)
    obtain ⟨mm, hmm, hmp⟩ := n5Merged_decomp hg1 hg2 cfg
    have hrd1 : route_demand demands (interior (getR sol r1)) =
        route_demand demands (getR sol r1) := by
      conv_rhs => rw [goodRoute_decomp hg1]
      rw [route_demand_decomp]
    have hrd2 : route_demand demands (interior (getR sol r2)) =
        route_demand demands (getR sol r2) := by
      conv_rhs => rw [goodRoute_decomp hg2]
      rw [route_demand_decomp]
    have hgm : GoodRoute demands cap (n5Merged sol r1 r2 cfg) := by
      rw [hmm]
      refine goodRoute_of_decomp _ ?_
      rw [route_demand_perm demands hmp, route_demand_append]
      omega
    unfold n5Apply
    simp only
    rw [removeTwo_eq hlt]
    have hlenE : r1 < (sol.eraseIdx r2).length := by
      rw [List.length_eraseIdx, if_pos hr2]
      omega
    have hgsE : GoodSol demands cap ((sol.eraseIdx r2).eraseIdx r1) :=
      goodSol_of_sublist (goodSol_of_sublist hinv.1 (List.eraseIdx_sublist sol r2))
        (List.eraseIdx_sublist _ r1)
    have hgs2 : GoodSol demands cap
        ((sol.eraseIdx r2).eraseIdx r1 ++ [n5Merged sol r1 r2 cfg]) := by
      intro r hr
      rcases List.mem_append.mp hr with h2 | h2
      · exact hgsE r h2
      · rw [List.mem_singleton.mp h2]
        exact hgm
    have hperm : (interiors ((sol.eraseIdx r2).eraseIdx r1
        ++ [n5Merged sol r1 r2 cfg])).Perm (interiors sol) := by
      have e1 := List.perm_iff_count.mp (interiors_eraseIdx_perm hr2)
      have e2 := List.perm_iff_count.mp (interiors_eraseIdx_perm hlenE)
      have e3 := List.perm_iff_count.mp hmp
      have hgetR : getR (sol.eraseIdx r2) r1 = getR sol r1 := getR_eraseIdx_of_lt hlt
      refine perm_of_count _ _ fun y => ?_
      have c1 := e1 y
      have c2 := e2 y
      have c3 := e3 y
      rw [hgetR] at c2
      rw [interiors_append]
      have hint : interiors [n5Merged sol r1 r2 cfg] = mm := by
        rw [hmm]
        show interior (0 :: (mm ++ [0])) ++ interiors [] = mm
        rw [interior_decomp]
        simp [interiors]
      rw [hint]
      simp only [List.count_append] at c1 c2 c3 ⊢
      omega
    exact ⟨inv_of_perm hinv hgs2 hperm, hperm⟩

/-- N5 preserves the invariant and the interior multiset. -/
theorem N5_inv (fuel : ℕ) (sol : Sol) {demands : ℕ → ℕ} {cap : ℕ}
    (dist : ℕ → ℕ → ℚ) (hinv : Inv demands cap sol) :
    Inv demands cap (N5_merge_routes fuel sol demands cap dist) ∧
      (interiors (N5_merge_routes fuel sol demands cap dist)).Perm
        (interiors sol) :=
  opLoop_inv (n5Step_inv dist) fuel sol hinv

theorem insertIdx_length_append (A : List ℕ) (c : ℕ) (B : List ℕ) :
    List.insertIdx A.length c (A ++ B) = A ++ c :: B := by
  induction A with
  | nil => rfl
  | cons a t ih =>
    show List.insertIdx (t.length + 1) c (a :: (t ++ B)) = a :: (t ++ c :: B)
    rw [List.insertIdx_succ_cons, ih]

theorem insertChain_eq : ∀ (cs : List ℕ) (A B : List ℕ),
    insertChain A.length cs (A ++ B) = A ++ cs ++ B := by
  intro cs
  induction cs with
  | nil => intro A B; simp [insertChain]
  | cons c t ih =>
    intro A B
    show insertChain (A.length + 1) t (List.insertIdx A.length c (A ++ B)) = _
    rw [insertIdx_length_append]
    have h2 : A.length + 1 = (A ++ [c]).length := by simp
    rw [h2]
    have h3 : A ++ c :: B = (A ++ [c]) ++ B := by simp
    rw [h3, ih (A ++ [c]) B]
    simp

theorem drop_take_eq_map_getN : ∀ (l : List ℕ) (s c : ℕ), s + c ≤ l.length →
    (l.drop s).take c = (List.range c).map (fun i => getN l (s + i)) := by
  intro l s c
  induction c with
  | zero => intro _; simp
  | succ c2 ih =>
    intro h
    rw [List.range_succ, List.map_append, ← ih (by omega)]
    rw [List.take_succ]
    congr 1
    have hsc : s + c2 < l.length := by omega
    have hdrop : (l.drop s)[c2]? = l[s + c2]? := List.getElem?_drop l s c2
    rw [hdrop, List.getElem?_eq_getElem hsc]
    simp only [List.map_cons, List.map_nil, Option.toList_some]
    unfold getN
    rw [List.getD_eq_getElem?_getD, List.getElem?_eq_getElem hsc]
    rfl

theorem route_demand_le_natSum_map (demands : ℕ → ℕ) (l : List ℕ) :
    route_demand demands l ≤ natSum (l.map demands) := by
  unfold route_demand
  exact natSum_le_of_sublist ((List.filter_sublist l).map demands)

theorem n6IntraCands_mem {sol : Sol} {cl : ℕ} {mv : OrOptMove}
    (h : mv ∈ n6IntraCands sol cl) :
    ∃ r s p, mv = OrOptMove.intra r s cl p ∧ r < sol.length ∧
      cl + 2 < (getR sol r).length ∧ 1 ≤ s ∧ s ≤ (getR sol r).length - cl - 1 ∧
      1 ≤ p ∧ p ≤ (getR sol r).length - 2 ∧ (p < s ∨ s + cl < p) := by
  unfold n6IntraCands at h
  obtain ⟨a, ha, hb⟩ := List.mem_flatMap.mp h
  rw [List.mem_range] at ha
  simp only at hb
  by_cases hlen : (getR sol a).length ≤ cl + 2
  · rw [if_pos hlen] at hb
    cases hb
  · rw [if_neg hlen] at hb
    obtain ⟨s2, hs2, hm⟩ := List.mem_flatMap.mp hb
    obtain ⟨p2, hp2, he⟩ := List.mem_filterMap.mp hm
    by_cases hskip : s2 ≤ p2 ∧ p2 ≤ s2 + cl
    · rw [if_pos hskip] at he
      cases he
    · rw [if_neg hskip] at he
      simp only [Option.some.injEq] at he
      rw [List.mem_range'_1] at hs2 hp2
      push_neg at hskip
      refine ⟨a, s2, p2, he.symm, ha, by omega, by omega, by omega, by omega,
        by omega, ?_⟩
      by_cases hps : p2 < s2
      · exact Or.inl hps
      · exact Or.inr (hskip (by omega))

theorem n6InterCands_mem {demands : ℕ → ℕ} {cap : ℕ} {sol : Sol} {cl : ℕ}
    {mv : OrOptMove} (h : mv ∈ n6InterCands demands cap sol cl) :
    ∃ r1 s r2 p, mv = OrOptMove.inter r1 s cl r2 p ∧ r1 < sol.length ∧
      cl + 1 < (getR sol r1).length ∧ 1 ≤ s ∧ s ≤ (getR sol r1).length - cl - 1 ∧
      r2 < sol.length ∧ r1 ≠ r2 ∧
      route_demand demands (getR sol r2)
        + chainDemand demands (getR sol r1) s cl ≤ cap ∧
      1 ≤ p ∧ p ≤ (getR sol r2).length - 1 := by
  unfold n6InterCands at h
  obtain ⟨a, ha, hb⟩ := List.mem_flatMap.mp h
  rw [List.mem_range] at ha
  simp only at hb
  by_cases hlen : (getR sol a).length ≤ cl + 1
  · rw [if_pos hlen] at hb
    cases hb
  · rw [if_neg hlen] at hb
    obtain ⟨s2, hs2, hm⟩ := List.mem_flatMap.mp hb
    obtain ⟨b, hbm, hm2⟩ := List.mem_flatMap.mp hm
    rw [List.mem_range] at hbm
    by_cases heq : a = b
    · rw [if_pos heq] at hm2
      cases hm2
    · rw [if_neg heq] at hm2
      by_cases hcap : cap < route_demand demands (getR sol b)
          + chainDemand demands (getR sol a) s2 cl
      · rw [if_pos hcap] at hm2
        cases hm2
      · rw [if_neg hcap] at hm2
        obtain ⟨p2, hp2, he⟩ := List.mem_map.mp hm2
        rw [List.mem_range'_1] at hs2 hp2
        exact ⟨a, s2, b, p2, he.symm, ha, by omega, by omega, by omega, hbm, heq,
          by omega, by omega, by omega⟩

theorem n6Candidates_intra_mem {demands : ℕ → ℕ} {cap : ℕ} {sol : Sol}
    {r s cl p : ℕ} (h : OrOptMove.intra r s cl p ∈ n6Candidates demands cap sol) :
    1 ≤ cl ∧ r < sol.length ∧ cl + 2 < (getR sol r).length ∧ 1 ≤ s ∧
      s ≤ (getR sol r).length - cl - 1 ∧ 1 ≤ p ∧ p ≤ (getR sol r).length - 2 ∧
      (p < s ∨ s + cl < p) := by
  unfold n6Candidates at h
  obtain ⟨cl2, hcl2, hm⟩ := List.mem_flatMap.mp h
  rcases List.mem_append.mp hm with h2 | h2
  · obtain ⟨r2, s2, p2, he, hb⟩ := n6IntraCands_mem h2
    have hcl : 1 ≤ cl2 := by
      simp only [List.mem_cons, List.not_mem_nil, or_false] at hcl2
      rcases hcl2 with rfl | rfl | rfl <;> omega
    cases he
    exact ⟨hcl, hb.1, hb.2.1, hb.2.2.1, hb.2.2.2.1, hb.2.2.2.2.1, hb.2.2.2.2.2.1,
      hb.2.2.2.2.2.2⟩
  · obtain ⟨r1, s2, r2, p2, he, _⟩ := n6InterCands_mem h2
    cases he

theorem n6Candidates_inter_mem {demands : ℕ → ℕ} {cap : ℕ} {sol : Sol}
    {r1 s cl r2 p : ℕ}
    (h : OrOptMove.inter r1 s cl r2 p ∈ n6Candidates demands cap sol) :
    1 ≤ cl ∧ r1 < sol.length ∧ cl + 1 < (getR sol r1).length ∧ 1 ≤ s ∧
      s ≤ (getR sol r1).length - cl - 1 ∧ r2 < sol.length ∧ r1 ≠ r2 ∧
      route_demand demands (getR sol r2)
        + chainDemand demands (getR sol r1) s cl ≤ cap ∧
      1 ≤ p ∧ p ≤ (getR sol r2).length - 1 := by
  unfold n6Candidates at h
  obtain ⟨cl2, hcl2, hm⟩ := List.mem_flatMap.mp h
  rcases List.mem_append.mp hm with h2 | h2
  · obtain ⟨r3, s3, p3, he, _⟩ := n6IntraCands_mem h2
    cases he
  · obtain ⟨r3, s3, r4, p3, he, hb⟩ := n6InterCands_mem h2
    have hcl : 1 ≤ cl2 := by
      simp only [List.mem_cons, List.not_mem_nil, or_false] at hcl2
      rcases hcl2 with rfl | rfl | rfl <;> omega
    cases he
    exact ⟨hcl, hb.1, hb.2.1, hb.2.2.1, hb.2.2.2.1, hb.2.2.2.2.1, hb.2.2.2.2.2.1,
      hb.2.2.2.2.2.2.1, hb.2.2.2.2.2.2.2.1, hb.2.2.2.2.2.2.2.2⟩

/-- Decomposition of chain removal on a well-formed route: Python
`route[:s] + route[s+cl:]` with the chain strictly interior. -/
theorem chain_removed_decomp {m : List ℕ} {s cl : ℕ} (h1 : 1 ≤ s)
    (h2 : s - 1 + cl ≤ m.length) :
    (0 :: (m ++ [0])).take s ++ (0 :: (m ++ [0])).drop (s + cl) =
      0 :: ((m.take (s - 1) ++ m.drop (s - 1 + cl)) ++ [0]) := by
  obtain ⟨s2, rfl⟩ : ∃ s2, s = s2 + 1 := ⟨s - 1, by omega⟩
  simp only [Nat.add_sub_cancel]
  rw [List.take_succ_cons]
  have hd : s2 + 1 + cl = (s2 + cl) + 1 := by omega
  rw [hd, List.drop_succ_cons]
  rw [List.take_append_of_le_length (by omega)]
  rw [List.drop_append_of_le_length (by omega : s2 + cl ≤ m.length)]
  simp

/-- Decomposition of the extracted chain on a well-formed route: Python
`route[s : s+cl]` with the chain strictly interior. -/
theorem chain_slice_decomp {m : List ℕ} {s cl : ℕ} (h1 : 1 ≤ s)
    (h2 : s - 1 + cl ≤ m.length) :
    ((0 :: (m ++ [0])).drop s).take cl = (m.drop (s - 1)).take cl := by
  obtain ⟨s2, rfl⟩ : ∃ s2, s = s2 + 1 := ⟨s - 1, by omega⟩
  simp only [Nat.add_sub_cancel]
  rw [List.drop_succ_cons]
  rw [List.drop_append_of_le_length (by omega : s2 ≤ m.length)]
  rw [List.take_append_of_le_length (by rw [List.length_drop]; omega)]

/-- The interior of a route splits as removal part plus chain. -/
theorem chain_split_perm {m : List ℕ} {s cl : ℕ} (h1 : 1 ≤ s)
    (h2 : s - 1 + cl ≤ m.length) :
    m.Perm ((m.take (s - 1) ++ m.drop (s - 1 + cl)) ++ (m.drop (s - 1)).take cl) := by
  refine perm_of_count _ _ fun y => ?_
  conv_lhs => rw [← List.take_append_drop (s - 1) m]
  conv_lhs => rw [← List.take_append_drop cl (m.drop (s - 1))]
  rw [List.drop_drop]
  simp only [List.count_append]
  omega

/-- Decomposition of `insertChain` at an interior position of a route. -/
theorem insertChain_route_decomp {m cs : List ℕ} {p : ℕ} (h1 : 1 ≤ p)
    (h2 : p - 1 ≤ m.length) :
    insertChain p cs (0 :: (m ++ [0])) =
      0 :: ((m.take (p - 1) ++ cs ++ m.drop (p - 1)) ++ [0]) := by
  have hsplit : 0 :: (m ++ [0]) =
      (0 :: m.take (p - 1)) ++ (m.drop (p - 1) ++ [0]) := by
    rw [List.cons_append]
    congr 1
    rw [← List.append_assoc, List.take_append_drop]
  have hlenA : (0 :: m.take (p - 1)).length = p := by
    simp only [List.length_cons, List.length_take]
    omega
  rw [hsplit]
  have hic := insertChain_eq cs (0 :: m.take (p - 1)) (m.drop (p - 1) ++ [0])
  rw [hlenA] at hic
  rw [hic]
  simp

theorem n6Step_inv (dist : ℕ → ℕ → ℚ) {demands : ℕ → ℕ} {cap : ℕ} :
    ∀ sol sol2, Inv demands cap sol → n6Step demands cap dist sol = some sol2 →
      Inv demands cap sol2 ∧ (interiors sol2).Perm (interiors sol) := by
  intro sol sol2 hinv h
  unfold n6Step at h
  cases hf : pickBest (n6Delta dist sol) IMPROVEMENT_THRESHOLD
      (n6Candidates demands cap sol) with
  | none => rw [hf] at h; cases h
  | some mv =>
    rw [hf] at h
    simp only [Option.some.injEq] at h
    subst h
    cases mv with
    | intra r s cl p =>
      obtain ⟨hcl, hr, hlen, hs1, hs2, hp1, hp2, hside⟩ :=
        n6Candidates_intra_mem (pickBest_mem hf).1
      have hg := hinv.1 _ (getR_mem hr)
      have hd := goodRoute_decomp hg
      have hmlen : (getR sol r).length = (interior (getR sol r)).length + 2 := by
        conv_lhs => rw [hd]
        exact length_decomp _
      have hbound : s - 1 + cl ≤ (interior (getR sol r)).length := by omega
      have hchain : ((getR sol r).drop s).take cl =
          ((interior (getR sol r)).drop (s - 1)).take cl := by
        conv_lhs => rw [hd]
        exact chain_slice_decomp hs1 hbound
      have hrem : (getR sol r).take s ++ (getR sol r).drop (s + cl) =
          0 :: (((interior (getR sol r)).take (s - 1)
            ++ (interior (getR sol r)).drop (s - 1 + cl)) ++ [0]) := by
        conv_lhs => rw [hd]
        exact chain_removed_decomp hs1 hbound
      unfold n6Apply
      simp only
      set m := interior (getR sol r) with hmdef
      set mrem := m.take (s - 1) ++ m.drop (s - 1 + cl) with hmrem
      have hmremlen : mrem.length = m.length - cl := by
        rw [hmrem]
        simp only [List.length_append, List.length_take, List.length_drop]
        omega
      set ipos2 := if s < p then p - cl else p with hipos2
      have hipos2b : 1 ≤ ipos2 ∧ ipos2 - 1 ≤ mrem.length := by
        rw [hipos2, hmremlen]
        rcases hside with hlt | hgt
        · rw [if_neg (by omega)]
          omega
        · rw [if_pos (by omega)]
          omega
      have happly : insertChain ipos2 (((getR sol r).drop s).take cl)
          ((getR sol r).take s ++ (getR sol r).drop (s + cl)) =
          0 :: ((mrem.take (ipos2 - 1) ++ (m.drop (s - 1)).take cl
            ++ mrem.drop (ipos2 - 1)) ++ [0]) := by
        rw [hchain, hrem]
        exact insertChain_route_decomp hipos2b.1 hipos2b.2
      rw [happly]
      have hpm : (mrem.take (ipos2 - 1) ++ (m.drop (s - 1)).take cl
          ++ mrem.drop (ipos2 - 1)).Perm m := by
        have hsplit := List.perm_iff_count.mp (chain_split_perm hs1 hbound)
        refine perm_of_count _ _ fun y => ?_
        have c1 := hsplit y
        have c2 := congrArg (List.count y) (List.take_append_drop (ipos2 - 1) mrem)
        rw [← hmrem] at c1
        simp only [List.count_append] at c1 c2 ⊢
        omega
      have hrd : route_demand demands m ≤ cap := by
        have := hg.2.2.2
        rw [hd, route_demand_decomp] at this
        exact this
      have hgood : GoodRoute demands cap (0 :: ((mrem.take (ipos2 - 1)
          ++ (m.drop (s - 1)).take cl ++ mrem.drop (ipos2 - 1)) ++ [0])) := by
        refine goodRoute_of_decomp _ ?_
        rw [route_demand_perm demands hpm]
        exact hrd
      have hip : (interior (0 :: ((mrem.take (ipos2 - 1)
          ++ (m.drop (s - 1)).take cl ++ mrem.drop (ipos2 - 1)) ++ [0]))).Perm
          (interior (getR sol r)) := by
        rw [interior_decomp]
        exact hpm
      have hperm := set_route_interiors_perm hr hip
      exact ⟨inv_of_perm hinv (goodSol_set hinv.1 hgood) hperm, hperm⟩
    | inter r1 s cl r2 p =>
      obtain ⟨hcl, hr1, hlen1, hs1, hs2, hr2, hne, hcap, hp1, hp2⟩ :=
        n6Candidates_inter_mem (pickBest_mem hf).1
      have hg1 := hinv.1 _ (getR_mem hr1)
      have hg2 := hinv.1 _ (getR_mem hr2)
      have hd1 := goodRoute_decomp hg1
      have hd2 := goodRoute_decomp hg2
      have hm1len : (getR sol r1).length = (interior (getR sol r1)).length + 2 := by
        conv_lhs => rw [hd1]
        exact length_decomp _
      have hm2len : (getR sol r2).length = (interior (getR sol r2)).length + 2 := by
        conv_lhs => rw [hd2]
        exact length_decomp _
      set m1 := interior (getR sol r1) with hm1def
      set m2 := interior (getR sol r2) with hm2def
      have hbound : s - 1 + cl ≤ m1.length := by omega
      have hchain : ((getR sol r1).drop s).take cl = (m1.drop (s - 1)).take cl := by
        conv_lhs => rw [hd1]
        exact chain_slice_decomp hs1 hbound
      have hrem : (getR sol r1).take s ++ (getR sol r1).drop (s + cl) =
          0 :: ((m1.take (s - 1) ++ m1.drop (s - 1 + cl)) ++ [0]) := by
        conv_lhs => rw [hd1]
        exact chain_removed_decomp hs1 hbound
      have hsplit1 := chain_split_perm hs1 hbound
      have hrd1 : route_demand demands m1 ≤ cap := by
        have := hg1.2.2.2
        rw [hd1, route_demand_decomp] at this
        omega
      have hrd2 : route_demand demands m2 = route_demand demands (getR sol r2) := by
        conv_rhs => rw [hd2]
        rw [route_demand_decomp]
      have hgood1 : GoodRoute demands cap
          (0 :: ((m1.take (s - 1) ++ m1.drop (s - 1 + cl)) ++ [0])) := by
        refine goodRoute_of_decomp _ ?_
        have := route_demand_perm demands hsplit1
        rw [route_demand_append] at this
        omega
      have hchainDem : natSum (((m1.drop (s - 1)).take cl).map demands) =
          chainDemand demands (getR sol r1) s cl := by
        rw [← hchain]
        rw [drop_take_eq_map_getN _ s cl (by omega)]
        unfold chainDemand
        rw [List.map_map]
        rfl
      unfold n6Apply
      simp only
      rw [hrem]
      have hR2keep : getR (sol.set r1
          (0 :: ((m1.take (s - 1) ++ m1.drop (s - 1 + cl)) ++ [0]))) r2 =
          getR sol r2 := getR_set_ne _ hne
      rw [hchain, hR2keep]
      have hinsert : insertChain p ((m1.drop (s - 1)).take cl) (getR sol r2) =
          0 :: ((m2.take (p - 1) ++ (m1.drop (s - 1)).take cl
            ++ m2.drop (p - 1)) ++ [0]) := by
        conv_lhs => rw [hd2]
        exact insertChain_route_decomp hp1 (by omega)
      rw [hinsert]
      have hm2new_perm : (m2.take (p - 1) ++ (m1.drop (s - 1)).take cl
          ++ m2.drop (p - 1)).Perm (m2 ++ (m1.drop (s - 1)).take cl) := by
        refine perm_of_count _ _ fun y => ?_
        have c2 := congrArg (List.count y) (List.take_append_drop (p - 1) m2)
        simp only [List.count_append] at c2 ⊢
        omega
      have hgood2 : GoodRoute demands cap
          (0 :: ((m2.take (p - 1) ++ (m1.drop (s - 1)).take cl
            ++ m2.drop (p - 1)) ++ [0])) := by
        refine goodRoute_of_decomp _ ?_
        rw [route_demand_perm demands hm2new_perm, route_demand_append]
        have hchle : route_demand demands ((m1.drop (s - 1)).take cl) ≤
            natSum (((m1.drop (s - 1)).take cl).map demands) :=
          route_demand_le_natSum_map demands _
        omega
      have hgs2 : GoodSol demands cap
          ((sol.set r1 (0 :: ((m1.take (s - 1) ++ m1.drop (s - 1 + cl)) ++ [0]))).set r2
            (0 :: ((m2.take (p - 1) ++ (m1.drop (s - 1)).take cl
              ++ m2.drop (p - 1)) ++ [0]))) :=
        goodSol_set (goodSol_set hinv.1 hgood1) hgood2
      have hperm : (interiors ((sol.set r1 (0 :: ((m1.take (s - 1)
          ++ m1.drop (s - 1 + cl)) ++ [0]))).set r2
            (0 :: ((m2.take (p - 1) ++ (m1.drop (s - 1)).take cl
              ++ m2.drop (p - 1)) ++ [0])))).Perm (interiors sol) := by
        refine set2_interiors_perm hr1 hr2 hne ?_
        rw [interior_decomp, interior_decomp, ← hm1def, ← hm2def]
        have c1 := List.perm_iff_count.mp hsplit1
        have c2 := List.perm_iff_count.mp hm2new_perm
        refine perm_of_count _ _ fun y => ?_
        have k1 := c1 y
        have k2 := c2 y
        simp only [List.count_append] at k1 k2 ⊢
        omega
      refine ⟨inv_of_perm hinv (goodSol_of_sublist hgs2 (List.filter_sublist _)) ?_, ?_⟩
      · rw [interiors_filter_long hgs2]
        exact hperm
      · rw [interiors_filter_long hgs2]
        exact hperm

/-- N6 preserves the invariant and the interior multiset. -/
theorem N6_inv (fuel : ℕ) (sol : Sol) {demands : ℕ → ℕ} {cap : ℕ}
    (dist : ℕ → ℕ → ℚ) (hinv : Inv demands cap sol) :
    Inv demands cap (N6_or_opt fuel sol demands cap dist) ∧
      (interiors (N6_or_opt fuel sol demands cap dist)).Perm (interiors sol) :=
  opLoop_inv (n6Step_inv dist) fuel sol hinv

theorem validIdx_mem {m : ℕ} {sol : Sol} {i : ℕ} (h : i ∈ validIdx m sol) :
    i < sol.length ∧ m < (getR sol i).length := by
  unfold validIdx at h
  obtain ⟨h1, h2⟩ := List.mem_filter.mp h
  exact ⟨List.mem_range.mp h1, by simpa using h2⟩

theorem validIdx_nodup (m : ℕ) (sol : Sol) : (validIdx m sol).Nodup :=
  (List.nodup_range _).filter _

theorem rngChoice_mem {l : List ℕ} (g : Rng) (h : l ≠ []) : (rngChoice l g).1 ∈ l := by
  unfold rngChoice
  exact getD_mem (Nat.mod_lt _ (List.length_pos.mpr h)) 0

theorem rngRandint_le (a b : ℕ) (g : Rng) (h : a ≤ b) :
    a ≤ (rngRandint a b g).1 ∧ (rngRandint a b g).1 ≤ b := by
  unfold rngRandint
  have hm : (rngNext g).1 % (b + 1 - a) < b + 1 - a := Nat.mod_lt _ (by omega)
  simp only
  omega

/-- After removing one interior customer from a well-formed route, the target
route still has at least the two depot endpoints. -/
theorem relocate_route2_len {demands : ℕ → ℕ} {cap : ℕ} {sol : Sol} {r1 r2 : ℕ}
    (c : ℕ) (hinv : Inv demands cap sol) (hr1 : r1 < sol.length)
    (hlen1 : 2 < (getR sol r1).length) (hr2 : r2 < sol.length) :
    2 ≤ (getR (sol.set r1 ((getR sol r1).eraseIdx c)) r2).length := by
  by_cases he : r2 = r1
  · subst he
    rw [getR_set_self _ hr2]
    rw [List.length_eraseIdx]
    by_cases hc : c < (getR sol r2).length
    · rw [if_pos hc]
      omega
    · rw [if_neg hc]
      omega
  · rw [getR_set_ne _ (fun h => he h.symm)]
    exact (hinv.1 _ (getR_mem hr2)).1

/-- A capacity-feasible relocation of one interior customer (the accepted
branch of Shake_N1, target route possibly equal to the source route) keeps the
invariant and the interior multiset. -/
theorem relocate_inv {demands : ℕ → ℕ} {cap : ℕ} {sol : Sol} {r1 c r2 pos : ℕ}
    (hinv : Inv demands cap sol)
    (hr1 : r1 < sol.length) (hlen1 : 2 < (getR sol r1).length)
    (hc1 : 1 ≤ c) (hc2 : c ≤ (getR sol r1).length - 2)
    (hr2 : r2 < sol.length)
    (hfeas : route_demand demands (getR sol r2)
      + demands (getN (getR sol r1) c) ≤ cap)
    (hp1 : 1 ≤ pos)
    (hp2 : pos ≤ (getR (sol.set r1 ((getR sol r1).eraseIdx c)) r2).length - 1) :
    Inv demands cap ((sol.set r1 ((getR sol r1).eraseIdx c)).set r2
        (List.insertIdx pos (getN (getR sol r1) c)
          (getR (sol.set r1 ((getR sol r1).eraseIdx c)) r2))) ∧
      (interiors ((sol.set r1 ((getR sol r1).eraseIdx c)).set r2
        (List.insertIdx pos (getN (getR sol r1) c)
          (getR (sol.set r1 ((getR sol r1).eraseIdx c)) r2)))).Perm
        (interiors sol) := by
  have hg1 := hinv.1 _ (getR_mem hr1)
  have hd1 := goodRoute_decomp hg1
  have hm1len : (getR sol r1).length = (interior (getR sol r1)).length + 2 := by
    conv_lhs => rw [hd1]
    exact length_decomp _
  have hcu : getN (getR sol r1) c = (interior (getR sol r1)).getD (c - 1) 0 := by
    conv_lhs => rw [hd1]
    exact getN_decomp _ hc1 (by omega)
  have hcumem : getN (getR sol r1) c ∈ interiors sol := by
    rw [hcu]
    exact mem_interiors (getR_mem hr1) (getD_mem (by omega) 0)
  have hcu0 : getN (getR sol r1) c ≠ 0 := fun h0 => hinv.2 (h0 ▸ hcumem)
  have herase : (getR sol r1).eraseIdx c =
      0 :: ((interior (getR sol r1)).eraseIdx (c - 1) ++ [0]) := by
    conv_lhs => rw [hd1]
    exact route_eraseIdx_decomp _ hc1 (by omega)
  have hrd1 : route_demand demands (interior (getR sol r1)) ≤ cap := by
    have := hg1.2.2.2
    rw [hd1, route_demand_decomp] at this
    exact this
  have hgoodE : GoodRoute demands cap ((getR sol r1).eraseIdx c) := by
    rw [herase]
    refine goodRoute_of_decomp _ ?_
    exact (route_demand_eraseIdx_le demands _ _).trans hrd1
  have hsol2 : GoodSol demands cap (sol.set r1 ((getR sol r1).eraseIdx c)) :=
    goodSol_set hinv.1 hgoodE
  have hr2b : r2 < (sol.set r1 ((getR sol r1).eraseIdx c)).length := by
    simpa using hr2
  have hg2 := hsol2 _ (getR_mem hr2b)
  have hd2 := goodRoute_decomp hg2
  have hm2len : (getR (sol.set r1 ((getR sol r1).eraseIdx c)) r2).length =
      (interior (getR (sol.set r1 ((getR sol r1).eraseIdx c)) r2)).length + 2 := by
    conv_lhs => rw [hd2]
    exact length_decomp _
  have hins : List.insertIdx pos (getN (getR sol r1) c)
      (getR (sol.set r1 ((getR sol r1).eraseIdx c)) r2) =
      0 :: (List.insertIdx (pos - 1) (getN (getR sol r1) c)
        (interior (getR (sol.set r1 ((getR sol r1).eraseIdx c)) r2)) ++ [0]) := by
    conv_lhs => rw [hd2]
    exact route_insertIdx_decomp _ _ hp1 (by omega)
  have hrd2 : route_demand demands
      (interior (getR (sol.set r1 ((getR sol r1).eraseIdx c)) r2)) =
      route_demand demands (getR (sol.set r1 ((getR sol r1).eraseIdx c)) r2) := by
    conv_rhs => rw [hd2]
    rw [route_demand_decomp]
  have hrdcap : route_demand demands (getR (sol.set r1 ((getR sol r1).eraseIdx c)) r2)
      + demands (getN (getR sol r1) c) ≤ cap := by
    by_cases he : r2 = r1
    · subst he
      rw [getR_set_self _ hr2]
      have h1 := route_demand_eraseIdx_le demands (getR sol r2) c
      omega
    · rw [getR_set_ne _ (fun h => he h.symm)]
      exact hfeas
  have hgoodI : GoodRoute demands cap (List.insertIdx pos (getN (getR sol r1) c)
      (getR (sol.set r1 ((getR sol r1).eraseIdx c)) r2)) := by
    rw [hins]
    refine goodRoute_of_decomp _ ?_
    rw [route_demand_insertIdx demands _ (by omega), if_neg hcu0]
    omega
  have hgs3 : GoodSol demands cap ((sol.set r1 ((getR sol r1).eraseIdx c)).set r2
      (List.insertIdx pos (getN (getR sol r1) c)
        (getR (sol.set r1 ((getR sol r1).eraseIdx c)) r2))) :=
    goodSol_set hsol2 hgoodI
  have hA := List.perm_iff_count.mp
    (interiors_set_perm ((getR sol r1).eraseIdx c) hr1)
  have hB := List.perm_iff_count.mp (interiors_set_perm
    (List.insertIdx pos (getN (getR sol r1) c)
      (getR (sol.set r1 ((getR sol r1).eraseIdx c)) r2)) hr2b)
  have hm1p := List.perm_iff_count.mp (eraseIdx_cons_perm
    (show c - 1 < (interior (getR sol r1)).length by omega))
  have hposle : pos - 1 ≤
      (interior (getR (sol.set r1 ((getR sol r1).eraseIdx c)) r2)).length := by
    omega
  have hinsp := List.perm_iff_count.mp (List.perm_insertIdx
    (getN (getR sol r1) c)
    (interior (getR (sol.set r1 ((getR sol r1).eraseIdx c)) r2)) hposle)
  have e1 : interior ((getR sol r1).eraseIdx c) =
      (interior (getR sol r1)).eraseIdx (c - 1) := by
    rw [herase, interior_decomp]
  have e2 : interior (List.insertIdx pos (getN (getR sol r1) c)
      (getR (sol.set r1 ((getR sol r1).eraseIdx c)) r2)) =
      List.insertIdx (pos - 1) (getN (getR sol r1) c)
        (interior (getR (sol.set r1 ((getR sol r1).eraseIdx c)) r2)) := by
    rw [hins, interior_decomp]
  have hperm : (interiors ((sol.set r1 ((getR sol r1).eraseIdx c)).set r2
      (List.insertIdx pos (getN (getR sol r1) c)
        (getR (sol.set r1 ((getR sol r1).eraseIdx c)) r2)))).Perm (interiors sol) := by
    refine perm_of_count _ _ fun y => ?_
    have a1 := hA y
    have b1 := hB y
    have m1 := hm1p y
    have i1 := hinsp y
    rw [e1] at a1
    rw [e2] at b1
    rw [← hcu] at m1
    rw [count_cons_split] at m1 i1
    simp only [List.count_append] at a1 b1
    omega
  exact ⟨inv_of_perm hinv hgs3 hperm, hperm⟩

/-- The attempt loop of Shake_N1 keeps the invariant and the interior
multiset, for every random stream. -/
theorem shakeN1Go_inv {demands : ℕ → ℕ} {cap : ℕ} :
    ∀ (k : ℕ) (sol : Sol) (g : Rng), Inv demands cap sol →
      Inv demands cap (shakeN1Go demands cap k sol g).1 ∧
        (interiors (shakeN1Go demands cap k sol g).1).Perm (interiors sol) := by
  intro k
  induction k with
  | zero =>
    intro sol g hinv
    exact ⟨hinv, List.Perm.refl _⟩
  | succ k ih =>
    intro sol g hinv
    simp only [shakeN1Go]
    split
    next hlen => exact ⟨hinv, List.Perm.refl _⟩
    next hlen =>
      split
      next hval => exact ⟨hinv, List.Perm.refl _⟩
      next hval =>
        have hmem := rngChoice_mem g hval
        obtain ⟨hr1lt, hr1len⟩ := validIdx_mem hmem
        have hcb := rngRandint_le 1
          ((getR sol ((rngChoice (validIdx 2 sol) g).1)).length - 2)
          ((rngChoice (validIdx 2 sol) g).2) (by omega)
        have hr2b := rngRandint_le 0 (sol.length - 1)
          ((rngRandint 1 ((getR sol ((rngChoice (validIdx 2 sol) g).1)).length - 2)
            ((rngChoice (validIdx 2 sol) g).2)).2) (by omega)
        have hr2lt : (rngRandint 0 (sol.length - 1)
            ((rngRandint 1 ((getR sol ((rngChoice (validIdx 2 sol) g).1)).length - 2)
              ((rngChoice (validIdx 2 sol) g).2)).2)).1 < sol.length := by
          obtain ⟨h1, h2⟩ := hr2b
          omega
        split
        next hfeas =>
          have hrt2 := relocate_route2_len
            ((rngRandint 1 ((getR sol ((rngChoice (validIdx 2 sol) g).1)).length - 2)
              ((rngChoice (validIdx 2 sol) g).2)).1)
            hinv hr1lt hr1len hr2lt
          have hpb := rngRandint_le 1
            ((getR (sol.set ((rngChoice (validIdx 2 sol) g).1)
              ((getR sol ((rngChoice (validIdx 2 sol) g).1)).eraseIdx
                ((rngRandint 1
                  ((getR sol ((rngChoice (validIdx 2 sol) g).1)).length - 2)
                  ((rngChoice (validIdx 2 sol) g).2)).1)))
              ((rngRandint 0 (sol.length - 1)
                ((rngRandint 1
                  ((getR sol ((rngChoice (validIdx 2 sol) g).1)).length - 2)
                  ((rngChoice (validIdx 2 sol) g).2)).2)).1)).length - 1)
            ((rngRandint 0 (sol.length - 1)
              ((rngRandint 1 ((getR sol ((rngChoice (validIdx 2 sol) g).1)).length - 2)
                ((rngChoice (validIdx 2 sol) g).2)).2)).2) (by omega)
          have hrel := relocate_inv hinv hr1lt hr1len hcb.1 hcb.2 hr2lt hfeas
            hpb.1 hpb.2
          obtain ⟨ha, hb⟩ := ih _ _ hrel.1
          exact ⟨ha, hb.trans hrel.2⟩
        next hfeas =>
          exact ih _ _ hinv

/-- Shake_N1 keeps the invariant and the interior multiset. -/
theorem Shake_N1_inv {demands : ℕ → ℕ} {cap : ℕ} (sol : Sol) (k : ℕ) (g : Rng)
    (hinv : Inv demands cap sol) :
    Inv demands cap (Shake_N1_random_relocate sol demands cap k g).1 ∧
      (interiors (Shake_N1_random_relocate sol demands cap k g).1).Perm
        (interiors sol) := by
  obtain ⟨h1, h2⟩ := shakeN1Go_inv k sol g hinv
  have hfl := interiors_filter_long h1.1
  have hmain : Inv demands cap
      ((shakeN1Go demands cap k sol g).1.filter fun r => 2 < r.length) ∧
      (interiors ((shakeN1Go demands cap k sol g).1.filter
        fun r => 2 < r.length)).Perm (interiors sol) := by
    constructor
    · refine ⟨goodSol_of_sublist h1.1 (List.filter_sublist _), ?_⟩
      rw [hfl]
      exact h1.2
    · rw [hfl]
      exact h2
  exact hmain

/-- The attempt loop of Shake_N2 keeps the invariant and the interior
multiset, for every random stream. -/
theorem shakeN2Go_inv {demands : ℕ → ℕ} {cap : ℕ} :
    ∀ (k : ℕ) (sol : Sol) (g : Rng), Inv demands cap sol →
      Inv demands cap (shakeN2Go demands cap k sol g).1 ∧
        (interiors (shakeN2Go demands cap k sol g).1).Perm (interiors sol) := by
  intro k
  induction k with
  | zero =>
    intro sol g hinv
    exact ⟨hinv, List.Perm.refl _⟩
  | succ k ih =>
    intro sol g hinv
    simp only [shakeN2Go]
    split
    next hlen => exact ⟨hinv, List.Perm.refl _⟩
    next hlen =>
      split
      next hval => exact ⟨hinv, List.Perm.refl _⟩
      next hval =>
        set i1 := (rngNext g).1 % (validIdx 2 sol).length with hi1def
        set r1 := (validIdx 2 sol).getD i1 0 with hr1def
        set rest := (validIdx 2 sol).eraseIdx i1 with hrestdef
        set r2 := rest.getD ((rngNext ((rngNext g).2)).1 % rest.length) 0 with hr2def
        set c1i := (rngRandint 1 ((getR sol r1).length - 2)
          ((rngNext ((rngNext g).2)).2)).1 with hc1def
        set g3 := (rngRandint 1 ((getR sol r1).length - 2)
          ((rngNext ((rngNext g).2)).2)).2 with hg3def
        set c2i := (rngRandint 1 ((getR sol r2).length - 2) g3).1 with hc2def
        have hi1lt : i1 < (validIdx 2 sol).length := by
          rw [hi1def]
          exact Nat.mod_lt _ (by omega)
        have hr1mem : r1 ∈ validIdx 2 sol := by
          rw [hr1def]
          exact getD_mem hi1lt 0
        obtain ⟨hr1lt, hr1len⟩ := validIdx_mem hr1mem
        have hrestlen : 1 ≤ rest.length := by
          rw [hrestdef, List.length_eraseIdx, if_pos hi1lt]
          omega
        have hr2rest : r2 ∈ rest := by
          rw [hr2def]
          exact getD_mem (Nat.mod_lt _ (by omega)) 0
        obtain ⟨hr2lt, hr2len⟩ :=
          validIdx_mem ((List.eraseIdx_sublist _ _).subset hr2rest)
        have hne : r1 ≠ r2 := by
          have hcnt := List.nodup_iff_count_le_one.mp (validIdx_nodup 2 sol) r1
          have hpv := List.perm_iff_count.mp (eraseIdx_cons_perm hi1lt) r1
          rw [count_cons_split] at hpv
          rw [← hr1def] at hpv
          have hone : List.count r1 [r1] = 1 := by simp
          have hzero : List.count r1 rest = 0 := by
            rw [hrestdef]
            omega
          intro h
          have : r1 ∈ rest := h ▸ hr2rest
          rw [← List.count_pos_iff] at this
          omega
        have hcb := rngRandint_le 1 ((getR sol r1).length - 2)
          ((rngNext ((rngNext g).2)).2) (by omega)
        rw [← hc1def] at hcb
        have hdb := rngRandint_le 1 ((getR sol r2).length - 2) g3 (by omega)
        rw [← hc2def] at hdb
        split
        next hload =>
          have hswap := swap_inv hinv hr1lt hr1len hcb.1 hcb.2 hr2lt hr2len
            hdb.1 hdb.2 hne hload.1 hload.2
          obtain ⟨ha, hb⟩ := ih _ _ hswap.1
          exact ⟨ha, hb.trans hswap.2⟩
        next hload =>
          exact ih _ _ hinv

/-- Shake_N2 keeps the invariant and the interior multiset. -/
theorem Shake_N2_inv {demands : ℕ → ℕ} {cap : ℕ} (sol : Sol) (k : ℕ) (g : Rng)
    (hinv : Inv demands cap sol) :
    Inv demands cap (Shake_N2_random_swap sol demands cap k g).1 ∧
      (interiors (Shake_N2_random_swap sol demands cap k g).1).Perm
        (interiors sol) :=
  shakeN2Go_inv k sol g hinv

/-- The attempt loop of Shake_N3 keeps the invariant and the interior
multiset, for every random stream. -/
theorem shakeN3Go_inv {demands : ℕ → ℕ} {cap : ℕ} :
    ∀ (k : ℕ) (sol : Sol) (g : Rng), Inv demands cap sol →
      Inv demands cap (shakeN3Go k sol g).1 ∧
        (interiors (shakeN3Go k sol g).1).Perm (interiors sol) := by
  intro k
  induction k with
  | zero =>
    intro sol g hinv
    exact ⟨hinv, List.Perm.refl _⟩
  | succ k ih =>
    intro sol g hinv
    simp only [shakeN3Go]
    split
    next hval => exact ⟨hinv, List.Perm.refl _⟩
    next hval =>
      set r := (rngChoice (validIdx 4 sol) g).1 with hrdef
      set g1 := (rngChoice (validIdx 4 sol) g).2 with hg1def
      set i := (rngRandint 1 ((getR sol r).length - 3) g1).1 with hidef
      set g2 := (rngRandint 1 ((getR sol r).length - 3) g1).2 with hg2def
      set j := (rngRandint (i + 1) ((getR sol r).length - 2) g2).1 with hjdef
      have hmem := rngChoice_mem g hval
      rw [← hrdef] at hmem
      obtain ⟨hrlt, hrlen⟩ := validIdx_mem hmem
      have hib := rngRandint_le 1 ((getR sol r).length - 3) g1 (by omega)
      rw [← hidef] at hib
      have hjb := rngRandint_le (i + 1) ((getR sol r).length - 2) g2 (by omega)
      rw [← hjdef] at hjb
      have hg := hinv.1 _ (getR_mem hrlt)
      have hilen : (getR sol r).length = (interior (getR sol r)).length + 2 := by
        conv_lhs => rw [goodRoute_decomp hg]
        exact length_decomp _
      have hrev := goodRoute_reverseSeg hg hib.1 (by omega)
        (show j ≤ (interior (getR sol r)).length by omega)
      have hperm := set_route_interiors_perm hrlt hrev.2
      have hinv2 : Inv demands cap (sol.set r (reverseSeg (getR sol r) i j)) :=
        inv_of_perm hinv (goodSol_set hinv.1 hrev.1) hperm
      obtain ⟨ha, hb⟩ := ih _ _ hinv2
      exact ⟨ha, hb.trans hperm⟩

/-- Shake_N3 keeps the invariant and the interior multiset. -/
theorem Shake_N3_inv {demands : ℕ → ℕ} {cap : ℕ} (sol : Sol) (k : ℕ) (g : Rng)
    (hinv : Inv demands cap sol) :
    Inv demands cap (Shake_N3_double_bridge sol demands cap k g).1 ∧
      (interiors (Shake_N3_double_bridge sol demands cap k g).1).Perm
        (interiors sol) :=
  shakeN3Go_inv k sol g hinv

instance goodRouteDecidable (demands : ℕ → ℕ) (cap : ℕ) (r : Route) :
    Decidable (GoodRoute demands cap r) := by
  unfold GoodRoute
  infer_instance

instance goodSolDecidable (demands : ℕ → ℕ) (cap : ℕ) (sol : Sol) :
    Decidable (GoodSol demands cap sol) := by
  unfold GoodSol
  exact List.decidableBAll _ _

instance feasibleDecidable (n : ℕ) (demands : ℕ → ℕ) (cap : ℕ) (sol : Sol) :
    Decidable (Feasible n demands cap sol) := by
  unfold Feasible
  infer_instance

/-- A solution with the same route shapes and interior multiset as a feasible
one is feasible. -/
theorem feasible_of_perm {n : ℕ} {demands : ℕ → ℕ} {cap : ℕ} {sol sol2 : Sol}
    (hfeas : Feasible n demands cap sol) (hgs : GoodSol demands cap sol2)
    (hp : (interiors sol2).Perm (interiors sol)) : Feasible n demands cap sol2 :=
  ⟨hgs, hp.trans hfeas.2⟩

/-- C1: every neighborhood operator (N1-N6) and every shaking operator
(Shake_N1, Shake_N2, Shake_N3) maps a feasible solution — interior customers
exactly `{1..n-1}` once each, every route within capacity — to a feasible
solution, for every fuel bound, every shaking strength `k` and every random
stream. -/
theorem C1_operators_preserve_feasibility
    {n : ℕ} {demands : ℕ → ℕ} {cap : ℕ} {sol : Sol}
    (dist : ℕ → ℕ → ℚ) (fuel k : ℕ) (g : Rng)
    (hfeas : Feasible n demands cap sol) :
    Feasible n demands cap (N1_two_opt_intra fuel sol dist) ∧
    Feasible n demands cap (N2_relocate_inter fuel sol demands cap dist) ∧
    Feasible n demands cap (N3_swap_inter fuel sol demands cap dist) ∧
    Feasible n demands cap (N4_two_opt_inter fuel sol demands cap dist) ∧
    Feasible n demands cap (N5_merge_routes fuel sol demands cap dist) ∧
    Feasible n demands cap (N6_or_opt fuel sol demands cap dist) ∧
    Feasible n demands cap (Shake_N1_random_relocate sol demands cap k g).1 ∧
    Feasible n demands cap (Shake_N2_random_swap sol demands cap k g).1 ∧
    Feasible n demands cap (Shake_N3_double_bridge sol demands cap k g).1 := by
  have hinv := hfeas.inv
  obtain ⟨h1a, h1b⟩ := N1_inv fuel sol dist hinv
  obtain ⟨h2a, h2b⟩ := N2_inv fuel sol dist hinv
  obtain ⟨h3a, h3b⟩ := N3_inv fuel sol dist hinv
  obtain ⟨h4a, h4b⟩ := N4_inv fuel sol dist hinv
  obtain ⟨h5a, h5b⟩ := N5_inv fuel sol dist hinv
  obtain ⟨h6a, h6b⟩ := N6_inv fuel sol dist hinv
  obtain ⟨s1a, s1b⟩ := Shake_N1_inv sol k g hinv
  obtain ⟨s2a, s2b⟩ := Shake_N2_inv sol k g hinv
  obtain ⟨s3a, s3b⟩ := Shake_N3_inv sol k g hinv
  exact ⟨feasible_of_perm hfeas h1a.1 h1b, feasible_of_perm hfeas h2a.1 h2b,
    feasible_of_perm hfeas h3a.1 h3b, feasible_of_perm hfeas h4a.1 h4b,
    feasible_of_perm hfeas h5a.1 h5b, feasible_of_perm hfeas h6a.1 h6b,
    feasible_of_perm hfeas s1a.1 s1b, feasible_of_perm hfeas s2a.1 s2b,
    feasible_of_perm hfeas s3a.1 s3b⟩

/-- The feasibility hypothesis of the operator-invariance theorem holds on a
concrete two-route instance, and the theorem applies there. -/
theorem C1_operators_preserve_feasibility_witness :
    Feasible 3 (fun i => if i = 0 then 0 else 1) 2 [[0, 1, 0], [0, 2, 0]] ∧
      Feasible 3 (fun i => if i = 0 then 0 else 1) 2
        (N1_two_opt_intra 1 [[0, 1, 0], [0, 2, 0]] (fun _ _ => 0)) :=
  ⟨by decide, (C1_operators_preserve_feasibility (fun _ _ => 0) 1 1 []
    (by decide)).1⟩

theorem opLoop_length_eq {step : Sol → Option Sol}
    (hstep : ∀ s s2, step s = some s2 → s2.length = s.length) :
    ∀ (fuel : ℕ) (s : Sol), (opLoop step fuel s).length = s.length := by
  intro fuel
  induction fuel with
  | zero => intro s; rfl
  | succ n ih =>
    intro s
    simp only [opLoop]
    cases hs : step s with
    | none => rfl
    | some s2 => exact (ih s2).trans (hstep s s2 hs)

theorem opLoop_length_le {step : Sol → Option Sol}
    (hstep : ∀ s s2, step s = some s2 → s2.length ≤ s.length) :
    ∀ (fuel : ℕ) (s : Sol), (opLoop step fuel s).length ≤ s.length := by
  intro fuel
  induction fuel with
  | zero => intro s; exact le_rfl
  | succ n ih =>
    intro s
    simp only [opLoop]
    cases hs : step s with
    | none => exact le_rfl
    | some s2 => exact (ih s2).trans (hstep s s2 hs)

theorem n1Step_length (dist : ℕ → ℕ → ℚ) :
    ∀ sol sol2, n1Step dist sol = some sol2 → sol2.length = sol.length := by
  intro sol sol2 h
  unfold n1Step at h
  cases hf : (n1Candidates sol).find?
      (fun m => decide (n1Delta dist (getR sol m.1) m.2.1 m.2.2
        < -IMPROVEMENT_THRESHOLD)) with
  | none => rw [hf] at h; cases h
  | some m =>
    rw [hf] at h
    obtain ⟨r, i, j⟩ := m
    simp only [Option.some.injEq] at h
    subst h
    exact List.length_set ..

theorem n2Step_length (demands : ℕ → ℕ) (cap : ℕ) (dist : ℕ → ℕ → ℚ) :
    ∀ sol sol2, n2Step demands cap dist sol = some sol2 →
      sol2.length ≤ sol.length := by
  intro sol sol2 h
  unfold n2Step at h
  cases hf : pickBest (n2Delta dist sol) IMPROVEMENT_THRESHOLD
      (n2Candidates demands cap sol) with
  | none => rw [hf] at h; cases h
  | some m =>
    rw [hf] at h
    obtain ⟨r1, c, r2, pos⟩ := m
    simp only [Option.some.injEq] at h
    subst h
    unfold n2Apply
    simp only
    refine (List.length_filter_le _ _).trans ?_
    simp

theorem n3Step_length (demands : ℕ → ℕ) (cap : ℕ) (dist : ℕ → ℕ → ℚ) :
    ∀ sol sol2, n3Step demands cap dist sol = some sol2 →
      sol2.length = sol.length := by
  intro sol sol2 h
  unfold n3Step at h
  cases hf : pickBest (n3Delta dist sol) IMPROVEMENT_THRESHOLD
      (n3Candidates demands cap sol) with
  | none => rw [hf] at h; cases h
  | some m =>
    rw [hf] at h
    obtain ⟨r1, c1, r2, c2⟩ := m
    simp only [Option.some.injEq] at h
    subst h
    unfold n3Apply
    simp

theorem n4Step_length (demands : ℕ → ℕ) (cap : ℕ) (dist : ℕ → ℕ → ℚ) :
    ∀ sol sol2, n4Step demands cap dist sol = some sol2 →
      sol2.length = sol.length := by
  intro sol sol2 h
  unfold n4Step at h
  cases hf : (n4Candidates sol).find?
      (fun m => decide (n4Accept demands cap dist sol m)) with
  | none => rw [hf] at h; cases h
  | some m =>
    rw [hf] at h
    obtain ⟨r1, r2, i, j⟩ := m
    simp only [Option.some.injEq] at h
    subst h
    simp

/-- A found N5 merge removes exactly one route. -/
theorem n5Step_length (demands : ℕ → ℕ) (cap : ℕ) (dist : ℕ → ℕ → ℚ) :
    ∀ sol sol2, n5Step demands cap dist sol = some sol2 →
      sol2.length = sol.length - 1 ∧ 2 ≤ sol.length := by
  intro sol sol2 h
  unfold n5Step at h
  cases hf : pickBest (n5Delta dist sol) IMPROVEMENT_THRESHOLD
      (n5Candidates demands cap sol) with
  | none => rw [hf] at h; cases h
  | some m =>
    rw [hf] at h
    obtain ⟨r1, r2, cfg⟩ := m
    simp only [Option.some.injEq] at h
    subst h
    obtain ⟨hr1, hlt, hr2, _⟩ := n5Candidates_mem (pickBest_mem hf).1
    unfold n5Apply
    simp only
    rw [removeTwo_eq hlt]
    rw [List.length_append, List.length_eraseIdx, List.length_eraseIdx]
    rw [if_pos hr2, if_pos (by omega)]
    constructor
    · simp
      omega
    · omega

theorem n6Step_length (demands : ℕ → ℕ) (cap : ℕ) (dist : ℕ → ℕ → ℚ) :
    ∀ sol sol2, n6Step demands cap dist sol = some sol2 →
      sol2.length ≤ sol.length := by
  intro sol sol2 h
  unfold n6Step at h
  cases hf : pickBest (n6Delta dist sol) IMPROVEMENT_THRESHOLD
      (n6Candidates demands cap sol) with
  | none => rw [hf] at h; cases h
  | some m =>
    rw [hf] at h
    simp only [Option.some.injEq] at h
    subst h
    cases m with
    | intra r cs cl ip =>
      unfold n6Apply
      simp
    | inter r1 cs cl r2 ip =>
      unfold n6Apply
      simp only
      refine (List.length_filter_le _ _).trans ?_
      simp

theorem vndApply_length_le (opFuel : ℕ) (demands : ℕ → ℕ) (cap : ℕ)
    (dist : ℕ → ℕ → ℚ) (k : ℕ) (sol : Sol) :
    (vndApply opFuel demands cap dist k sol).length ≤ sol.length := by
  have h5 : ∀ s s2, n5Step demands cap dist s = some s2 →
      s2.length ≤ s.length := by
    intro s s2 hs
    have := n5Step_length demands cap dist s s2 hs
    omega
  cases k with
  | zero => exact le_of_eq (opLoop_length_eq (n1Step_length dist) opFuel sol)
  | succ k1 =>
    cases k1 with
    | zero => exact opLoop_length_le h5 opFuel sol
    | succ k2 =>
      cases k2 with
      | zero => exact opLoop_length_le (n2Step_length demands cap dist) opFuel sol
      | succ k3 =>
        cases k3 with
        | zero =>
          exact le_of_eq (opLoop_length_eq (n3Step_length demands cap dist) opFuel sol)
        | succ k4 =>
          cases k4 with
          | zero =>
            exact le_of_eq (opLoop_length_eq (n4Step_length demands cap dist) opFuel sol)
          | succ k5 =>
            exact opLoop_length_le (n6Step_length demands cap dist) opFuel sol

theorem vndGo_length_le (opFuel : ℕ) (demands : ℕ → ℕ) (cap : ℕ)
    (dist : ℕ → ℕ → ℚ) (useOrOpt : Bool) :
    ∀ (fuel k : ℕ) (sol : Sol),
      ((vndGo opFuel demands cap dist useOrOpt fuel k sol).1).length ≤
        sol.length := by
  intro fuel
  induction fuel with
  | zero => intro k sol; exact le_rfl
  | succ n ih =>
    intro k sol
    simp only [vndGo]
    split
    · split
      · exact (ih 0 _).trans (vndApply_length_le opFuel demands cap dist k sol)
      · exact ih (k + 1) sol
    · exact le_rfl

/-- C10: no local-search operator ever increases the number of routes — N1,
N3 and N4 preserve the route count exactly, N2, N5 and N6 never increase it,
a found N5 merge removes exactly one route, and the VND engine never
increases the route count. -/
theorem C10_route_count_monotone (fuel opFuel : ℕ) (sol : Sol)
    (demands : ℕ → ℕ) (cap : ℕ) (dist : ℕ → ℕ → ℚ) (useOrOpt : Bool) :
    (N1_two_opt_intra fuel sol dist).length = sol.length ∧
    (N2_relocate_inter fuel sol demands cap dist).length ≤ sol.length ∧
    (N3_swap_inter fuel sol demands cap dist).length = sol.length ∧
    (N4_two_opt_inter fuel sol demands cap dist).length = sol.length ∧
    (N5_merge_routes fuel sol demands cap dist).length ≤ sol.length ∧
    (N6_or_opt fuel sol demands cap dist).length ≤ sol.length ∧
    (∀ sol2, n5Step demands cap dist sol = some sol2 →
      sol2.length = sol.length - 1) ∧
    ((VND fuel opFuel sol demands cap dist useOrOpt).1).length ≤ sol.length := by
  refine ⟨opLoop_length_eq (n1Step_length dist) fuel sol,
    opLoop_length_le (n2Step_length demands cap dist) fuel sol,
    opLoop_length_eq (n3Step_length demands cap dist) fuel sol,
    opLoop_length_eq (n4Step_length demands cap dist) fuel sol,
    ?_, opLoop_length_le (n6Step_length demands cap dist) fuel sol,
    fun sol2 h => (n5Step_length demands cap dist sol sol2 h).1,
    vndGo_length_le opFuel demands cap dist useOrOpt fuel 0 sol⟩
  refine opLoop_length_le ?_ fuel sol
  intro s s2 hs
  have := n5Step_length demands cap dist s s2 hs
  omega

/-- On a concrete two-route instance N5 finds a merge and the route count
drops from 2 to 1, as the route-count theorem states. -/
theorem C10_route_count_monotone_witness :
    n5Step (fun i => if i = 0 then 0 else 1) 2
      (fun i j => Rat.divInt (((i : ℤ) - (j : ℤ)).natAbs) 1)
      [[0, 1, 0], [0, 2, 0]] = some [[0, 1, 2, 0]] ∧
    ([[0, 1, 2, 0]] : Sol).length = ([[0, 1, 0], [0, 2, 0]] : Sol).length - 1 := by
  have hstep : n5Step (fun i => if i = 0 then 0 else 1) 2
      (fun i j => Rat.divInt (((i : ℤ) - (j : ℤ)).natAbs) 1)
      [[0, 1, 0], [0, 2, 0]] = some [[0, 1, 2, 0]] := by
    with_unfolding_all rfl
  exact ⟨hstep, (C10_route_count_monotone 1 1 [[0, 1, 0], [0, 2, 0]]
    (fun i => if i = 0 then 0 else 1) 2
    (fun i j => Rat.divInt (((i : ℤ) - (j : ℤ)).natAbs) 1) false).2.2.2.2.2.2.1
    [[0, 1, 2, 0]] hstep⟩

/-- When the VND loop genuinely terminates, every neighborhood beyond those
already rejected on entry is rejected on the final solution. -/
theorem vndGo_converged (opFuel : ℕ) (demands : ℕ → ℕ) (cap : ℕ)
    (dist : ℕ → ℕ → ℚ) (useOrOpt : Bool) :
    ∀ (fuel k : ℕ) (sol out : Sol),
      vndGo opFuel demands cap dist useOrOpt fuel k sol = (out, true) →
      (∀ j, j < k → ¬vndAccept dist (vndApply opFuel demands cap dist j sol) sol) →
      ∀ j, j < vndLen useOrOpt →
        ¬vndAccept dist (vndApply opFuel demands cap dist j out) out := by
  intro fuel
  induction fuel with
  | zero =>
    intro k sol out h
    simp only [vndGo] at h
    simp at h
  | succ n ih =>
    intro k sol out h hpre
    simp only [vndGo] at h
    by_cases hk : k < vndLen useOrOpt
    · rw [if_pos hk] at h
      by_cases hacc : vndAccept dist (vndApply opFuel demands cap dist k sol) sol
      · rw [if_pos hacc] at h
        exact ih 0 _ out h (fun j hj => absurd hj (Nat.not_lt_zero j))
      · rw [if_neg hacc] at h
        refine ih (k + 1) sol out h ?_
        intro j hj
        rcases Nat.lt_succ_iff_lt_or_eq.mp hj with h2 | h2
        · exact hpre j h2
        · subst h2
          exact hacc
    · rw [if_neg hk] at h
      injection h with h1 h2
      subst h1
      intro j hj
      exact hpre j (by omega)

/-- A solution rejected by every remaining neighborhood is a fixed point of
the VND loop: with enough fuel the loop returns it unchanged with the
termination flag set. -/
theorem vndGo_fixed (opFuel : ℕ) (demands : ℕ → ℕ) (cap : ℕ)
    (dist : ℕ → ℕ → ℚ) (useOrOpt : Bool) :
    ∀ (fuel k : ℕ) (out : Sol),
      (∀ j, k ≤ j → j < vndLen useOrOpt →
        ¬vndAccept dist (vndApply opFuel demands cap dist j out) out) →
      k ≤ vndLen useOrOpt →
      vndLen useOrOpt + 1 ≤ fuel + k →
      vndGo opFuel demands cap dist useOrOpt fuel k out = (out, true) := by
  intro fuel
  induction fuel with
  | zero =>
    intro k out hrej hk hf
    omega
  | succ n ih =>
    intro k out hrej hk hf
    simp only [vndGo]
    by_cases hklt : k < vndLen useOrOpt
    · rw [if_pos hklt, if_neg (hrej k le_rfl hklt)]
      exact ih (k + 1) out (fun j hj1 hj2 => hrej j (by omega) hj2)
        (by omega) (by omega)
    · rw [if_neg hklt]

/-- C4: VND is idempotent — whenever a VND run genuinely terminates (its
inner index reached the end of the neighborhood list) with output `out`,
running VND again on `out` returns `out` itself, for any sufficient fuel. -/
theorem C4_vnd_idempotent (opFuel : ℕ) (demands : ℕ → ℕ) (cap : ℕ)
    (dist : ℕ → ℕ → ℚ) (useOrOpt : Bool) (fuel fuel2 : ℕ) (sol out : Sol)
    (h : VND fuel opFuel sol demands cap dist useOrOpt = (out, true))
    (hf : vndLen useOrOpt + 1 ≤ fuel2) :
    VND fuel2 opFuel out demands cap dist useOrOpt = (out, true) := by
  unfold VND at h ⊢
  have hconv := vndGo_converged opFuel demands cap dist useOrOpt fuel 0 sol out h
    (fun j hj => absurd hj (Nat.not_lt_zero j))
  exact vndGo_fixed opFuel demands cap dist useOrOpt fuel2 0 out
    (fun j _ hj => hconv j hj) (Nat.zero_le _) (by omega)

/-- C5: the VND engine's control flow — with the index inside the
neighborhood list, the step is accepted and the index reset to zero exactly
when the result improves the cost beyond the threshold or ties it with
strictly fewer routes; otherwise the index is incremented; the loop returns
with the termination flag exactly when the index reaches the end of the
list; and VND starts the loop at index zero. -/
theorem C5_vnd_control (opFuel : ℕ) (demands : ℕ → ℕ) (cap : ℕ)
    (dist : ℕ → ℕ → ℚ) (useOrOpt : Bool) (fuel k : ℕ) (sol : Sol) :
    (k < vndLen useOrOpt →
      vndAccept dist (vndApply opFuel demands cap dist k sol) sol →
      vndGo opFuel demands cap dist useOrOpt (fuel + 1) k sol =
        vndGo opFuel demands cap dist useOrOpt fuel 0
          (vndApply opFuel demands cap dist k sol)) ∧
    (k < vndLen useOrOpt →
      ¬vndAccept dist (vndApply opFuel demands cap dist k sol) sol →
      vndGo opFuel demands cap dist useOrOpt (fuel + 1) k sol =
        vndGo opFuel demands cap dist useOrOpt fuel (k + 1) sol) ∧
    (vndLen useOrOpt ≤ k →
      vndGo opFuel demands cap dist useOrOpt (fuel + 1) k sol = (sol, true)) ∧
    VND (fuel + 1) opFuel sol demands cap dist useOrOpt =
      vndGo opFuel demands cap dist useOrOpt (fuel + 1) 0 sol := by
  refine ⟨?_, ?_, ?_, rfl⟩
  · intro hk hacc
    simp only [vndGo]
    rw [if_pos hk, if_pos hacc]
  · intro hk hacc
    simp only [vndGo]
    rw [if_pos hk, if_neg hacc]
  · intro hk
    simp only [vndGo]
    rw [if_neg (by omega : ¬ k < vndLen useOrOpt)]

/-- A concrete VND run terminates with output `[[0, 1, 2, 0]]`, and running
VND again on that output returns it unchanged. -/
theorem C4_vnd_idempotent_witness :
    VND 8 1 [[0, 1, 0], [0, 2, 0]] (fun i => if i = 0 then 0 else 1) 2
      (fun i j => Rat.divInt (((i : ℤ) - (j : ℤ)).natAbs) 1) false =
      ([[0, 1, 2, 0]], true) ∧
    vndLen false + 1 ≤ 6 ∧
    VND 6 1 [[0, 1, 2, 0]] (fun i => if i = 0 then 0 else 1) 2
      (fun i j => Rat.divInt (((i : ℤ) - (j : ℤ)).natAbs) 1) false =
      ([[0, 1, 2, 0]], true) :=
  ⟨by with_unfolding_all rfl, by decide,
    C4_vnd_idempotent 1 (fun i => if i = 0 then 0 else 1) 2
      (fun i j => Rat.divInt (((i : ℤ) - (j : ℤ)).natAbs) 1) false 8 6
      [[0, 1, 0], [0, 2, 0]] [[0, 1, 2, 0]]
      (by with_unfolding_all rfl) (by decide)⟩

/-- On a concrete instance the merge neighborhood is accepted at index 1 of
the VND loop, which restarts from index 0 on the merged solution. -/
theorem C5_vnd_control_witness :
    1 < vndLen false ∧
    vndAccept (fun i j => Rat.divInt (((i : ℤ) - (j : ℤ)).natAbs) 1)
      (vndApply 1 (fun i => if i = 0 then 0 else 1) 2
        (fun i j => Rat.divInt (((i : ℤ) - (j : ℤ)).natAbs) 1) 1
        [[0, 1, 0], [0, 2, 0]]) [[0, 1, 0], [0, 2, 0]] ∧
    vndGo 1 (fun i => if i = 0 then 0 else 1) 2
      (fun i j => Rat.divInt (((i : ℤ) - (j : ℤ)).natAbs) 1) false 1 1
      [[0, 1, 0], [0, 2, 0]] =
    vndGo 1 (fun i => if i = 0 then 0 else 1) 2
      (fun i j => Rat.divInt (((i : ℤ) - (j : ℤ)).natAbs) 1) false 0 0
      (vndApply 1 (fun i => if i = 0 then 0 else 1) 2
        (fun i j => Rat.divInt (((i : ℤ) - (j : ℤ)).natAbs) 1) 1
        [[0, 1, 0], [0, 2, 0]]) :=
  ⟨by decide, by with_unfolding_all decide,
    (C5_vnd_control 1 (fun i => if i = 0 then 0 else 1) 2
      (fun i j => Rat.divInt (((i : ℤ) - (j : ℤ)).natAbs) 1) false 0 1
      [[0, 1, 0], [0, 2, 0]]).1 (by decide) (by with_unfolding_all decide)⟩

/-- Tabu insertion respects the tenure bound. -/
theorem tabuPush_le {tenure : ℕ} {tabu : List (List (List ℕ))}
    (h2 : List (List ℕ)) (hle : tabu.length ≤ tenure) :
    (tabuPush tenure tabu h2).length ≤ tenure := by
  unfold tabuPush
  simp only
  split
  next hgt =>
    rw [List.length_tail]
    simp only [List.length_append, List.length_cons, List.length_nil]
    omega
  next hgt =>
    simp only [List.length_append, List.length_cons, List.length_nil] at hgt ⊢
    omega

/-- One VNS iteration keeps the tabu list within the tenure. -/
theorem vnsIter_tabu_le (ctx : VnsCtx) (st : VnsState)
    (hle : st.tabu.length ≤ tabuTenure ctx.n) :
    ((vnsIter ctx st).1).tabu.length ≤ tabuTenure ctx.n := by
  unfold vnsIter
  simp only
  split
  next hmem => exact hle
  next hmem =>
    split
    next hacc => exact tabuPush_le _ hle
    next hacc => exact hle

/-- Every iteration advances the iteration counter by exactly one. -/
theorem vnsIter_iteration (ctx : VnsCtx) (st : VnsState) :
    ((vnsIter ctx st).1).iteration = st.iteration + 1 := by
  unfold vnsIter
  simp only
  split
  next hmem => rfl
  next hmem =>
    split
    next hacc => rfl
    next hacc => rfl

/-- The whole VNS loop keeps the tabu list within the tenure. -/
theorem vnsLoop_tabu_le (ctx : VnsCtx) :
    ∀ (f : ℕ) (st : VnsState), st.tabu.length ≤ tabuTenure ctx.n →
      ((vnsLoop ctx f st)).tabu.length ≤ tabuTenure ctx.n := by
  intro f
  induction f with
  | zero => intro st hle; exact hle
  | succ n ih =>
    intro st hle
    simp only [vnsLoop]
    split
    next hguard =>
      split
      next hstop => exact vnsIter_tabu_le ctx st hle
      next hstop => exact ih _ (vnsIter_tabu_le ctx st hle)
    next hguard => exact hle

/-- C6: the tabu tenure is the clamp of `n / 20` between the configured
minimum and maximum; one VNS iteration and the whole VNS loop keep the tabu
list within the tenure; and an insertion into a full tabu list evicts exactly
the oldest fingerprint (FIFO) while appending the new one at the back. -/
theorem C6_tabu_bound (ctx : VnsCtx) (st : VnsState) (f : ℕ)
    (tabu : List (List (List ℕ))) (h : List (List ℕ))
    (hlen : st.tabu.length ≤ tabuTenure ctx.n)
    (hfull : tabu.length = tabuTenure ctx.n) (hne : tabu ≠ []) :
    tabuTenure ctx.n = min TABU_TENURE_MAX (max TABU_TENURE_MIN (ctx.n / 20)) ∧
    ((vnsIter ctx st).1).tabu.length ≤ tabuTenure ctx.n ∧
    ((vnsLoop ctx f st)).tabu.length ≤ tabuTenure ctx.n ∧
    tabuPush (tabuTenure ctx.n) tabu h = tabu.tail ++ [h] := by
  refine ⟨rfl, vnsIter_tabu_le ctx st hlen, vnsLoop_tabu_le ctx f st hlen, ?_⟩
  unfold tabuPush
  simp only
  rw [if_pos (by simp [hfull])]
  cases tabu with
  | nil => cases hne rfl
  | cons a t => rfl

/-- Witness: the tabu-tenure hypotheses hold at a concrete context, state
and full tabu list, and insertion there evicts the oldest entry. -/
theorem C6_tabu_bound_witness :
    exStC6.tabu.length ≤ tabuTenure exCtxC6.n ∧
    exTabuC6.length = tabuTenure exCtxC6.n ∧ exTabuC6 ≠ [] ∧
    tabuPush (tabuTenure exCtxC6.n) exTabuC6 [[2]] = exTabuC6.tail ++ [[[2]]] :=
  ⟨by decide, by decide, by decide,
    (C6_tabu_bound exCtxC6 exStC6 0 exTabuC6 [[2]] (by decide) (by decide)
      (by decide)).2.2.2⟩

/-- The improvement threshold of the VND acceptance is positive. -/
theorem EPS_pos : (0 : ℚ) < EPS := by
  with_unfolding_all decide

theorem self_lt_add_EPS (bc : ℚ) : bc < bc + EPS := by
  have := EPS_pos
  linarith

/-- Arithmetic core of both acceptance branches: any accepted cost is below
the old best cost plus the tolerance. -/
theorem accepted_cost_lt {bc c2 : ℚ} (h : c2 < bc - EPS ∨ pyAbs (c2 - bc) < EPS) :
    c2 < bc + EPS := by
  have hE := EPS_pos
  rcases h with h | h
  · linarith
  · unfold pyAbs at h
    split at h
    next hneg => linarith
    next hneg => linarith

/-- C2 (amended): across one iteration of the VNS loop the tracked best cost
never increases by `1e-6` or more — it is quasi-monotone up to the acceptance
tolerance, though not monotone (see the counterexample). -/
theorem C2_best_cost_quasi_monotone (ctx : VnsCtx) (st : VnsState) :
    ((vnsIter ctx st).1).bestCost < st.bestCost + EPS := by
  unfold vnsIter
  simp only
  split
  next hmem => exact self_lt_add_EPS st.bestCost
  next hmem =>
    split
    next hacc =>
      exact accepted_cost_lt (hacc.imp id And.left)
    next hacc => exact self_lt_add_EPS st.bestCost

/-- C2 counterexample: on the concrete five-node instance, iteration 0
accepts a solution with strictly larger cost (`44e-8` against `28e-8`)
because the cost tie is within `1e-6` and the route count drops — the best
cost strictly increases across the iteration. -/
theorem C2_counterexample :
    exSt2.bestCost < ((vnsIter exCtx2 exSt2).1).bestCost := by
  with_unfolding_all decide

/-- With the iteration counter at or past the bound, the loop exits at once. -/
theorem vnsLoop_done {ctx : VnsCtx} {st : VnsState}
    (h : ctx.maxIter ≤ st.iteration) : ∀ f, vnsLoop ctx f st = st := by
  intro f
  cases f with
  | zero => rfl
  | succ f2 =>
    simp only [vnsLoop]
    rw [if_neg ?_]
    intro hc
    omega

/-- The VNS loop is fuel-stable: any two fuels covering the remaining
iteration budget give the same final state. -/
theorem vnsLoop_stable (ctx : VnsCtx) :
    ∀ (f1 f2 : ℕ) (st : VnsState), ctx.maxIter - st.iteration ≤ f1 →
      ctx.maxIter - st.iteration ≤ f2 → vnsLoop ctx f1 st = vnsLoop ctx f2 st := by
  intro f1
  induction f1 with
  | zero =>
    intro f2 st h1 h2
    rw [vnsLoop_done (by omega) f2]
    rfl
  | succ f1n ih =>
    intro f2 st h1 h2
    by_cases hdone : ctx.maxIter ≤ st.iteration
    · rw [vnsLoop_done hdone, vnsLoop_done hdone]
    · cases f2 with
      | zero => omega
      | succ f2n =>
        simp only [vnsLoop]
        split
        next hguard =>
          split
          next hstop => rfl
          next hstop =>
            have hit := vnsIter_iteration ctx st
            exact ih f2n (vnsIter ctx st).1 (by omega) (by omega)
        next hguard => rfl

/-- C8 (amended): the orchestrator loop terminates — it is fuel-stable once
the fuel covers the remaining iteration budget — and the early-stop break
fires in an iteration exactly when that iteration is NOT a tabu skip and the
patience and minimum-iteration conditions hold at its end: a tabu skip
bypasses the early-stopping check. -/
theorem C8_termination_and_early_stop (ctx : VnsCtx) (f1 f2 : ℕ) (st : VnsState)
    (h1 : ctx.maxIter - st.iteration ≤ f1) (h2 : ctx.maxIter - st.iteration ≤ f2) :
    vnsLoop ctx f1 st = vnsLoop ctx f2 st ∧
    ((vnsIter ctx st).2 = true ↔
      (solution_hash (shakeDispatch ctx ((st.k - 1) % 3) st.best st.k st.rng).1 ∉
          st.tabu ∧
        earlyStop ctx ((vnsIter ctx st).1) = true)) := by
  refine ⟨vnsLoop_stable ctx f1 f2 st h1 h2, ?_⟩
  unfold vnsIter
  simp only
  split
  next hmem => simp [hmem]
  next hmem =>
    split
    next hacc => simp [hmem]
    next hacc => simp [hmem]

/-- Witness: the fuel bounds of the termination-and-early-stop theorem hold
at the concrete context and state, and the loop is fuel-stable there. -/
theorem C8_termination_witness :
    exCtx8.maxIter - exSt8.iteration ≤ 99 ∧
    vnsLoop exCtx8 99 exSt8 = vnsLoop exCtx8 100 exSt8 :=
  ⟨by decide,
    (C8_termination_and_early_stop exCtx8 99 100 exSt8 (by decide) (by decide)).1⟩

/-- C8 counterexample: at the concrete state (iteration 301, last improvement
at 0) the patience and minimum-iteration conditions hold at the iteration
end, yet the iteration is a tabu skip, the break flag stays `false`, and the
loop keeps running for two further iterations. -/
theorem C8_counterexample :
    (vnsIter exCtx8 exSt8).2 = false ∧
    earlyStop exCtx8 ((vnsIter exCtx8 exSt8).1) = true ∧
    minIterations exCtx8.n < ((vnsIter exCtx8 exSt8).1).iteration ∧
    patience exCtx8.n <
      ((vnsIter exCtx8 exSt8).1).iteration -
        ((vnsIter exCtx8 exSt8).1).lastImprovement ∧
    (vnsLoop exCtx8 2 exSt8).iteration = 303 := by
  with_unfolding_all decide

/-- C9: an unknown construction-method name falls back to Clarke-Wright —
the dispatcher returns exactly what it returns for 'Clarke-Wright': the
savings solution with its label, without failing. -/
theorem C9_unknown_method_fallback (nnFuel : ℕ) (demands : ℕ → ℕ) (cap : ℕ)
    (dist : ℕ → ℕ → ℚ) (n : ℕ) (method : String) (g : Rng)
    (h : method ∉ knownMethods) :
    build_initial_solution nnFuel demands cap dist n method g =
      build_initial_solution nnFuel demands cap dist n "Clarke-Wright" g ∧
    build_initial_solution nnFuel demands cap dist n method g =
      some ((savings_algorithm demands cap dist n, "Clarke-Wright Savings"), g) := by
  unfold build_initial_solution
  rw [if_neg h, if_pos (by decide : ("Clarke-Wright" : String) ∈ knownMethods)]
  exact ⟨rfl, rfl⟩

/-- Witness: 'bogus' is not a known method name, and the dispatcher returns
the Clarke-Wright savings solution for it. -/
theorem C9_unknown_method_fallback_witness :
    ("bogus" : String) ∉ knownMethods ∧
    build_initial_solution 1 (fun _ => 0) 1 (fun _ _ => 0) 3 "bogus" [] =
      some ((savings_algorithm (fun _ => 0) 1 (fun _ _ => 0) 3,
        "Clarke-Wright Savings"), []) :=
  ⟨by decide, (C9_unknown_method_fallback 1 (fun _ => 0) 1 (fun _ _ => 0) 3
    "bogus" [] (by decide)).2⟩

/-- C3: on an instance holding a customer whose demand exceeds the capacity
(customer 1 demands 5 against capacity 3), the nearest-neighbor construction
loop never terminates — no fuel bound suffices, because the infeasible
customer is never removed from the unvisited set and no route makes
progress. The claim that it terminates and silently drops the customer is
refuted. -/
theorem C3_nearest_neighbor_diverges (fuel : ℕ) :
    nearest_neighbor_vrp fuel (fun i => if i = 1 then 5 else 0) 3
      (fun _ _ => 0) 2 = none := by
  unfold nearest_neighbor_vrp
  show nnOuter (fun i => if i = 1 then 5 else 0) 3 (fun _ _ => 0) fuel [1] [] = none
  induction fuel with
  | zero => rfl
  | succ f ih => exact ih

/-- Merge-sorting by the ascending order is a canonical form: permuted lists
sort identically. -/
theorem mergeSort_eq_of_perm {α : Type} [LinearOrder α] {l1 l2 : List α}
    (h : l1.Perm l2) :
    l1.mergeSort (fun a b => decide (a ≤ b)) =
      l2.mergeSort (fun a b => decide (a ≤ b)) := by
  have htr : ∀ a b c : α, decide (a ≤ b) = true → decide (b ≤ c) = true →
      decide (a ≤ c) = true := by
    intro a b c h1 h2
    rw [decide_eq_true_eq] at h1 h2 ⊢
    exact le_trans h1 h2
  have htot : ∀ a b : α, (decide (a ≤ b) || decide (b ≤ a)) = true := by
    intro a b
    rcases le_total a b with h1 | h1 <;> simp [h1]
  have hp : (l1.mergeSort fun a b => decide (a ≤ b)).Perm
      (l2.mergeSort fun a b => decide (a ≤ b)) :=
    ((List.mergeSort_perm l1 _).trans h).trans (List.mergeSort_perm l2 _).symm
  have hs1 := List.sorted_mergeSort htr htot l1
  have hs2 := List.sorted_mergeSort htr htot l2
  have hs1b : List.Sorted (fun a b : α => a ≤ b)
      (l1.mergeSort fun a b => decide (a ≤ b)) :=
    List.Pairwise.imp (fun hab => by
      rw [decide_eq_true_eq] at hab
      exact hab) hs1
  have hs2b : List.Sorted (fun a b : α => a ≤ b)
      (l2.mergeSort fun a b => decide (a ≤ b)) :=
    List.Pairwise.imp (fun hab => by
      rw [decide_eq_true_eq] at hab
      exact hab) hs2
  exact List.eq_of_perm_of_sorted hp hs1b hs2b

theorem sortNat_perm_eq {l1 l2 : List ℕ} (h : l1.Perm l2) :
    sortNat l1 = sortNat l2 :=
  mergeSort_eq_of_perm h

theorem sortRoutes_perm_eq {l1 l2 : List (List ℕ)} (h : l1.Perm l2) :
    sortRoutes l1 = sortRoutes l2 :=
  mergeSort_eq_of_perm h

/-- The interior of a reversed route is the reversed interior. -/
theorem interior_reverse (r : Route) :
    interior r.reverse = (interior r).reverse := by
  unfold interior
  rw [List.drop_one, List.drop_one, List.tail_reverse, List.dropLast_reverse,
    List.tail_dropLast]

/-- C7: the solution fingerprint is invariant under permuting the routes and
reversing the traversal direction of any subset of them — any solution
obtained from `sol` by flipping a subset of routes and reordering collides
with `sol` on the fingerprint. -/
theorem C7_hash_invariance (sol sol2 : Sol) (flip : Route → Bool)
    (h : sol2.Perm (sol.map fun r => if flip r then r.reverse else r)) :
    solution_hash sol2 = solution_hash sol := by
  unfold solution_hash
  apply sortRoutes_perm_eq
  refine (h.map _).trans ?_
  rw [List.map_map]
  have hmap : sol.map ((fun r => sortNat (interior r)) ∘
      fun r => if flip r then r.reverse else r) =
      sol.map fun r => sortNat (interior r) := by
    refine List.map_congr_left fun r hr => ?_
    by_cases hf : flip r
    · simp only [Function.comp, if_pos hf]
      rw [interior_reverse]
      exact sortNat_perm_eq (List.reverse_perm _)
    · simp only [Function.comp, if_neg hf]
  rw [hmap]

/-- Witness: a concrete two-route solution, reordered and with one route
reversed, has the same fingerprint as the original. -/
theorem C7_hash_invariance_witness :
    ([[0, 3, 0], [0, 2, 1, 0]] : Sol).Perm
      (([[0, 1, 2, 0], [0, 3, 0]] : Sol).map fun r =>
        if (fun r2 : Route => decide (r2.length = 4)) r then r.reverse else r) ∧
    solution_hash [[0, 3, 0], [0, 2, 1, 0]] =
      solution_hash [[0, 1, 2, 0], [0, 3, 0]] :=
  ⟨by decide, C7_hash_invariance [[0, 1, 2, 0], [0, 3, 0]]
    [[0, 3, 0], [0, 2, 1, 0]] (fun r2 => decide (r2.length = 4)) (by decide)⟩

end VnsCvrp
